import Mathlib

/-!
# libmygo: bit-vector allocator and fixed-slot block

A shallow embedding of `bitmap/bitmap.go`, `bitmap/endian.go` and
`storage/block.go`, executed sequentially (one caller at a time, so every
compare-and-swap succeeds on its first attempt and every mutex is free).

* Go `int` values are `Int`; `/` and `%` on them are `Int.tdiv` and `Int.tmod`
  (Go truncates toward zero).
* Bytes and `uint32` values are `Nat`, reduced `% 256` resp. `% 2^32` where the
  Go code can overflow.
* A Go run-time panic (slice index out of range, the explicit `panic` of
  `Block.Get`) is the result `none`.
-/

namespace LibMyGo

/-! ## bitmap/endian.go -/

/-- The two values `nativeEndian` can take after `init`. -/
inductive ByteOrder where
  | LittleEndian
  | BigEndian
deriving DecidableEq, Repr

/-- Go conversion `byte(x)` of an `int`. -/
def toByte (x : Int) : Nat := (x % 256).toNat

/-- Go conversion `uint32(x)` of a signed integer. -/
def toUint32 (x : Int) : Nat := (x % 4294967296).toNat

/-- Function `bitMask32` of endian.go; the shift is a `uint32` shift. -/
def bitMask32 (nativeEndian : ByteOrder) (i : Int) : Nat :=
  match nativeEndian with
  | ByteOrder.BigEndian => (1 <<< toByte (Int.tmod i 32)) % 4294967296
  | ByteOrder.LittleEndian =>
    let bitOff := Int.tmod i 8
    let bytOff := Int.tdiv (Int.tmod i 32) 8
    (1 <<< toByte (bytOff * 8 + bitOff)) % 4294967296

/-! ## bitmap/bitmap.go -/

/-- The `BitMap` struct. `store` is the whole backing array of the slice (its
`cap` bytes), `len` is the slice length `len(m.store)`. -/
structure BitMap where
  store : List Nat
  len : Nat
  lastVacant : Int
deriving DecidableEq, Repr

/-- Function `New(size)`: `make([]byte, bytes, bytes+3)` panics on a negative length. -/
def New (size : Int) : Option BitMap :=
  let bytes := Int.tdiv size 8
  let bytes := if Int.tmod size 8 ≠ 0 then bytes + 1 else bytes
  if bytes < 0 then none
  else some { store := List.replicate (bytes.toNat + 3) 0, len := bytes.toNat, lastVacant := 0 }

/-- The 32-bit word the host reads through `(*uint32)(unsafe.Pointer(&store[addr]))`. -/
def loadUint32 (nativeEndian : ByteOrder) (store : List Nat) (addr : Nat) : Nat :=
  let b0 := store.getD addr 0
  let b1 := store.getD (addr + 1) 0
  let b2 := store.getD (addr + 2) 0
  let b3 := store.getD (addr + 3) 0
  match nativeEndian with
  | ByteOrder.LittleEndian => b0 ||| (b1 <<< 8) ||| (b2 <<< 16) ||| (b3 <<< 24)
  | ByteOrder.BigEndian => (b0 <<< 24) ||| (b1 <<< 16) ||| (b2 <<< 8) ||| b3

/-- The four bytes the host writes when a `uint32` is stored at `&store[addr]`. -/
def storeUint32 (nativeEndian : ByteOrder) (store : List Nat) (addr : Nat) (n : Nat) : List Nat :=
  match nativeEndian with
  | ByteOrder.LittleEndian =>
    (((store.set addr (n % 256)).set (addr + 1) ((n >>> 8) % 256)).set
      (addr + 2) ((n >>> 16) % 256)).set (addr + 3) ((n >>> 24) % 256)
  | ByteOrder.BigEndian =>
    (((store.set addr ((n >>> 24) % 256)).set (addr + 1) ((n >>> 16) % 256)).set
      (addr + 2) ((n >>> 8) % 256)).set (addr + 3) (n % 256)

/-- Method `m.Set(i, v)`. The index expression `m.store[int(i/32)*4]` is bounds-checked
against `len(m.store)`. -/
def BitMap.Set (nativeEndian : ByteOrder) (m : BitMap) (i : Int) (v : Bool) : Option BitMap :=
  let idx := Int.tdiv i 32 * 4
  if idx < 0 ∨ (m.len : Int) ≤ idx then none
  else
    let addr := idx.toNat
    let mask := bitMask32 nativeEndian i
    let old := loadUint32 nativeEndian m.store addr
    let n := if v then old ||| mask else old &&& (mask ^^^ 4294967295)
    if old = n then some m
    else
      let m1 : BitMap := { m with store := storeUint32 nativeEndian m.store addr n }
      if !v then
        if i < m1.lastVacant then some { m1 with lastVacant := i } else some m1
      else some m1

/-- Method `m.Get(i)`. -/
def BitMap.Get (nativeEndian : ByteOrder) (m : BitMap) (i : Int) : Option Bool :=
  let mask := bitMask32 nativeEndian i
  let idx := Int.tdiv i 32 * 4
  if idx < 0 ∨ (m.len : Int) ≤ idx then none
  else
    let v32 := loadUint32 nativeEndian m.store idx.toNat
    some (decide (v32 &&& mask ≠ 0))

/-- The loop of `fastLog2`: `fuel` iterations remain, `i` is the loop counter. -/
def fastLog2Loop : Nat → Nat → Nat → Nat
  | 0, _, _ => 255
  | fuel + 1, i, b => if b = 1 then i else fastLog2Loop fuel (i + 1) (b >>> 1)

/-- Function `fastLog2(b)`. -/
def fastLog2 (b : Nat) : Nat := fastLog2Loop 8 0 b

/-- The scan loop of `FindVacantAndSet` over the bytes still to visit, `i` being
the index of the first of them: the index of the first byte that is not `0xFF`. -/
def scanFrom : List Nat → Nat → Option Nat
  | [], _ => none
  | b :: rest, i => if b ≠ 255 then some i else scanFrom rest (i + 1)

/-- Method `m.FindVacantAndSet()`: the new state and the returned index (`-1` for none).
A negative start index makes the first `m.store[i]` panic. -/
def BitMap.FindVacantAndSet (m : BitMap) : Option (BitMap × Int) :=
  let i0 := Int.tdiv m.lastVacant 8
  if i0 < 0 then none
  else
    let nextVacant : Int :=
      match scanFrom ((m.store.take m.len).drop i0.toNat) i0.toNat with
      | none => -1
      | some i =>
        let byt := (m.store.getD i 0) ^^^ 255
        let complement := (256 - byt) % 256
        let bitwiseIndex := fastLog2 (byt &&& complement)
        (i : Int) * 8 + (bitwiseIndex : Int)
    let m1 : BitMap := { m with lastVacant := nextVacant }
    if nextVacant ≠ -1 then
      let pos := Int.tdiv nextVacant 8
      if pos < 0 ∨ (m.len : Int) ≤ pos then none
      else
        let old := m1.store.getD pos.toNat 0
        let n := (old ||| (1 <<< (Int.tmod nextVacant 8).toNat)) % 256
        some ({ m1 with store := m1.store.set pos.toNat n }, nextVacant)
    else some (m1, nextVacant)

/-! ## storage/block.go -/

/-- Type `MyGOValue`: a byte slice ("up to 1024 bytes"). -/
abbrev MyGOValue := List Nat

/-- Variable `bufferSize`, `var bufferSize = 32`. -/
def bufferSize : Nat := 32

/-- Go `delete(m, k)` on a map kept as an association list. -/
def mapDelete (m : List (Nat × MyGOValue)) (k : Nat) : List (Nat × MyGOValue) :=
  m.filter (fun p => p.1 ≠ k)

/-- Go `m[k] = v`. -/
def mapInsert (m : List (Nat × MyGOValue)) (k : Nat) (v : MyGOValue) : List (Nat × MyGOValue) :=
  (k, v) :: mapDelete m k

/-- Go `v, exist := m[k]`. -/
def mapLookup (m : List (Nat × MyGOValue)) (k : Nat) : Option MyGOValue :=
  (m.find? (fun p => p.1 = k)).map (fun p => p.2)

/-- Call `file.ReadAt(buffer, pos)` on a file holding the bytes `file`: the bytes read
(fewer than `n` when the file ends early). -/
def readAt (file : List Nat) (pos n : Nat) : List Nat := (file.drop pos).take n

/-- Call `file.WriteAt(v, pos)` on a file holding the bytes `file`; a write past the
end extends the file, the gap reading as zeros. An empty `v` writes nothing. -/
def writeAt (file : List Nat) (v : MyGOValue) (pos : Nat) : List Nat :=
  if v = [] then file
  else (file ++ List.replicate (pos - file.length) 0).take pos ++ v ++ file.drop (pos + v.length)

/-- The fields of `Block` that `Put`, `Get`, `Delete` and the flush touch;
`file` is the content of the open file. -/
structure Block where
  bitmap : BitMap
  vacancy : Nat
  offset : Nat
  pendingChanges : List (Nat × MyGOValue)
  file : List Nat
deriving DecidableEq, Repr

/-- Function `NewBlock(file, offset)`. -/
def NewBlock (file : List Nat) (offset : Nat) : Option Block :=
  (New 1048576).map fun bm =>
    { bitmap := bm, vacancy := 1048576, offset := offset, pendingChanges := [], file := file }

/-- The byte position `int64(b.offset+blockIdx*1024)`, computed in `uint32`. -/
def Block.slotPos (b : Block) (blockIdx : Nat) : Nat :=
  (b.offset + blockIdx * 1024) % 4294967296

/-- The closure `flush` of `flushWorker`. `iter` is the order in which
`range b.pendingChanges` visits the entries of the map, which Go leaves
unspecified; write errors are ignored as in the source. -/
def Block.flush (iter : List (Nat × MyGOValue) → List (Nat × MyGOValue)) (b : Block) : Block :=
  if b.pendingChanges.length = 0 then b
  else
    (iter b.pendingChanges).foldl
      (fun (acc : Block) (p : Nat × MyGOValue) =>
        { acc with
          file := writeAt acc.file p.2 (acc.slotPos p.1),
          pendingChanges := mapDelete acc.pendingChanges p.1 })
      b

/-- Method `b.FlushSync()`: the worker runs `flush` and closes the waiter. -/
def Block.FlushSync (iter : List (Nat × MyGOValue) → List (Nat × MyGOValue)) (b : Block) : Block :=
  b.flush iter

/-- Method `b.adjustVacancy(diff)`; the compare-and-swap succeeds at once. -/
def Block.adjustVacancy (b : Block) (diff : Int) : Block × Bool :=
  let old := b.vacancy
  let nxt : Int := (old : Int) + diff
  if nxt < 0 then (b, false)
  else ({ b with vacancy := toUint32 nxt }, true)

/-- Method `b.Put(data)`: the new state, the error and the returned `uint32`. -/
def Block.Put (iter : List (Nat × MyGOValue) → List (Nat × MyGOValue)) (b : Block)
    (data : MyGOValue) : Option (Block × Option String × Nat) :=
  let b := if b.pendingChanges.length = bufferSize then b.FlushSync iter else b
  if b.vacancy = 0 then some (b, some "No vacancy remaining", 0)
  else
    match b.adjustVacancy (-1) with
    | (b, false) => some (b, some "No vacancy remaining", 0)
    | (b, true) =>
      match b.bitmap.FindVacantAndSet with
      | none => none
      | some (bm, r) =>
        let offset := toUint32 r
        some ({ b with bitmap := bm, pendingChanges := mapInsert b.pendingChanges offset data },
          none, offset)

/-- Method `b.Get(inBlockIndex)`; `none` is the panic on a short read. -/
def Block.Get (b : Block) (inBlockIndex : Nat) : Option MyGOValue :=
  match mapLookup b.pendingChanges inBlockIndex with
  | some value => some value
  | none =>
    let buffer := readAt b.file (b.slotPos inBlockIndex) 1024
    if buffer.length ≠ 1024 then none else some buffer

/-- Method `b.Delete(inBlockIndex)`. -/
def Block.Delete (nativeEndian : ByteOrder) (b : Block) (inBlockIndex : Nat) : Option Block :=
  let b1 : Block := { b with pendingChanges := mapDelete b.pendingChanges inBlockIndex }
  match b1.bitmap.Set nativeEndian (inBlockIndex : Int) false with
  | none => none
  | some bm => some ({ b1 with bitmap := bm }.adjustVacancy 1).1

/-! ## Vocabulary of the statements -/

/-- Physical bit `k` of the store: bit `k % 8` of byte `k / 8`, the addressing
`FindVacantAndSet` uses. -/
def BitMap.bit (m : BitMap) (k : Nat) : Bool := (m.store.getD (k / 8) 0).testBit (k % 8)

/-- Shape of a `BitMap` value: the backing array has three bytes more than the
slice, and every cell holds a byte. -/
structure BitMap.WF (m : BitMap) : Prop where
  length_eq : m.store.length = m.len + 3
  byte_lt : ∀ t, m.store.getD t 0 < 256

/-- States reachable from `New(N)` by `Set` calls with indices in `[0, N)` and by
`FindVacantAndSet` calls. -/
inductive BitMap.Reachable (nativeEndian : ByteOrder) (N : Int) : BitMap → Prop
  | new {m : BitMap} : New N = some m → BitMap.Reachable nativeEndian N m
  | set {m m1 : BitMap} {i : Int} {v : Bool} : BitMap.Reachable nativeEndian N m →
      0 ≤ i → i < N → m.Set nativeEndian i v = some m1 → BitMap.Reachable nativeEndian N m1
  | find {m m1 : BitMap} {k : Int} : BitMap.Reachable nativeEndian N m →
      m.FindVacantAndSet = some (m1, k) → BitMap.Reachable nativeEndian N m1

/-- The word `Set` computes from the old word for bit `k` of the word. -/
def setWord (old k : Nat) (v : Bool) : Nat :=
  if v then old ||| 2 ^ k else old &&& (2 ^ k ^^^ 4294967295)

/-- The start byte of the scan for a hint that is not below `-1`. -/
def scanStart (m : BitMap) : Nat := (Int.tdiv m.lastVacant 8).toNat

/-- The hint is at least `-1` and every byte of the slice before the start byte
of the scan is `0xFF`. -/
def BitMap.HintOK (m : BitMap) : Prop :=
  -1 ≤ m.lastVacant ∧ ∀ t, t < scanStart m → t < m.len → m.store.getD t 0 = 255

/-- Runs `n` successive calls of `FindVacantAndSet`, with the indices they return in
call order. -/
def callsFrom (m : BitMap) : Nat → Option (BitMap × List Int)
  | 0 => some (m, [])
  | n + 1 =>
    match callsFrom m n with
    | none => none
    | some (m1, rs) =>
      match m1.FindVacantAndSet with
      | none => none
      | some (m2, k) => some (m2, rs ++ [k])

/-- Successive `Set(i, true)` calls for the indices of a list, as in the loops of
`TestFindVacant`. -/
def setMany (nativeEndian : ByteOrder) (m : BitMap) : List Int → Option BitMap
  | [] => some m
  | i :: rest =>
    match m.Set nativeEndian i true with
    | none => none
    | some m1 => setMany nativeEndian m1 rest

/-- A legal iteration order of Go's `range` over a map: every entry is visited
exactly once, in any order. -/
def IterOrder (iter : List (Nat × MyGOValue) → List (Nat × MyGOValue)) : Prop :=
  ∀ l, (iter l).Perm l

/-- Block states reachable from `NewBlock` by `Put`, `Delete` and flush cycles
(`FlushSync`, `Flush` or the timer of the worker), one call at a time. -/
inductive Block.Reachable (nativeEndian : ByteOrder) : Block → Prop
  | init {file : List Nat} {offset : Nat} {b : Block} :
      NewBlock file offset = some b → Block.Reachable nativeEndian b
  | put {b b1 : Block} {iter : List (Nat × MyGOValue) → List (Nat × MyGOValue)}
      {data : MyGOValue} {err : Option String} {x : Nat} :
      Block.Reachable nativeEndian b → IterOrder iter →
      b.Put iter data = some (b1, err, x) → Block.Reachable nativeEndian b1
  | delete {b b1 : Block} {idx : Nat} :
      Block.Reachable nativeEndian b → b.Delete nativeEndian idx = some b1 →
      Block.Reachable nativeEndian b1
  | flush {b : Block} {iter : List (Nat × MyGOValue) → List (Nat × MyGOValue)} :
      Block.Reachable nativeEndian b → IterOrder iter →
      Block.Reachable nativeEndian (b.flush iter)

/-- What reachable block states have in common, on either host: the allocator
keeps its shape and its 2^17 bytes, the hint is at least `-1`, the vacancy
counter fits a `uint32`, and the keys of the pending map are distinct and are
slot indices or `uint32(-1)`. -/
structure Block.Inv (b : Block) : Prop where
  wf : b.bitmap.WF
  len_eq : b.bitmap.len = 131072
  hint_ge : -1 ≤ b.bitmap.lastVacant
  vacancy_lt : b.vacancy < 4294967296
  keys_nodup : (b.pendingChanges.map Prod.fst).Nodup
  keys_range : ∀ p ∈ b.pendingChanges, p.1 < 1048576 ∨ p.1 = 4294967295

/-- Number of set bits of the allocator: the bits of the `len(store)` bytes. -/
def BitMap.popcount (m : BitMap) : Nat := (List.range (8 * m.len)).countP (fun t => m.bit t)

/-- Block states reached on a little-endian host from `NewBlock` by `k` successful
`Put`s, failed `Put`s, `d` `Delete`s of indices that are occupied at the time of
the call, and flush cycles. -/
inductive Block.Run : Nat → Nat → Block → Prop
  | init {file : List Nat} {offset : Nat} {b : Block} :
      NewBlock file offset = some b → Block.Run 0 0 b
  | putOk {k d : Nat} {b b1 : Block} {iter : List (Nat × MyGOValue) → List (Nat × MyGOValue)}
      {data : MyGOValue} {x : Nat} :
      Block.Run k d b → b.Put iter data = some (b1, none, x) → Block.Run (k + 1) d b1
  | putFail {k d : Nat} {b b1 : Block} {iter : List (Nat × MyGOValue) → List (Nat × MyGOValue)}
      {data : MyGOValue} {err : String} {x : Nat} :
      Block.Run k d b → b.Put iter data = some (b1, some err, x) → Block.Run k d b1
  | delete {k d : Nat} {b b1 : Block} {idx : Nat} :
      Block.Run k d b → b.bitmap.Get ByteOrder.LittleEndian (idx : Int) = some true →
      b.Delete ByteOrder.LittleEndian idx = some b1 → Block.Run k (d + 1) b1
  | flush {k d : Nat} {b : Block} {iter : List (Nat × MyGOValue) → List (Nat × MyGOValue)} :
      Block.Run k d b → Block.Run k d (b.flush iter)

/-- The accounting invariant of a block on a little-endian host: the common
invariant, the hint invariant of the allocator, and the vacancy counter plus the
number of set bits being the slot count. -/
structure Block.AccInv (b : Block) : Prop where
  inv : b.Inv
  hint : b.bitmap.HintOK
  acc : b.vacancy + b.bitmap.popcount = 1048576

/-- Runs `n` successive successful `Put`s of the same value. -/
def putMany (iter : List (Nat × MyGOValue) → List (Nat × MyGOValue)) (data : MyGOValue) :
    Nat → Block → Option Block
  | 0, b => some b
  | n + 1, b =>
    match b.Put iter data with
    | some (b1, none, _) => putMany iter data n b1
    | _ => none

/-- The block `NewBlock` returns for an empty file at offset 0. -/
def block0 : Block :=
  { bitmap := { store := List.replicate 131075 0, len := 131072, lastVacant := 0 },
    vacancy := 1048576, offset := 0, pendingChanges := [], file := [] }

/-- One step of the loop of `flush`. -/
def flushStep (acc : Block) (p : Nat × MyGOValue) : Block :=
  { acc with
    file := writeAt acc.file p.2 (acc.slotPos p.1),
    pendingChanges := mapDelete acc.pendingChanges p.1 }

/-- The block `Put` works on after its optional `FlushSync`. -/
def putStart (iter : List (Nat × MyGOValue) → List (Nat × MyGOValue)) (b : Block) : Block :=
  if b.pendingChanges.length = bufferSize then b.FlushSync iter else b

/-- The bits below `j` are set and no other. -/
def PrefixSet (b : Block) (j : Nat) : Prop :=
  b.Inv ∧ b.bitmap.HintOK ∧ ∀ t, b.bitmap.bit t = decide (t < j)

/-- A block like the one `NewBlock` returns for an empty file, at byte offset
`2^32 - 1024`. -/
def blockHigh : Block :=
  { bitmap := { store := List.replicate 131075 0, len := 131072, lastVacant := 0 },
    vacancy := 1048576, offset := 4294966272, pendingChanges := [], file := [] }

/-- A fresh block over a file of 1500 bytes: slot 0 is there in full, slot 1 is not. -/
def blockShort : Block := { block0 with file := List.replicate 1500 5 }

/-- Position, among the four bytes of a word in memory, of the byte that holds
bits `8 * c .. 8 * c + 7` of the word. -/
def bytePos (nativeEndian : ByteOrder) (c : Nat) : Nat :=
  match nativeEndian with
  | ByteOrder.LittleEndian => c
  | ByteOrder.BigEndian => 3 - c

/-- Index of the store byte that `Set` and `Get` touch for index `i`. -/
def physByte (nativeEndian : ByteOrder) (i : Nat) : Nat :=
  i / 32 * 4 + bytePos nativeEndian (i % 32 / 8)

/-- The bit of the store that `Set` and `Get` touch for index `i`: bit `i % 8` of
byte `physByte i`. -/
def BitMap.physBit (nativeEndian : ByteOrder) (m : BitMap) (i : Nat) : Bool :=
  (m.store.getD (physByte nativeEndian i) 0).testBit (i % 8)

/-- A fresh block over a file of 2048 bytes that all hold 9. -/
def blockNines : Block := { block0 with file := List.replicate 2048 9 }

/-- Successive `Put`s of the values of a list, with the indices returned by
those that succeed, in call order. -/
def putsFrom (iter : List (Nat × MyGOValue) → List (Nat × MyGOValue)) :
    List MyGOValue → Block → Option (Block × List Nat)
  | [], b => some (b, [])
  | v :: rest, b =>
    match b.Put iter v with
    | none => none
    | some (b1, none, x) =>
      match putsFrom iter rest b1 with
      | none => none
      | some (b2, xs) => some (b2, x :: xs)
    | some (b1, some _, _) => putsFrom iter rest b1

/-! ## Bytes, words and bits -/

theorem byte_testBit_ge {b t : Nat} (hb : b < 256) (ht : 8 ≤ t) : b.testBit t = false := by
  apply Nat.testBit_lt_two_pow
  calc b < 2 ^ 8 := hb
    _ ≤ 2 ^ t := Nat.pow_le_pow_right (by decide) ht

theorem word_testBit_ge {n t : Nat} (hn : n < 4294967296) (ht : 32 ≤ t) :
    n.testBit t = false := by
  apply Nat.testBit_lt_two_pow
  calc n < 2 ^ 32 := hn
    _ ≤ 2 ^ t := Nat.pow_le_pow_right (by decide) ht

theorem testBit_mod256 (n t : Nat) : (n % 256).testBit t = (decide (t < 8) && n.testBit t) := by
  have e8 : (256 : Nat) = 2 ^ 8 := by norm_num
  rw [e8, Nat.testBit_mod_two_pow]

theorem getD_set_eq (l : List Nat) (a x t : Nat) :
    (l.set a x).getD t 0 = if t = a ∧ a < l.length then x else l.getD t 0 := by
  simp only [List.getD_eq_getElem?_getD, List.getElem?_set]
  by_cases h : a = t
  · subst h
    by_cases h2 : a < l.length
    · simp [h2]
    · simp [h2, List.getElem?_eq_none (Nat.le_of_not_lt h2)]
  · have h3 : ¬ t = a := fun h4 => h h4.symm
    simp [h, h3]

theorem storeUint32_length (e : ByteOrder) (s : List Nat) (a n : Nat) :
    (storeUint32 e s a n).length = s.length := by
  cases e <;> simp [storeUint32]

theorem storeUint32_LE_getD (s : List Nat) (a n t : Nat) :
    (storeUint32 ByteOrder.LittleEndian s a n).getD t 0 =
      if t = a + 3 ∧ a + 3 < s.length then (n >>> 24) % 256
      else if t = a + 2 ∧ a + 2 < s.length then (n >>> 16) % 256
      else if t = a + 1 ∧ a + 1 < s.length then (n >>> 8) % 256
      else if t = a ∧ a < s.length then n % 256
      else s.getD t 0 := by
  simp only [storeUint32, getD_set_eq, List.length_set]

theorem storeUint32_BE_getD (s : List Nat) (a n t : Nat) :
    (storeUint32 ByteOrder.BigEndian s a n).getD t 0 =
      if t = a + 3 ∧ a + 3 < s.length then n % 256
      else if t = a + 2 ∧ a + 2 < s.length then (n >>> 8) % 256
      else if t = a + 1 ∧ a + 1 < s.length then (n >>> 16) % 256
      else if t = a ∧ a < s.length then (n >>> 24) % 256
      else s.getD t 0 := by
  simp only [storeUint32, getD_set_eq, List.length_set]

theorem storeUint32_getD_lt (e : ByteOrder) (s : List Nat) (a n : Nat)
    (hs : ∀ t, s.getD t 0 < 256) (t : Nat) : (storeUint32 e s a n).getD t 0 < 256 := by
  have h1 : ∀ x, x % 256 < 256 := fun x => Nat.mod_lt _ (by decide)
  cases e
  · rw [storeUint32_LE_getD]
    repeat (first | split | exact h1 _ | exact hs _)
  · rw [storeUint32_BE_getD]
    repeat (first | split | exact h1 _ | exact hs _)

/-- Bit `k` of the word assembled from four bytes, lowest byte first. -/
theorem word_testBit (b0 b1 b2 b3 k : Nat) (h0 : b0 < 256) (h1 : b1 < 256) (h2 : b2 < 256)
    (_ : b3 < 256) :
    (b0 ||| (b1 <<< 8) ||| (b2 <<< 16) ||| (b3 <<< 24)).testBit k =
      if k < 8 then b0.testBit k
      else if k < 16 then b1.testBit (k - 8)
      else if k < 24 then b2.testBit (k - 16)
      else b3.testBit (k - 24) := by
  simp only [Nat.testBit_or, Nat.testBit_shiftLeft]
  rcases Nat.lt_or_ge k 8 with c1 | c1
  · have a1 : ¬ (k ≥ 8) := by omega
    have a2 : ¬ (k ≥ 16) := by omega
    have a3 : ¬ (k ≥ 24) := by omega
    simp [c1, a1, a2, a3]
  · have z0 : b0.testBit k = false := byte_testBit_ge h0 c1
    rcases Nat.lt_or_ge k 16 with c2 | c2
    · have a0 : ¬ (k < 8) := by omega
      have a2 : ¬ (k ≥ 16) := by omega
      have a3 : ¬ (k ≥ 24) := by omega
      simp [c1, c2, a0, a2, a3, z0]
    · have z1 : b1.testBit (k - 8) = false := byte_testBit_ge h1 (by omega)
      rcases Nat.lt_or_ge k 24 with c3 | c3
      · have a0 : ¬ (k < 8) := by omega
        have a1 : ¬ (k < 16) := by omega
        have a3 : ¬ (k ≥ 24) := by omega
        simp [c1, c2, c3, a0, a1, a3, z0, z1]
      · have z2 : b2.testBit (k - 16) = false := byte_testBit_ge h2 (by omega)
        have a0 : ¬ (k < 8) := by omega
        have a1 : ¬ (k < 16) := by omega
        have a2 : ¬ (k < 24) := by omega
        simp [c1, c2, c3, a0, a1, a2, z0, z1, z2]

theorem word_lt (b0 b1 b2 b3 : Nat) (h0 : b0 < 256) (h1 : b1 < 256) (h2 : b2 < 256)
    (h3 : b3 < 256) : b0 ||| (b1 <<< 8) ||| (b2 <<< 16) ||| (b3 <<< 24) < 4294967296 := by
  have e : (4294967296 : Nat) = 2 ^ 32 := by norm_num
  rw [e]
  apply Nat.lt_pow_two_of_testBit
  intro k hk
  rw [word_testBit b0 b1 b2 b3 k h0 h1 h2 h3]
  have a0 : ¬ (k < 8) := by omega
  have a1 : ¬ (k < 16) := by omega
  have a2 : ¬ (k < 24) := by omega
  simp only [a0, a1, a2, if_false]
  exact byte_testBit_ge h3 (by omega)

/-- The bytes of a word, lowest first, assemble to the word. -/
theorem word_of_bytes (n : Nat) (hn : n < 4294967296) :
    (n % 256) ||| (((n >>> 8) % 256) <<< 8) ||| (((n >>> 16) % 256) <<< 16) |||
      (((n >>> 24) % 256) <<< 24) = n := by
  have m : ∀ x, x % 256 < 256 := fun x => Nat.mod_lt _ (by decide)
  apply Nat.eq_of_testBit_eq
  intro k
  rw [word_testBit _ _ _ _ k (m _) (m _) (m _) (m _)]
  simp only [testBit_mod256, Nat.testBit_shiftRight]
  rcases Nat.lt_or_ge k 8 with c1 | c1
  · simp [c1]
  · have a0 : ¬ (k < 8) := by omega
    rcases Nat.lt_or_ge k 16 with c2 | c2
    · have e1 : 8 + (k - 8) = k := by omega
      have e2 : k - 8 < 8 := by omega
      simp [a0, c2, e1, e2]
    · have a1 : ¬ (k < 16) := by omega
      rcases Nat.lt_or_ge k 24 with c3 | c3
      · have e1 : 16 + (k - 16) = k := by omega
        have e2 : k - 16 < 8 := by omega
        simp [a0, a1, c3, e1, e2]
      · have a2 : ¬ (k < 24) := by omega
        have e1 : 24 + (k - 24) = k := by omega
        rcases Nat.lt_or_ge k 32 with c4 | c4
        · have e2 : k - 24 < 8 := by omega
          simp [a0, a1, a2, e1, e2]
        · have e2 : ¬ (k - 24 < 8) := by omega
          simp [a0, a1, a2, e1, e2, word_testBit_ge hn c4]

/-- The word read on a big-endian host is the little-endian word of the four
bytes taken in reverse order. -/
theorem loadUint32_BE_comm (b0 b1 b2 b3 : Nat) :
    (b0 <<< 24) ||| (b1 <<< 16) ||| (b2 <<< 8) ||| b3 =
      b3 ||| (b2 <<< 8) ||| (b1 <<< 16) ||| (b0 <<< 24) := by
  apply Nat.eq_of_testBit_eq
  intro k
  simp only [Nat.testBit_or]
  cases b3.testBit k <;> cases (b2 <<< 8).testBit k <;> cases (b1 <<< 16).testBit k <;>
    cases (b0 <<< 24).testBit k <;> rfl

theorem loadUint32_lt (e : ByteOrder) (s : List Nat) (a : Nat) (hs : ∀ t, s.getD t 0 < 256) :
    loadUint32 e s a < 4294967296 := by
  cases e
  · exact word_lt _ _ _ _ (hs _) (hs _) (hs _) (hs _)
  · simp only [loadUint32]
    rw [loadUint32_BE_comm]
    exact word_lt _ _ _ _ (hs _) (hs _) (hs _) (hs _)

theorem loadUint32_storeUint32 (e : ByteOrder) (s : List Nat) (a n : Nat)
    (hn : n < 4294967296) (ha : a + 3 < s.length) :
    loadUint32 e (storeUint32 e s a n) a = n := by
  have p0 : ¬ (a = a + 3) := by omega
  have p1 : ¬ (a = a + 2) := by omega
  have p2 : ¬ (a = a + 1) := by omega
  have p3 : ¬ (a + 1 = a + 3) := by omega
  have p4 : ¬ (a + 1 = a + 2) := by omega
  have p5 : ¬ (a + 2 = a + 3) := by omega
  have q0 : a < s.length := by omega
  have q1 : a + 1 < s.length := by omega
  have q2 : a + 2 < s.length := by omega
  cases e
  · simp only [loadUint32, storeUint32_LE_getD]
    simp only [p0, p1, p2, p3, p4, p5, q0, q1, q2, ha, false_and, true_and, and_self,
      if_false, if_true]
    exact word_of_bytes n hn
  · simp only [loadUint32, storeUint32_BE_getD]
    simp only [p0, p1, p2, p3, p4, p5, q0, q1, q2, ha, false_and, true_and, and_self,
      if_false, if_true]
    rw [loadUint32_BE_comm]
    exact word_of_bytes n hn

/-! ## Go integer operations on non-negative values -/

theorem tdiv_natCast (i k : Nat) : Int.tdiv (i : Int) (k : Int) = ((i / k : Nat) : Int) :=
  (Int.ofNat_tdiv i k).symm

theorem tmod_natCast (i k : Nat) : Int.tmod (i : Int) (k : Int) = ((i % k : Nat) : Int) :=
  (Int.ofNat_tmod i k).symm

theorem toByte_natCast (x : Nat) : toByte (x : Int) = x % 256 := by
  unfold toByte
  have h : ((x : Int) % 256) = ((x % 256 : Nat) : Int) := by norm_cast
  rw [h, Int.toNat_ofNat]

theorem toUint32_natCast (x : Nat) : toUint32 (x : Int) = x % 4294967296 := by
  unfold toUint32
  have h : ((x : Int) % 4294967296) = ((x % 4294967296 : Nat) : Int) := by norm_cast
  rw [h, Int.toNat_ofNat]

theorem two_pow_lt_word {k : Nat} (hk : k < 32) : 2 ^ k < 4294967296 := by
  have e : (4294967296 : Nat) = 2 ^ 32 := by norm_num
  rw [e]
  exact Nat.pow_lt_pow_right (by decide) hk

/-- On either host the mask of a non-negative index is `1 << (i % 32)`. -/
theorem bitMask32_natCast (e : ByteOrder) (i : Nat) : bitMask32 e (i : Int) = 2 ^ (i % 32) := by
  have hk : i % 32 < 32 := Nat.mod_lt _ (by decide)
  cases e
  · have h8 : Int.tmod (i : Int) 8 = ((i % 8 : Nat) : Int) := tmod_natCast i 8
    have h32 : Int.tmod (i : Int) 32 = ((i % 32 : Nat) : Int) := tmod_natCast i 32
    have hd : Int.tdiv ((i % 32 : Nat) : Int) 8 = ((i % 32 / 8 : Nat) : Int) :=
      tdiv_natCast (i % 32) 8
    have hs : ((i % 32 / 8 : Nat) : Int) * 8 + ((i % 8 : Nat) : Int)
        = ((i % 32 / 8 * 8 + i % 8 : Nat) : Int) := by push_cast; rfl
    simp only [bitMask32, h8, h32, hd, hs, toByte_natCast]
    have hx : (i % 32 / 8 * 8 + i % 8) % 256 = i % 32 := by omega
    rw [hx, Nat.one_shiftLeft]
    exact Nat.mod_eq_of_lt (two_pow_lt_word hk)
  · have h32 : Int.tmod (i : Int) 32 = ((i % 32 : Nat) : Int) := tmod_natCast i 32
    simp only [bitMask32, h32, toByte_natCast]
    have hx : i % 32 % 256 = i % 32 := by omega
    rw [hx, Nat.one_shiftLeft]
    exact Nat.mod_eq_of_lt (two_pow_lt_word hk)

theorem wordIndex_natCast (i : Nat) : Int.tdiv (i : Int) 32 * 4 = ((i / 32 * 4 : Nat) : Int) := by
  have h : Int.tdiv (i : Int) 32 = ((i / 32 : Nat) : Int) := tdiv_natCast i 32
  rw [h]; push_cast; rfl

/-- Operation `Set` at a non-negative index, with the Go integer operations resolved. -/
theorem Set_natCast (e : ByteOrder) (m : BitMap) (i : Nat) (v : Bool) :
    m.Set e (i : Int) v =
      if m.len ≤ i / 32 * 4 then none
      else if loadUint32 e m.store (i / 32 * 4)
          = setWord (loadUint32 e m.store (i / 32 * 4)) (i % 32) v then some m
      else
        some { store := storeUint32 e m.store (i / 32 * 4)
                 (setWord (loadUint32 e m.store (i / 32 * 4)) (i % 32) v),
               len := m.len,
               lastVacant := if v = false ∧ (i : Int) < m.lastVacant then (i : Int)
                 else m.lastVacant } := by
  unfold BitMap.Set setWord
  simp only [wordIndex_natCast, bitMask32_natCast, Int.toNat_ofNat]
  have hc : ((((i / 32 * 4 : Nat) : Int) < 0) ∨ (m.len : Int) ≤ ((i / 32 * 4 : Nat) : Int))
      ↔ m.len ≤ i / 32 * 4 := by omega
  simp only [hc]
  by_cases hl : m.len ≤ i / 32 * 4
  · simp only [hl, if_true]
  · simp only [hl, if_false]
    cases v
    · by_cases h2 : (i : Int) < m.lastVacant <;> simp [h2]
    · simp

/-- Operation `Get` at a non-negative index, with the Go integer operations resolved. -/
theorem Get_natCast (e : ByteOrder) (m : BitMap) (i : Nat) :
    m.Get e (i : Int) =
      if m.len ≤ i / 32 * 4 then none
      else some (decide (loadUint32 e m.store (i / 32 * 4) &&& 2 ^ (i % 32) ≠ 0)) := by
  unfold BitMap.Get
  simp only [wordIndex_natCast, bitMask32_natCast, Int.toNat_ofNat]
  have hc : ((((i / 32 * 4 : Nat) : Int) < 0) ∨ (m.len : Int) ≤ ((i / 32 * 4 : Nat) : Int))
      ↔ m.len ≤ i / 32 * 4 := by omega
  simp only [hc]

/-! ## `Set` followed by `Get`, on either host -/

theorem and_two_pow_ne_zero (x k : Nat) : (x &&& 2 ^ k ≠ 0) ↔ x.testBit k = true := by
  constructor
  · intro h
    by_contra hx
    apply h
    apply Nat.eq_of_testBit_eq
    intro j
    rw [Nat.testBit_and, Nat.testBit_two_pow, Nat.zero_testBit]
    by_cases hj : k = j
    · subst hj; simp [hx]
    · simp [hj]
  · intro h h0
    have h1 : (x &&& 2 ^ k).testBit k = true := by
      rw [Nat.testBit_and, Nat.testBit_two_pow_self, h]; rfl
    rw [h0, Nat.zero_testBit] at h1
    exact Bool.noConfusion h1

theorem testBit_mask_compl (k x : Nat) (hx : x < 32) :
    (2 ^ k ^^^ 4294967295).testBit x = decide (k ≠ x) := by
  have e : (4294967295 : Nat) = 2 ^ 32 - 1 := by norm_num
  rw [e, Nat.testBit_xor, Nat.testBit_two_pow, Nat.testBit_two_pow_sub_one]
  by_cases h : k = x <;> simp [h, hx]

/-- Bit `k` of the word `Set` computes is `v`. -/
theorem setWord_testBit_self (old k : Nat) (v : Bool) (hk : k < 32) :
    (setWord old k v).testBit k = v := by
  unfold setWord
  cases v
  · simp [Nat.testBit_and, testBit_mask_compl k k hk]
  · simp [Nat.testBit_or, Nat.testBit_two_pow_self]

/-- The other bits of the word `Set` computes are those of the old word. -/
theorem setWord_testBit_other (old k x : Nat) (v : Bool) (hx : x < 32)
    (hne : k ≠ x) : (setWord old k v).testBit x = old.testBit x := by
  unfold setWord
  cases v
  · simp [Nat.testBit_and, testBit_mask_compl k x hx, hne]
  · simp [Nat.testBit_or, Nat.testBit_two_pow, hne]

theorem setWord_lt (old k : Nat) (v : Bool) (hk : k < 32) (ho : old < 4294967296) :
    setWord old k v < 4294967296 := by
  have e : (4294967296 : Nat) = 2 ^ 32 := by norm_num
  unfold setWord
  cases v
  · simp only [Bool.false_eq_true, if_false]
    exact lt_of_le_of_lt Nat.and_le_left ho
  · simp only [if_true]
    rw [e]
    apply Nat.or_lt_two_pow
    · rw [← e]; exact ho
    · exact Nat.pow_lt_pow_right (by decide) hk

/-- Operation `Set` keeps the shape of the bit map and the slice length, on either host. -/
theorem Set_WF (e : ByteOrder) (m m1 : BitMap) (i : Nat) (v : Bool) (hm : m.WF)
    (h : m.Set e (i : Int) v = some m1) : m1.WF ∧ m1.len = m.len := by
  rw [Set_natCast] at h
  by_cases hl : m.len ≤ i / 32 * 4
  · simp [hl] at h
  · simp only [hl, if_false] at h
    by_cases h2 : loadUint32 e m.store (i / 32 * 4)
        = setWord (loadUint32 e m.store (i / 32 * 4)) (i % 32) v
    · rw [if_pos h2] at h
      cases h; exact ⟨hm, rfl⟩
    · rw [if_neg h2] at h
      cases h
      exact ⟨⟨by simp only [storeUint32_length]; exact hm.length_eq,
          storeUint32_getD_lt e _ _ _ hm.byte_lt⟩, rfl⟩

/-- Operation `Get` never changes with the hint, and answers inside the slice. -/
theorem Get_of_load (e : ByteOrder) (m : BitMap) (i : Nat) (hi : i / 32 * 4 < m.len) :
    m.Get e (i : Int) = some ((loadUint32 e m.store (i / 32 * 4)).testBit (i % 32)) := by
  have hl : ¬ m.len ≤ i / 32 * 4 := by omega
  rw [Get_natCast]
  simp only [hl, if_false]
  congr 1
  cases hb : (loadUint32 e m.store (i / 32 * 4)).testBit (i % 32)
  · have : ¬ (loadUint32 e m.store (i / 32 * 4) &&& 2 ^ (i % 32) ≠ 0) := by
      rw [and_two_pow_ne_zero, hb]; exact Bool.noConfusion
    exact decide_eq_false this
  · exact decide_eq_true ((and_two_pow_ne_zero _ _).mpr hb)

/-- Operation `Set(i, v)` then `Get(i)` gives `v`, on either host, when the word of `i`
starts inside the slice. -/
theorem Set_Get_same (e : ByteOrder) (m : BitMap) (i : Nat) (v : Bool) (hm : m.WF)
    (hi : i / 32 * 4 < m.len) :
    ∃ m1, m.Set e (i : Int) v = some m1 ∧ m1.Get e (i : Int) = some v := by
  have hk : i % 32 < 32 := Nat.mod_lt _ (by decide)
  have hl : ¬ m.len ≤ i / 32 * 4 := by omega
  have hold := loadUint32_lt e m.store (i / 32 * 4) hm.byte_lt
  have hbit := setWord_testBit_self (loadUint32 e m.store (i / 32 * 4)) (i % 32) v hk
  have hlt := setWord_lt (loadUint32 e m.store (i / 32 * 4)) (i % 32) v hk hold
  have hlen : i / 32 * 4 + 3 < m.store.length := by rw [hm.length_eq]; omega
  rw [Set_natCast]
  simp only [hl, if_false]
  by_cases h2 : loadUint32 e m.store (i / 32 * 4)
      = setWord (loadUint32 e m.store (i / 32 * 4)) (i % 32) v
  · rw [if_pos h2]
    refine ⟨m, rfl, ?_⟩
    rw [Get_of_load e m i hi, h2, hbit]
  · rw [if_neg h2]
    refine ⟨_, rfl, ?_⟩
    have hg : ∀ m1 : BitMap, m1.len = m.len →
        m1.Get e (i : Int) = some ((loadUint32 e m1.store (i / 32 * 4)).testBit (i % 32)) :=
      fun m1 h1 => Get_of_load e m1 i (by rw [h1]; exact hi)
    refine (hg _ ?_).trans ?_
    · rfl
    · simp only []
      rw [loadUint32_storeUint32 e m.store (i / 32 * 4) _ hlt hlen, hbit]

/-! ## The scan of `FindVacantAndSet` -/

theorem scanFrom_spec (l : List Nat) (i : Nat) :
    match scanFrom l i with
    | none => ∀ t, t < l.length → l.getD t 0 = 255
    | some j => i ≤ j ∧ j - i < l.length ∧ l.getD (j - i) 0 ≠ 255 ∧
        ∀ t, t < j - i → l.getD t 0 = 255 := by
  induction l generalizing i with
  | nil => simp [scanFrom]
  | cons b rest ih =>
    by_cases hb : b = 255
    · have hs : scanFrom (b :: rest) i = scanFrom rest (i + 1) := by simp [scanFrom, hb]
      rw [hs]
      have h := ih (i + 1)
      cases hr : scanFrom rest (i + 1) with
      | none =>
        rw [hr] at h
        intro t ht
        cases t with
        | zero => simpa using hb
        | succ t =>
          have := h t (by simpa using ht)
          simpa using this
      | some j =>
        rw [hr] at h
        obtain ⟨h1, h2, h3, h4⟩ := h
        have e1 : j - i = (j - (i + 1)) + 1 := by omega
        refine ⟨by omega, ?_, ?_, ?_⟩
        · rw [e1]; simpa using h2
        · rw [e1]; simpa using h3
        · intro t ht
          cases t with
          | zero => simpa using hb
          | succ t =>
            have := h4 t (by omega)
            simpa using this
    · have hs : scanFrom (b :: rest) i = some i := by simp [scanFrom, hb]
      rw [hs]
      refine ⟨le_refl _, by simp, by simpa using hb, ?_⟩
      intro t ht
      omega

theorem getD_drop_take (s : List Nat) (len i0 t : Nat) (h : i0 + t < len) :
    ((s.take len).drop i0).getD t 0 = s.getD (i0 + t) 0 := by
  simp only [List.getD_eq_getElem?_getD, List.getElem?_drop, List.getElem?_take, h, if_true]

/-- What the scan loop finds in the slice, starting at byte `i0`. -/
theorem scan_store_spec (s : List Nat) (len i0 : Nat) (hlen : len ≤ s.length) :
    match scanFrom ((s.take len).drop i0) i0 with
    | none => ∀ t, i0 ≤ t → t < len → s.getD t 0 = 255
    | some j => i0 ≤ j ∧ j < len ∧ s.getD j 0 ≠ 255 ∧
        ∀ t, i0 ≤ t → t < j → s.getD t 0 = 255 := by
  have hl : ((s.take len).drop i0).length = len - i0 := by
    simp only [List.length_drop, List.length_take]; omega
  have h := scanFrom_spec ((s.take len).drop i0) i0
  cases hr : scanFrom ((s.take len).drop i0) i0 with
  | none =>
    rw [hr] at h
    intro t h1 h2
    have := h (t - i0) (by rw [hl]; omega)
    rw [getD_drop_take s len i0 (t - i0) (by omega)] at this
    have e : i0 + (t - i0) = t := by omega
    rw [e] at this; exact this
  | some j =>
    rw [hr] at h
    obtain ⟨h1, h2, h3, h4⟩ := h
    rw [hl] at h2
    have e : i0 + (j - i0) = j := by omega
    rw [getD_drop_take s len i0 (j - i0) (by omega), e] at h3
    refine ⟨h1, by omega, h3, ?_⟩
    intro t ht1 ht2
    have := h4 (t - i0) (by omega)
    rw [getD_drop_take s len i0 (t - i0) (by omega)] at this
    have e2 : i0 + (t - i0) = t := by omega
    rw [e2] at this; exact this

/-- The bit `FindVacantAndSet` picks in a byte that is not `0xFF` is its lowest
zero bit. -/
theorem lowestZero_spec : ∀ b < 256, b ≠ 255 →
    fastLog2 ((b ^^^ 255) &&& ((256 - (b ^^^ 255)) % 256)) < 8 ∧
    b.testBit (fastLog2 ((b ^^^ 255) &&& ((256 - (b ^^^ 255)) % 256))) = false ∧
    ∀ u < 8, u < fastLog2 ((b ^^^ 255) &&& ((256 - (b ^^^ 255)) % 256)) →
      b.testBit u = true := by
  decide!

theorem byte_or_lt (b k : Nat) (hb : b < 256) (hk : k < 8) : b ||| 2 ^ k < 256 := by
  have e : (256 : Nat) = 2 ^ 8 := by norm_num
  rw [e]
  apply Nat.or_lt_two_pow
  · rw [← e]; exact hb
  · exact Nat.pow_lt_pow_right (by decide) hk

theorem tdiv8_nonneg {x : Int} (h : -1 ≤ x) : ¬ Int.tdiv x 8 < 0 := by
  rcases Int.lt_or_le x 0 with h0 | h0
  · have : x = -1 := by omega
    subst this
    decide
  · have := Int.tdiv_nonneg h0 (by decide : (0 : Int) ≤ 8)
    omega

/-- Operation `FindVacantAndSet` on a well-shaped state whose hint is at least `-1`:
either every byte from the start byte on is `0xFF` and the result is `-1`, or the
first other byte `j` and its lowest zero bit `k` give the result `8 * j + k`. -/
theorem FindVacantAndSet_spec (m : BitMap) (hm : m.WF) (hlv : -1 ≤ m.lastVacant) :
    ((∀ t, scanStart m ≤ t → t < m.len → m.store.getD t 0 = 255) ∧
      m.FindVacantAndSet = some ({ m with lastVacant := -1 }, -1)) ∨
    (∃ j k, scanStart m ≤ j ∧ j < m.len ∧ k < 8 ∧
      (∀ t, scanStart m ≤ t → t < j → m.store.getD t 0 = 255) ∧
      (m.store.getD j 0).testBit k = false ∧
      (∀ u, u < k → (m.store.getD j 0).testBit u = true) ∧
      m.FindVacantAndSet =
        some ({ store := m.store.set j (m.store.getD j 0 ||| 2 ^ k), len := m.len,
                lastVacant := ((j * 8 + k : Nat) : Int) }, ((j * 8 + k : Nat) : Int))) := by
  have hi0 := tdiv8_nonneg hlv
  have hlen : m.len ≤ m.store.length := by rw [hm.length_eq]; omega
  have hsc := scan_store_spec m.store m.len (scanStart m) hlen
  unfold BitMap.FindVacantAndSet
  simp only [hi0, if_false]
  unfold scanStart at hsc ⊢
  cases hr : scanFrom ((m.store.take m.len).drop (Int.tdiv m.lastVacant 8).toNat)
      (Int.tdiv m.lastVacant 8).toNat with
  | none =>
    rw [hr] at hsc
    left
    exact ⟨hsc, by simp⟩
  | some j =>
    rw [hr] at hsc
    obtain ⟨h1, h2, h3, h4⟩ := hsc
    right
    have hb := hm.byte_lt j
    obtain ⟨k1, k2, k3⟩ := lowestZero_spec (m.store.getD j 0) hb h3
    generalize hk : fastLog2 ((m.store.getD j 0 ^^^ 255) &&&
      ((256 - (m.store.getD j 0 ^^^ 255)) % 256)) = k at k1 k2 k3
    refine ⟨j, k, h1, h2, k1, h4, k2, fun u hu => k3 u (by omega) hu, ?_⟩
    have hcast : (j : Int) * 8 + (k : Int) = ((j * 8 + k : Nat) : Int) := by push_cast; rfl
    have hne : ((j * 8 + k : Nat) : Int) ≠ -1 := by omega
    have hdiv : Int.tdiv ((j * 8 + k : Nat) : Int) 8 = ((j : Nat) : Int) := by
      have h : Int.tdiv ((j * 8 + k : Nat) : Int) 8 = (((j * 8 + k) / 8 : Nat) : Int) :=
        tdiv_natCast (j * 8 + k) 8
      rw [h]
      congr 1; omega
    have hmod : Int.tmod ((j * 8 + k : Nat) : Int) 8 = ((k : Nat) : Int) := by
      have h : Int.tmod ((j * 8 + k : Nat) : Int) 8 = (((j * 8 + k) % 8 : Nat) : Int) :=
        tmod_natCast (j * 8 + k) 8
      rw [h]
      congr 1; omega
    have hpos : ¬ (((j : Nat) : Int) < 0 ∨ (m.len : Int) ≤ ((j : Nat) : Int)) := by omega
    simp only [hk, hcast, hne, ne_eq, not_false_eq_true, if_true, hdiv, hmod, hpos, if_false,
      Int.toNat_ofNat, Nat.one_shiftLeft]
    rw [Nat.mod_eq_of_lt (byte_or_lt _ _ hb k1)]

/-! ## Little-endian host: `Set` and `Get` address the physical bit -/

theorem storeUint32_LE_getD_in (s : List Nat) (a n c : Nat) (hc : c < 4)
    (ha : a + 3 < s.length) :
    (storeUint32 ByteOrder.LittleEndian s a n).getD (a + c) 0 = (n >>> (8 * c)) % 256 := by
  have q0 : a < s.length := by omega
  have q1 : a + 1 < s.length := by omega
  have q2 : a + 2 < s.length := by omega
  rw [storeUint32_LE_getD]
  interval_cases c
  · have p0 : ¬ (a = a + 3) := by omega
    have p1 : ¬ (a = a + 2) := by omega
    have p2 : ¬ (a = a + 1) := by omega
    simp only [p0, p1, p2, false_and, if_false, Nat.add_zero, q0, and_self, if_true,
      Nat.mul_zero, Nat.shiftRight_zero]
  · have p0 : ¬ (a + 1 = a + 3) := by omega
    have p1 : ¬ (a + 1 = a + 2) := by omega
    simp only [p0, p1, false_and, if_false, q1, and_self, if_true, Nat.mul_one]
  · have p0 : ¬ (a + 2 = a + 3) := by omega
    simp only [p0, false_and, if_false, q2, and_self, if_true]
  · simp only [ha, and_self, if_true]

theorem storeUint32_LE_getD_out (s : List Nat) (a n t : Nat) (ht : t < a ∨ a + 4 ≤ t) :
    (storeUint32 ByteOrder.LittleEndian s a n).getD t 0 = s.getD t 0 := by
  have p0 : ¬ (t = a + 3) := by omega
  have p1 : ¬ (t = a + 2) := by omega
  have p2 : ¬ (t = a + 1) := by omega
  have p3 : ¬ (t = a) := by omega
  rw [storeUint32_LE_getD]
  simp only [p0, p1, p2, p3, false_and, if_false]

theorem loadUint32_LE_testBit (s : List Nat) (a c u : Nat) (hs : ∀ t, s.getD t 0 < 256)
    (hc : c < 4) (hu : u < 8) :
    (loadUint32 ByteOrder.LittleEndian s a).testBit (8 * c + u) = (s.getD (a + c) 0).testBit u := by
  simp only [loadUint32]
  rw [word_testBit _ _ _ _ _ (hs _) (hs _) (hs _) (hs _)]
  interval_cases c
  · simp only [hu, if_true, Nat.mul_zero, Nat.zero_add, Nat.add_zero]
  · have c1 : ¬ (8 * 1 + u < 8) := by omega
    have c2 : 8 * 1 + u < 16 := by omega
    have c3 : 8 * 1 + u - 8 = u := by omega
    simp only [c1, c2, c3, if_true, if_false]
  · have c1 : ¬ (8 * 2 + u < 8) := by omega
    have c2 : ¬ (8 * 2 + u < 16) := by omega
    have c3 : 8 * 2 + u < 24 := by omega
    have c4 : 8 * 2 + u - 16 = u := by omega
    simp only [c1, c2, c3, c4, if_true, if_false]
  · have c1 : ¬ (8 * 3 + u < 8) := by omega
    have c2 : ¬ (8 * 3 + u < 16) := by omega
    have c3 : ¬ (8 * 3 + u < 24) := by omega
    have c4 : 8 * 3 + u - 24 = u := by omega
    simp only [c1, c2, c3, c4, if_false]

/-- On a little-endian host bit `i % 32` of the word of `i` is physical bit `i`. -/
theorem loadUint32_LE_bit (m : BitMap) (i : Nat) (hm : m.WF) :
    (loadUint32 ByteOrder.LittleEndian m.store (i / 32 * 4)).testBit (i % 32) = m.bit i := by
  have e1 : i % 32 = 8 * (i % 32 / 8) + i % 8 := by omega
  have e2 : i / 32 * 4 + i % 32 / 8 = i / 8 := by omega
  rw [e1, loadUint32_LE_testBit m.store _ _ _ hm.byte_lt (by omega) (by omega), e2]
  rfl

/-- On a little-endian host `Get(i)` reads physical bit `i`. -/
theorem Get_LE_bit (m : BitMap) (i : Nat) (hm : m.WF) (hi : i / 32 * 4 < m.len) :
    m.Get ByteOrder.LittleEndian (i : Int) = some (m.bit i) := by
  rw [Get_of_load _ m i hi, loadUint32_LE_bit m i hm]

theorem setWord_eq_self (old k : Nat) (v : Bool) (hk : k < 32) (ho : old < 4294967296)
    (hb : old.testBit k = v) : setWord old k v = old := by
  apply Nat.eq_of_testBit_eq
  intro x
  by_cases hx : x < 32
  · by_cases hkx : k = x
    · subst hkx
      rw [setWord_testBit_self old k v hk, hb]
    · exact setWord_testBit_other old k x v hx hkx
  · rw [word_testBit_ge (setWord_lt old k v hk ho) (by omega), word_testBit_ge ho (by omega)]

/-- On a little-endian host `Set(i, v)` writes physical bit `i` and no other, and
lowers the hint to `i` when it clears a set bit below the hint. -/
theorem Set_LE_bits (m : BitMap) (i : Nat) (v : Bool) (hm : m.WF) (hi : i / 32 * 4 < m.len) :
    ∃ m1, m.Set ByteOrder.LittleEndian (i : Int) v = some m1 ∧ m1.len = m.len ∧ m1.WF ∧
      (∀ t u, (m1.store.getD t 0).testBit u =
        if t = i / 8 ∧ u = i % 8 then v else (m.store.getD t 0).testBit u) ∧
      m1.lastVacant =
        if v = false ∧ m.bit i = true ∧ (i : Int) < m.lastVacant then (i : Int)
        else m.lastVacant := by
  have hk : i % 32 < 32 := Nat.mod_lt _ (by decide)
  have hl : ¬ m.len ≤ i / 32 * 4 := by omega
  have hold := loadUint32_lt ByteOrder.LittleEndian m.store (i / 32 * 4) hm.byte_lt
  have hbit := loadUint32_LE_bit m i hm
  have hlen : i / 32 * 4 + 3 < m.store.length := by rw [hm.length_eq]; omega
  have hset : ∃ m1, m.Set ByteOrder.LittleEndian (i : Int) v = some m1 := by
    obtain ⟨m1, h1, _⟩ := Set_Get_same ByteOrder.LittleEndian m i v hm hi
    exact ⟨m1, h1⟩
  obtain ⟨m1, h1⟩ := hset
  obtain ⟨hwf, hlen1⟩ := Set_WF _ m m1 i v hm h1
  refine ⟨m1, h1, hlen1, hwf, ?_⟩
  rw [Set_natCast] at h1
  simp only [hl, if_false] at h1
  by_cases h2 : loadUint32 ByteOrder.LittleEndian m.store (i / 32 * 4)
      = setWord (loadUint32 ByteOrder.LittleEndian m.store (i / 32 * 4)) (i % 32) v
  · rw [if_pos h2] at h1
    cases h1
    have hv : m.bit i = v := by
      rw [← hbit, h2]; exact setWord_testBit_self _ _ v hk
    constructor
    · intro t u
      by_cases hc : t = i / 8 ∧ u = i % 8
      · rw [if_pos hc, ← hv]
        obtain ⟨rfl, rfl⟩ := hc
        rfl
      · rw [if_neg hc]
    · have hc : ¬ (v = false ∧ m.bit i = true ∧ (i : Int) < m.lastVacant) := by
        rintro ⟨a1, a2, _⟩
        rw [hv, a1] at a2
        exact Bool.noConfusion a2
      rw [if_neg hc]
  · rw [if_neg h2] at h1
    cases h1
    have hv : m.bit i ≠ v := by
      intro hv
      apply h2
      exact (setWord_eq_self _ _ v hk hold (by rw [hbit]; exact hv)).symm
    constructor
    · intro t u
      simp only []
      by_cases ht : t < i / 32 * 4 ∨ i / 32 * 4 + 4 ≤ t
      · rw [storeUint32_LE_getD_out _ _ _ _ ht]
        have hc : ¬ (t = i / 8 ∧ u = i % 8) := by omega
        rw [if_neg hc]
      · obtain ⟨c, hc4, rfl⟩ : ∃ c, c < 4 ∧ t = i / 32 * 4 + c :=
          ⟨t - i / 32 * 4, by omega, by omega⟩
        rw [storeUint32_LE_getD_in _ _ _ c hc4 hlen, testBit_mod256, Nat.testBit_shiftRight]
        by_cases hu : u < 8
        · simp only [hu, decide_True, Bool.true_and]
          by_cases hku : i % 32 = 8 * c + u
          · have hc : i / 32 * 4 + c = i / 8 ∧ u = i % 8 := by omega
            rw [if_pos hc, ← hku]
            exact setWord_testBit_self _ _ v hk
          · have hc : ¬ (i / 32 * 4 + c = i / 8 ∧ u = i % 8) := by omega
            rw [if_neg hc, setWord_testBit_other _ _ _ v (by omega) hku]
            exact loadUint32_LE_testBit m.store _ c u hm.byte_lt hc4 hu
        · have hc : ¬ (i / 32 * 4 + c = i / 8 ∧ u = i % 8) := by omega
          rw [if_neg hc, byte_testBit_ge (hm.byte_lt _) (by omega)]
          simp [hu]
    · simp only []
      cases v
      · have hb : m.bit i = true := by
          cases hx : m.bit i
          · exact absurd hx hv
          · rfl
        simp [hb]
      · simp

/-! ## Invariants of reachable bit maps -/

theorem getD_replicate_zero (n t : Nat) : (List.replicate n 0).getD t 0 = 0 := by
  simp only [List.getD_eq_getElem?_getD, List.getElem?_replicate]
  split <;> rfl

theorem New_spec (N : Int) (m : BitMap) (h : New N = some m) :
    m.WF ∧ m.lastVacant = 0 ∧ ∀ t, m.store.getD t 0 = 0 := by
  unfold New at h
  simp only [] at h
  generalize (if Int.tmod N 8 ≠ 0 then Int.tdiv N 8 + 1 else Int.tdiv N 8) = bytes at h
  by_cases hb : bytes < 0
  · rw [if_pos hb] at h; exact Option.noConfusion h
  · rw [if_neg hb] at h
    cases h
    refine ⟨⟨by simp, fun t => ?_⟩, rfl, fun t => getD_replicate_zero _ t⟩
    simp only []
    rw [getD_replicate_zero]; decide

theorem New_natCast (n : Nat) :
    New (n : Int) = some { store := List.replicate ((n + 7) / 8 + 3) 0, len := (n + 7) / 8,
                           lastVacant := 0 } := by
  have hd : Int.tdiv (n : Int) 8 = ((n / 8 : Nat) : Int) := tdiv_natCast n 8
  have hmod : Int.tmod (n : Int) 8 = ((n % 8 : Nat) : Int) := tmod_natCast n 8
  unfold New
  simp only []
  rw [hd, hmod]
  by_cases h : n % 8 = 0
  · have h1 : ¬ (((n % 8 : Nat) : Int) ≠ 0) := by omega
    have h2 : ¬ (((n / 8 : Nat) : Int) < 0) := by omega
    have h3 : (n + 7) / 8 = n / 8 := by omega
    rw [if_neg h1, if_neg h2, Int.toNat_ofNat, h3]
  · have h1 : (((n % 8 : Nat) : Int) ≠ 0) := by omega
    have h2 : ¬ (((n / 8 : Nat) : Int) + 1 < 0) := by omega
    have h3 : (((n / 8 : Nat) : Int) + 1).toNat = (n + 7) / 8 := by omega
    rw [if_pos h1, if_neg h2, h3]

theorem scanStart_of_neg_one (m : BitMap) (h : m.lastVacant = -1) : scanStart m = 0 := by
  unfold scanStart
  rw [h]; decide

theorem scanStart_of_zero (m : BitMap) (h : m.lastVacant = 0) : scanStart m = 0 := by
  unfold scanStart
  rw [h]; decide

theorem scanStart_of_natCast (m : BitMap) (n : Nat) (h : m.lastVacant = (n : Int)) :
    scanStart m = n / 8 := by
  unfold scanStart
  have hd : Int.tdiv (n : Int) 8 = ((n / 8 : Nat) : Int) := tdiv_natCast n 8
  rw [h, hd, Int.toNat_ofNat]

theorem scanStart_cases (m : BitMap) (h : -1 ≤ m.lastVacant) :
    (m.lastVacant = -1 ∧ scanStart m = 0) ∨
      ∃ n : Nat, m.lastVacant = (n : Int) ∧ scanStart m = n / 8 := by
  rcases Int.lt_or_le m.lastVacant 0 with h0 | h0
  · left
    have : m.lastVacant = -1 := by omega
    refine ⟨this, ?_⟩
    unfold scanStart
    rw [this]; decide
  · right
    obtain ⟨n, hn⟩ := Int.eq_ofNat_of_zero_le h0
    refine ⟨n, hn, ?_⟩
    unfold scanStart
    have hd : Int.tdiv (n : Int) 8 = ((n / 8 : Nat) : Int) := tdiv_natCast n 8
    rw [hn, hd, Int.toNat_ofNat]

theorem byte_eq_of_testBit {a b : Nat} (h : ∀ u, a.testBit u = b.testBit u) : a = b :=
  Nat.eq_of_testBit_eq h

theorem testBit_255 (u : Nat) (hu : u < 8) : (255 : Nat).testBit u = true := by
  interval_cases u <;> decide

theorem Set_some_index (e : ByteOrder) (m m1 : BitMap) (i : Nat) (v : Bool)
    (h : m.Set e (i : Int) v = some m1) : i / 32 * 4 < m.len := by
  rw [Set_natCast] at h
  by_cases hl : m.len ≤ i / 32 * 4
  · simp [hl] at h
  · omega

/-- Operation `Set` on a little-endian host keeps the hint invariant. -/
theorem Set_LE_HintOK (m m1 : BitMap) (i : Nat) (v : Bool) (hm : m.WF) (hh : m.HintOK)
    (h : m.Set ByteOrder.LittleEndian (i : Int) v = some m1) : m1.HintOK := by
  have hi := Set_some_index _ m m1 i v h
  obtain ⟨m2, h2, hlen, _, hbits, hlv⟩ := Set_LE_bits m i v hm hi
  rw [h] at h2
  cases h2
  obtain ⟨hge, hfull⟩ := hh
  have hother : ∀ t, t ≠ i / 8 → m1.store.getD t 0 = m.store.getD t 0 := by
    intro t ht
    apply byte_eq_of_testBit
    intro u
    rw [hbits t u]
    have : ¬ (t = i / 8 ∧ u = i % 8) := fun hc => ht hc.1
    rw [if_neg this]
  by_cases hc : v = false ∧ m.bit i = true ∧ (i : Int) < m.lastVacant
  · rw [if_pos hc] at hlv
    have hge1 : -1 ≤ m1.lastVacant := by rw [hlv]; omega
    refine ⟨hge1, ?_⟩
    intro t ht1 ht2
    rcases scanStart_cases m1 hge1 with ⟨c1, _⟩ | ⟨n1, c1, c2⟩
    · omega
    · have hn1 : n1 = i := by
        have := hlv ▸ c1
        exact_mod_cast this.symm
      subst hn1
      rcases scanStart_cases m hge with ⟨d1, _⟩ | ⟨n0, d1, d2⟩
      · omega
      · have hlt : n1 < n0 := by
          have := hc.2.2
          rw [d1] at this
          exact_mod_cast this
        rw [hother t (by omega)]
        exact hfull t (by omega) (by omega)
  · rw [if_neg hc] at hlv
    have hss : scanStart m1 = scanStart m := by unfold scanStart; rw [hlv]
    refine ⟨by rw [hlv]; exact hge, ?_⟩
    intro t ht1 ht2
    rw [hss] at ht1
    have hold := hfull t ht1 (by omega)
    by_cases ht : t = i / 8
    · apply byte_eq_of_testBit
      intro u
      rw [hbits t u]
      by_cases hu : u = i % 8
      · rw [if_pos ⟨ht, hu⟩]
        have hb : m.bit i = true := by
          unfold BitMap.bit
          rw [← ht, hold]
          exact testBit_255 _ (Nat.mod_lt _ (by decide))
        cases v
        · exfalso
          apply hc
          refine ⟨rfl, hb, ?_⟩
          rcases scanStart_cases m hge with ⟨_, d2⟩ | ⟨n0, d1, d2⟩
          · omega
          · rw [d1]
            have : i < n0 := by omega
            exact_mod_cast this
        · rw [hu]; exact (testBit_255 _ (Nat.mod_lt _ (by decide))).symm
      · have : ¬ (t = i / 8 ∧ u = i % 8) := fun hc => hu hc.2
        rw [if_neg this, hold]
    · rw [hother t ht]; exact hold

/-- Operation `FindVacantAndSet` in terms of physical bits, for a well-shaped state that
satisfies the hint invariant. -/
theorem FindVacantAndSet_bits (m : BitMap) (hm : m.WF) (hh : m.HintOK) :
    ((∀ t, t < 8 * m.len → m.bit t = true) ∧
      m.FindVacantAndSet = some ({ m with lastVacant := -1 }, -1)) ∨
    (∃ r m1, r < 8 * m.len ∧ m.bit r = false ∧ (∀ t, t < r → m.bit t = true) ∧
      m.FindVacantAndSet = some (m1, (r : Int)) ∧ m1.WF ∧ m1.HintOK ∧ m1.len = m.len ∧
      (∀ t, m1.bit t = (decide (t = r) || m.bit t)) ∧ m1.lastVacant = (r : Int) ∧
      (∀ t, t ≠ r / 8 → m1.store.getD t 0 = m.store.getD t 0)) := by
  obtain ⟨hge, hfull⟩ := hh
  rcases FindVacantAndSet_spec m hm hge with ⟨h1, h2⟩ | ⟨j, k, h1, h2, h3, h4, h5, h6, h7⟩
  · left
    refine ⟨?_, h2⟩
    intro t ht
    have hb : m.store.getD (t / 8) 0 = 255 := by
      by_cases hc : t / 8 < scanStart m
      · exact hfull _ hc (by omega)
      · exact h1 _ (by omega) (by omega)
    unfold BitMap.bit
    rw [hb]
    exact testBit_255 _ (Nat.mod_lt _ (by decide))
  · right
    have hall : ∀ t, t < j → m.store.getD t 0 = 255 := by
      intro t ht
      by_cases hc : t < scanStart m
      · exact hfull _ hc (by omega)
      · exact h4 _ (by omega) ht
    have e1 : (j * 8 + k) / 8 = j := by omega
    have e2 : (j * 8 + k) % 8 = k := by omega
    have hjlen : j < m.store.length := by rw [hm.length_eq]; omega
    refine ⟨j * 8 + k, _, by omega, ?_, ?_, h7, ?_, ?_, rfl, ?_, rfl, ?_⟩
    · unfold BitMap.bit
      rw [e1, e2]; exact h5
    · intro t ht
      unfold BitMap.bit
      by_cases hc : t / 8 < j
      · rw [hall _ hc]
        exact testBit_255 _ (Nat.mod_lt _ (by decide))
      · have e3 : t / 8 = j := by omega
        rw [e3]
        exact h6 _ (by omega)
    · refine ⟨by simp only [List.length_set]; exact hm.length_eq, ?_⟩
      intro t
      simp only [getD_set_eq]
      split
      · exact byte_or_lt _ _ (hm.byte_lt _) h3
      · exact hm.byte_lt _
    · refine ⟨by simp only []; omega, ?_⟩
      intro t ht1 _
      rw [scanStart_of_natCast _ (j * 8 + k) rfl, e1] at ht1
      simp only [getD_set_eq]
      have : ¬ (t = j ∧ j < m.store.length) := by omega
      rw [if_neg this]
      exact hall t ht1
    · intro t
      unfold BitMap.bit
      simp only [getD_set_eq]
      by_cases hc : t / 8 = j
      · rw [if_pos ⟨hc, hjlen⟩, Nat.testBit_or, Nat.testBit_two_pow, hc]
        by_cases hk : k = t % 8
        · have ht : t = j * 8 + k := by omega
          rw [decide_eq_true hk, decide_eq_true ht, Bool.or_true, Bool.true_or]
        · have ht : ¬ (t = j * 8 + k) := by omega
          rw [decide_eq_false hk, decide_eq_false ht, Bool.or_false, Bool.false_or]
      · have h8 : ¬ (t / 8 = j ∧ j < m.store.length) := fun h => hc h.1
        have : ¬ (t = j * 8 + k) := by omega
        rw [if_neg h8]
        simp [this]
    · intro t ht
      simp only [getD_set_eq]
      have : ¬ (t = j ∧ j < m.store.length) := by omega
      rw [if_neg this]

/-- Operation `FindVacantAndSet` keeps the shape, the slice length and the hint invariant. -/
theorem FindVacantAndSet_inv (m m1 : BitMap) (k : Int) (hm : m.WF) (hh : m.HintOK)
    (h : m.FindVacantAndSet = some (m1, k)) : m1.WF ∧ m1.HintOK ∧ m1.len = m.len := by
  rcases FindVacantAndSet_bits m hm hh with ⟨_, h2⟩ | ⟨r, m2, _, _, _, h2, a1, a2, a3, _⟩
  · rw [h2] at h
    cases h
    refine ⟨⟨hm.length_eq, hm.byte_lt⟩, ⟨by simp, ?_⟩, rfl⟩
    intro t ht
    rw [scanStart_of_neg_one _ rfl] at ht
    omega
  · rw [h2] at h
    cases h
    exact ⟨a1, a2, a3⟩

/-- Every state reachable on a little-endian host is well-shaped and satisfies
the hint invariant. -/
theorem Reachable_LE_inv (N : Int) (m : BitMap)
    (h : BitMap.Reachable ByteOrder.LittleEndian N m) : m.WF ∧ m.HintOK := by
  induction h with
  | new h0 =>
    obtain ⟨a1, a2, _⟩ := New_spec N _ h0
    refine ⟨a1, by rw [a2]; decide, ?_⟩
    intro t ht
    rw [scanStart_of_zero _ a2] at ht
    omega
  | set _ h0 _ hs ih =>
    obtain ⟨n, rfl⟩ := Int.eq_ofNat_of_zero_le h0
    exact ⟨(Set_WF _ _ _ n _ ih.1 hs).1, Set_LE_HintOK _ _ n _ ih.1 ih.2 hs⟩
  | find _ hf ih =>
    obtain ⟨a1, a2, _⟩ := FindVacantAndSet_inv _ _ _ ih.1 ih.2 hf
    exact ⟨a1, a2⟩

/-- Operation `FindVacantAndSet` keeps the shape and the slice length whenever it returns. -/
theorem FindVacantAndSet_WF (m m1 : BitMap) (k : Int) (hm : m.WF)
    (h : m.FindVacantAndSet = some (m1, k)) : m1.WF ∧ m1.len = m.len := by
  unfold BitMap.FindVacantAndSet at h
  simp only [] at h
  by_cases h0 : Int.tdiv m.lastVacant 8 < 0
  · rw [if_pos h0] at h; exact Option.noConfusion h
  · rw [if_neg h0] at h
    generalize (match scanFrom ((m.store.take m.len).drop (Int.tdiv m.lastVacant 8).toNat)
        (Int.tdiv m.lastVacant 8).toNat with
      | none => (-1 : Int)
      | some i => (i : Int) * 8 + (fastLog2 ((m.store.getD i 0 ^^^ 255) &&&
          ((256 - (m.store.getD i 0 ^^^ 255)) % 256)) : Int)) = nv at h
    by_cases h1 : nv ≠ -1
    · rw [if_pos h1] at h
      by_cases h2 : Int.tdiv nv 8 < 0 ∨ (m.len : Int) ≤ Int.tdiv nv 8
      · rw [if_pos h2] at h; exact Option.noConfusion h
      · rw [if_neg h2] at h
        cases h
        refine ⟨⟨by simp only [List.length_set]; exact hm.length_eq, ?_⟩, rfl⟩
        intro t
        simp only [getD_set_eq]
        split
        · exact Nat.mod_lt _ (by decide)
        · exact hm.byte_lt _
    · rw [if_neg h1] at h
      cases h
      exact ⟨⟨hm.length_eq, hm.byte_lt⟩, rfl⟩

/-- Every reachable state, on either host, is well-shaped and has the slice
length `New` gave it. -/
theorem Reachable_WF (e : ByteOrder) (N : Int) (m : BitMap) (h : BitMap.Reachable e N m) :
    m.WF ∧ ∀ n : Nat, N = (n : Int) → m.len = (n + 7) / 8 := by
  induction h with
  | new h0 =>
    refine ⟨(New_spec N _ h0).1, ?_⟩
    intro n hn
    rw [hn, New_natCast] at h0
    cases h0
    rfl
  | set _ h0 _ hs ih =>
    obtain ⟨n, rfl⟩ := Int.eq_ofNat_of_zero_le h0
    obtain ⟨a1, a2⟩ := Set_WF _ _ _ n _ ih.1 hs
    exact ⟨a1, fun n hn => by rw [a2]; exact ih.2 n hn⟩
  | find _ hf ih =>
    obtain ⟨a1, a2⟩ := FindVacantAndSet_WF _ _ _ ih.1 hf
    exact ⟨a1, fun n hn => by rw [a2]; exact ih.2 n hn⟩

/-! ## Claims on the bit map -/

/-- C1. On a little-endian host, in every state reachable from `New(N)` by
in-range `Set` calls and `FindVacantAndSet` calls, `FindVacantAndSet` returns.
Its result is `-1` exactly when every bit of the store reads as set, and then no
bit changes; otherwise the result `r` is the smallest index whose `Get` was
false, `Get(r)` is true afterwards and `Get` of every other index is unchanged. -/
theorem C1_FindVacantAndSet_smallest_clear (N : Int) (m : BitMap)
    (h : BitMap.Reachable ByteOrder.LittleEndian N m) :
    ∃ m1 k, m.FindVacantAndSet = some (m1, k) ∧
      (k = -1 ↔ ∀ t : Nat, t < 8 * m.len → m.Get ByteOrder.LittleEndian (t : Int) = some true) ∧
      ((k = -1 ∧ m1.store = m.store ∧
          ∀ t : Nat, m1.Get ByteOrder.LittleEndian (t : Int)
            = m.Get ByteOrder.LittleEndian (t : Int)) ∨
       (∃ r : Nat, k = (r : Int) ∧ r < 8 * m.len ∧
          m.Get ByteOrder.LittleEndian (r : Int) = some false ∧
          (∀ t : Nat, t < r → m.Get ByteOrder.LittleEndian (t : Int) = some true) ∧
          m1.Get ByteOrder.LittleEndian (r : Int) = some true ∧
          ∀ t : Nat, t ≠ r → m1.Get ByteOrder.LittleEndian (t : Int)
            = m.Get ByteOrder.LittleEndian (t : Int))) := by
  obtain ⟨hm, hh⟩ := Reachable_LE_inv N m h
  have hget : ∀ t : Nat, t < 8 * m.len →
      m.Get ByteOrder.LittleEndian (t : Int) = some (m.bit t) :=
    fun t ht => Get_LE_bit m t hm (by omega)
  rcases FindVacantAndSet_bits m hm hh with
    ⟨h1, h2⟩ | ⟨r, m1, b1, b2, b3, b4, b5, _, b7, b8, _, _⟩
  · refine ⟨_, _, h2, ?_, Or.inl ⟨rfl, rfl, fun t => rfl⟩⟩
    constructor
    · intro _ t ht
      rw [hget t ht, h1 t ht]
    · intro _; rfl
  · have hget1 : ∀ t : Nat, t < 8 * m.len →
        m1.Get ByteOrder.LittleEndian (t : Int) = some (m1.bit t) :=
      fun t ht => Get_LE_bit m1 t b5 (by rw [b7]; omega)
    refine ⟨m1, _, b4, ?_, Or.inr ⟨r, rfl, b1, ?_, ?_, ?_, ?_⟩⟩
    · constructor
      · intro hk; omega
      · intro hall
        have := hall r b1
        rw [hget r b1, b2] at this
        exact absurd this (by decide)
    · rw [hget r b1, b2]
    · intro t ht
      rw [hget t (by omega), b3 t ht]
    · rw [hget1 r b1, b8 r]
      simp
    · intro t ht
      by_cases hin : t / 32 * 4 < m.len
      · rw [Get_LE_bit m1 t b5 (by rw [b7]; exact hin), Get_LE_bit m t hm hin, b8 t]
        simp [ht]
      · rw [Get_natCast, Get_natCast, b7]
        have : m.len ≤ t / 32 * 4 := by omega
        simp [this]

/-- C4. On either host, in every state reachable from `New(N)` and for every
index `0 ≤ i < N`: `Set(i, true)` returns and `Get(i)` is then true, and
`Set(i, false)` returns and `Get(i)` is then false. -/
theorem C4_Set_then_Get (e : ByteOrder) (N : Int) (m : BitMap) (i : Int) (v : Bool)
    (h : BitMap.Reachable e N m) (h0 : 0 ≤ i) (h1 : i < N) :
    ∃ m1, m.Set e i v = some m1 ∧ m1.Get e i = some v := by
  obtain ⟨hm, hlen⟩ := Reachable_WF e N m h
  obtain ⟨j, rfl⟩ := Int.eq_ofNat_of_zero_le h0
  obtain ⟨n, rfl⟩ := Int.eq_ofNat_of_zero_le (by omega : (0 : Int) ≤ N)
  have hl := hlen n rfl
  have hj : j < n := by exact_mod_cast h1
  exact Set_Get_same e m j v hm (by omega)

/-- Successive calls on a state with no bit set: the first `j` calls return
`0, …, j - 1` and leave exactly the bits below `j` set. -/
theorem callsFrom_fresh (m0 : BitMap) (hm : m0.WF) (hh : m0.HintOK)
    (hz : ∀ t, m0.bit t = false) (j : Nat) (hj : j ≤ 8 * m0.len) :
    ∃ mj, callsFrom m0 j = some (mj, (List.range j).map Int.ofNat) ∧ mj.WF ∧ mj.HintOK ∧
      mj.len = m0.len ∧ ∀ t, mj.bit t = decide (t < j) := by
  induction j with
  | zero =>
    refine ⟨m0, rfl, hm, hh, rfl, ?_⟩
    intro t
    rw [hz t]; simp
  | succ j ih =>
    obtain ⟨mj, c1, c2, c3, c4, c5⟩ := ih (by omega)
    rcases FindVacantAndSet_bits mj c2 c3 with
      ⟨h1, _⟩ | ⟨r, m1, b1, b2, b3, b4, b5, b6, b7, b8, _, _⟩
    · have := h1 j (by rw [c4]; omega)
      rw [c5 j] at this
      simp at this
    · have hr : r = j := by
        rcases Nat.lt_trichotomy r j with hlt | heq | hgt
        · have := c5 r
          rw [b2] at this
          simp [hlt] at this
        · exact heq
        · have := b3 j hgt
          rw [c5 j] at this
          simp at this
      subst hr
      refine ⟨m1, ?_, b5, b6, by rw [b7, c4], ?_⟩
      · simp only [callsFrom, c1, b4, List.range_succ, List.map_append, List.map_cons,
          List.map_nil]
        rfl
      · intro t
        rw [b8 t, c5 t]
        by_cases h1 : t = r
        · simp [h1]
        · by_cases h2 : t < r
          · have : t < r + 1 := by omega
            simp [h1, h2, this]
          · have : ¬ t < r + 1 := by omega
            simp [h1, h2, this]

/-- C10. The scenario of `TestFindVacant` on a little-endian host: on `New(32)`
with bits 1, 2, 7, 31 set, `FindVacantAndSet` returns 0 and then 3, `Get` of each
being true; with bits 4, 5, 6, 9 also set it returns 8; with bits 10..30 also set
it returns -1. -/
theorem C10_TestFindVacant_scenario :
    ∃ m0 m1 m2 m3 m4 m5 m6 m7,
      New 32 = some m0 ∧
      setMany ByteOrder.LittleEndian m0 [1, 2, 7, 31] = some m1 ∧
      m1.FindVacantAndSet = some (m2, 0) ∧ m2.Get ByteOrder.LittleEndian 0 = some true ∧
      m2.FindVacantAndSet = some (m3, 3) ∧ m3.Get ByteOrder.LittleEndian 3 = some true ∧
      setMany ByteOrder.LittleEndian m3 [4, 5, 6, 9] = some m4 ∧
      m4.FindVacantAndSet = some (m5, 8) ∧ m5.Get ByteOrder.LittleEndian 8 = some true ∧
      setMany ByteOrder.LittleEndian m5
        [10, 11, 12, 13, 14, 15, 16, 17, 18, 19, 20, 21, 22, 23, 24, 25, 26, 27, 28, 29, 30]
        = some m6 ∧
      m6.FindVacantAndSet = some (m7, -1) :=
  ⟨⟨[0, 0, 0, 0, 0, 0, 0], 4, 0⟩, ⟨[134, 0, 0, 128, 0, 0, 0], 4, 0⟩,
   ⟨[135, 0, 0, 128, 0, 0, 0], 4, 0⟩, ⟨[143, 0, 0, 128, 0, 0, 0], 4, 3⟩,
   ⟨[255, 2, 0, 128, 0, 0, 0], 4, 3⟩, ⟨[255, 3, 0, 128, 0, 0, 0], 4, 8⟩,
   ⟨[255, 255, 255, 255, 0, 0, 0], 4, 8⟩, ⟨[255, 255, 255, 255, 0, 0, 0], 4, -1⟩,
   by decide, by decide, by decide, by decide, by decide, by decide, by decide, by decide,
   by decide, by decide, by decide⟩

/-- C9, as stated, fails for `N = 1`: on `New(1)` the second call, which is the
`(N+1)`-th, returns 1 and not the sentinel -1. -/
theorem C9_counterexample :
    ((New 1).bind fun m => callsFrom m 2).map Prod.snd = some [0, 1] ∧
    ((New 1).bind fun m => callsFrom m 2).map Prod.snd ≠ some [0, -1] := by
  constructor <;> decide

/-- C9, amended. `New(N)` allocates `M = 8 * ceil(N / 8)` bits (`M = N` when `N`
is a multiple of 8). On the fresh bit map the first `j + 1` calls, for every
`j < M`, return `0, …, j` in that order and leave bit `j` set (in the store, and as
read by `Get` on a little-endian host), and the `(M+1)`-th call returns -1. -/
theorem C9_successive_calls (N : Nat) :
    ∃ m0, New (N : Int) = some m0 ∧ m0.len = (N + 7) / 8 ∧
      (∀ j, j < 8 * ((N + 7) / 8) →
        ∃ mj, callsFrom m0 (j + 1) = some (mj, (List.range (j + 1)).map Int.ofNat) ∧
          mj.bit j = true ∧ mj.Get ByteOrder.LittleEndian (j : Int) = some true) ∧
      (∃ mf, callsFrom m0 (8 * ((N + 7) / 8) + 1)
        = some (mf, (List.range (8 * ((N + 7) / 8))).map Int.ofNat ++ [-1])) := by
  have hnew := New_natCast N
  obtain ⟨hm, hh⟩ := Reachable_LE_inv (N : Int) _ (BitMap.Reachable.new hnew)
  obtain ⟨_, _, hzero⟩ := New_spec (N : Int) _ hnew
  refine ⟨_, hnew, rfl, ?_, ?_⟩
  · intro j hj
    obtain ⟨mj, c1, c2, _, c4, c5⟩ := callsFrom_fresh _ hm hh
      (fun t => by unfold BitMap.bit; rw [hzero]; exact Nat.zero_testBit _) (j + 1) hj
    have hb : mj.bit j = true := by rw [c5 j]; simp
    refine ⟨mj, c1, hb, ?_⟩
    rw [Get_LE_bit mj j c2 (by rw [c4]; simp only []; omega), hb]
  · obtain ⟨mj, c1, c2, c3, c4, c5⟩ := callsFrom_fresh _ hm hh
      (fun t => by unfold BitMap.bit; rw [hzero]; exact Nat.zero_testBit _)
      (8 * ((N + 7) / 8)) (le_refl _)
    rcases FindVacantAndSet_bits mj c2 c3 with ⟨_, h2⟩ | ⟨r, m1, b1, b2, _⟩
    · refine ⟨{ store := mj.store, len := mj.len, lastVacant := -1 }, ?_⟩
      simp only [callsFrom, c1, h2]
    · rw [c5 r] at b2
      rw [c4] at b1
      simp only [] at b1
      simp [b1] at b2

/-! ## The block: flush, `Put`, `Delete` -/

theorem flush_eq_foldl (iter : List (Nat × MyGOValue) → List (Nat × MyGOValue)) (b : Block) :
    b.flush iter =
      if b.pendingChanges.length = 0 then b else (iter b.pendingChanges).foldl flushStep b := rfl

theorem foldl_flushStep_fields (l : List (Nat × MyGOValue)) (b : Block) :
    (l.foldl flushStep b).bitmap = b.bitmap ∧ (l.foldl flushStep b).vacancy = b.vacancy ∧
    (l.foldl flushStep b).offset = b.offset ∧
    (l.foldl flushStep b).pendingChanges
      = l.foldl (fun pc p => mapDelete pc p.1) b.pendingChanges ∧
    (l.foldl flushStep b).file
      = l.foldl (fun f p => writeAt f p.2 (b.slotPos p.1)) b.file := by
  induction l generalizing b with
  | nil => exact ⟨rfl, rfl, rfl, rfl, rfl⟩
  | cons p rest ih =>
    obtain ⟨a1, a2, a3, a4, a5⟩ := ih (flushStep b p)
    simp only [List.foldl_cons]
    refine ⟨a1, a2, a3, a4, ?_⟩
    rw [a5]
    rfl

theorem mem_mapDelete {m : List (Nat × MyGOValue)} {k : Nat} {p : Nat × MyGOValue} :
    p ∈ mapDelete m k ↔ p ∈ m ∧ p.1 ≠ k := by
  simp [mapDelete]

theorem foldl_mapDelete_subset (l : List (Nat × MyGOValue)) (pc : List (Nat × MyGOValue)) :
    ∀ p ∈ l.foldl (fun pc p => mapDelete pc p.1) pc, p ∈ pc := by
  induction l generalizing pc with
  | nil => intro p hp; exact hp
  | cons q rest ih =>
    intro p hp
    have := ih (mapDelete pc q.1) p hp
    exact (mem_mapDelete.mp this).1

theorem foldl_mapDelete_not_mem (l : List (Nat × MyGOValue)) (pc : List (Nat × MyGOValue))
    (p : Nat × MyGOValue) (hp : p ∈ l) :
    p ∉ l.foldl (fun pc p => mapDelete pc p.1) pc := by
  induction l generalizing pc with
  | nil => cases hp
  | cons q rest ih =>
    intro hmem
    simp only [List.foldl_cons] at hmem
    rcases List.mem_cons.mp hp with h | h
    · subst h
      have := foldl_mapDelete_subset rest _ p hmem
      exact (mem_mapDelete.mp this).2 rfl
    · exact ih _ h hmem

/-- After a flush cycle the pending map is empty. -/
theorem flush_pending_nil (iter : List (Nat × MyGOValue) → List (Nat × MyGOValue)) (b : Block)
    (hi : IterOrder iter) : (b.flush iter).pendingChanges = [] := by
  rw [flush_eq_foldl]
  by_cases h : b.pendingChanges.length = 0
  · rw [if_pos h]
    exact List.length_eq_zero.mp h
  · rw [if_neg h, (foldl_flushStep_fields _ b).2.2.2.1]
    apply List.eq_nil_iff_forall_not_mem.mpr
    intro p hp
    have h1 := foldl_mapDelete_subset _ _ p hp
    exact foldl_mapDelete_not_mem _ _ p ((hi _).mem_iff.mpr h1) hp

theorem flush_fields (iter : List (Nat × MyGOValue) → List (Nat × MyGOValue)) (b : Block) :
    (b.flush iter).bitmap = b.bitmap ∧ (b.flush iter).vacancy = b.vacancy ∧
    (b.flush iter).offset = b.offset ∧
    ∀ p ∈ (b.flush iter).pendingChanges, p ∈ b.pendingChanges := by
  rw [flush_eq_foldl]
  by_cases h : b.pendingChanges.length = 0
  · rw [if_pos h]
    exact ⟨rfl, rfl, rfl, fun p hp => hp⟩
  · rw [if_neg h]
    obtain ⟨a1, a2, a3, a4, _⟩ := foldl_flushStep_fields (iter b.pendingChanges) b
    refine ⟨a1, a2, a3, ?_⟩
    rw [a4]
    exact foldl_mapDelete_subset _ _

theorem putStart_fields (iter : List (Nat × MyGOValue) → List (Nat × MyGOValue)) (b : Block) :
    (putStart iter b).bitmap = b.bitmap ∧ (putStart iter b).vacancy = b.vacancy ∧
    (putStart iter b).offset = b.offset ∧
    ∀ p ∈ (putStart iter b).pendingChanges, p ∈ b.pendingChanges := by
  unfold putStart Block.FlushSync
  split
  · exact flush_fields iter b
  · exact ⟨rfl, rfl, rfl, fun p hp => hp⟩

/-- Operation `Put` with the vacancy arithmetic resolved. -/
theorem Put_eq (iter : List (Nat × MyGOValue) → List (Nat × MyGOValue)) (b : Block)
    (data : MyGOValue) :
    b.Put iter data =
      if (putStart iter b).vacancy = 0 then
        some (putStart iter b, some "No vacancy remaining", 0)
      else
        match (putStart iter b).bitmap.FindVacantAndSet with
        | none => none
        | some (bm, r) =>
          some ({ bitmap := bm,
                  vacancy := toUint32 (((putStart iter b).vacancy : Int) + -1),
                  offset := (putStart iter b).offset,
                  pendingChanges := mapInsert (putStart iter b).pendingChanges (toUint32 r) data,
                  file := (putStart iter b).file }, none, toUint32 r) := by
  unfold Block.Put
  simp only []
  have e : (if b.pendingChanges.length = bufferSize then b.FlushSync iter else b)
      = putStart iter b := rfl
  rw [e]
  generalize putStart iter b = b0
  by_cases h : b0.vacancy = 0
  · rw [if_pos h, if_pos h]
  · rw [if_neg h, if_neg h]
    have hn : ¬ ((b0.vacancy : Int) + -1 < 0) := by omega
    unfold Block.adjustVacancy
    simp only [hn, if_false]

theorem toUint32_pred (v : Nat) (h0 : v ≠ 0) (h1 : v < 4294967296) :
    toUint32 ((v : Int) + -1) = v - 1 := by
  unfold toUint32
  omega

theorem toUint32_succ (v : Nat) (h1 : v + 1 < 4294967296) :
    toUint32 ((v : Int) + 1) = v + 1 := by
  unfold toUint32
  omega

theorem toUint32_lt (x : Int) : toUint32 x < 4294967296 := by
  unfold toUint32
  omega

theorem toUint32_neg_one : toUint32 (-1) = 4294967295 := by decide

theorem foldl_mapDelete_sublist (l : List (Nat × MyGOValue)) (pc : List (Nat × MyGOValue)) :
    (l.foldl (fun pc p => mapDelete pc p.1) pc).Sublist pc := by
  induction l generalizing pc with
  | nil => exact List.Sublist.refl _
  | cons q rest ih =>
    simp only [List.foldl_cons]
    exact (ih _).trans (List.filter_sublist _)

theorem flush_pending_sublist (iter : List (Nat × MyGOValue) → List (Nat × MyGOValue))
    (b : Block) : (b.flush iter).pendingChanges.Sublist b.pendingChanges := by
  rw [flush_eq_foldl]
  by_cases h : b.pendingChanges.length = 0
  · rw [if_pos h]
  · rw [if_neg h, (foldl_flushStep_fields _ b).2.2.2.1]
    exact foldl_mapDelete_sublist _ _

theorem putStart_pending_sublist (iter : List (Nat × MyGOValue) → List (Nat × MyGOValue))
    (b : Block) : (putStart iter b).pendingChanges.Sublist b.pendingChanges := by
  unfold putStart Block.FlushSync
  split
  · exact flush_pending_sublist iter b
  · exact List.Sublist.refl _

theorem keys_nodup_of_sublist {l1 l2 : List (Nat × MyGOValue)} (h : l1.Sublist l2)
    (hn : (l2.map Prod.fst).Nodup) : (l1.map Prod.fst).Nodup :=
  List.Nodup.sublist (h.map Prod.fst) hn

theorem mapInsert_keys_nodup (l : List (Nat × MyGOValue)) (k : Nat) (v : MyGOValue)
    (hn : (l.map Prod.fst).Nodup) : ((mapInsert l k v).map Prod.fst).Nodup := by
  unfold mapInsert
  simp only [List.map_cons, List.nodup_cons]
  constructor
  · intro hmem
    obtain ⟨p, hp, hk⟩ := List.mem_map.mp hmem
    exact (mem_mapDelete.mp hp).2 hk
  · exact keys_nodup_of_sublist (List.filter_sublist _) hn

/-- A flush cycle keeps the invariant. -/
theorem flush_Inv (iter : List (Nat × MyGOValue) → List (Nat × MyGOValue)) (b : Block)
    (h : b.Inv) : (b.flush iter).Inv := by
  obtain ⟨a1, a2, a3, a4⟩ := flush_fields iter b
  exact ⟨by rw [a1]; exact h.wf, by rw [a1]; exact h.len_eq, by rw [a1]; exact h.hint_ge,
    by rw [a2]; exact h.vacancy_lt,
    keys_nodup_of_sublist (flush_pending_sublist iter b) h.keys_nodup,
    fun p hp => h.keys_range p (a4 p hp)⟩

theorem putStart_Inv (iter : List (Nat × MyGOValue) → List (Nat × MyGOValue)) (b : Block)
    (h : b.Inv) : (putStart iter b).Inv := by
  unfold putStart Block.FlushSync
  split
  · exact flush_Inv iter b h
  · exact h

/-- The index `FindVacantAndSet` hands to `Put` in a state satisfying the
invariant: `-1` or a slot index, turned into the key `uint32(r)`. -/
theorem Inv_FindVacantAndSet (b : Block) (h : b.Inv) :
    ∃ bm r, b.bitmap.FindVacantAndSet = some (bm, r) ∧ bm.WF ∧ bm.len = 131072 ∧
      -1 ≤ bm.lastVacant ∧
      ((r = -1 ∧ toUint32 r = 4294967295) ∨
       (∃ n : Nat, r = (n : Int) ∧ n < 1048576 ∧ toUint32 r = n)) := by
  rcases FindVacantAndSet_spec b.bitmap h.wf h.hint_ge with
    ⟨_, h2⟩ | ⟨j, k, _, h2, h3, _, _, _, h7⟩
  · obtain ⟨w1, w2⟩ := FindVacantAndSet_WF _ _ _ h.wf h2
    exact ⟨_, _, h2, w1, by rw [w2]; exact h.len_eq, by simp,
      Or.inl ⟨rfl, toUint32_neg_one⟩⟩
  · obtain ⟨w1, w2⟩ := FindVacantAndSet_WF _ _ _ h.wf h7
    have hl := h.len_eq
    refine ⟨_, _, h7, w1, by rw [w2]; exact hl, by simp only []; omega,
      Or.inr ⟨j * 8 + k, rfl, by omega, ?_⟩⟩
    rw [toUint32_natCast]
    omega

/-- Operation `Put` in a state satisfying the invariant: it returns, with an error exactly
when the vacancy counter is zero. -/
theorem Inv_Put (iter : List (Nat × MyGOValue) → List (Nat × MyGOValue)) (b : Block)
    (data : MyGOValue) (h : b.Inv) :
    (b.vacancy = 0 ∧
      b.Put iter data = some (putStart iter b, some "No vacancy remaining", 0)) ∨
    (b.vacancy ≠ 0 ∧ ∃ bm r, b.bitmap.FindVacantAndSet = some (bm, r) ∧
      ((r = -1 ∧ toUint32 r = 4294967295) ∨
        (∃ n : Nat, r = (n : Int) ∧ n < 1048576 ∧ toUint32 r = n)) ∧
      ({ bitmap := bm, vacancy := b.vacancy - 1, offset := b.offset,
         pendingChanges := mapInsert (putStart iter b).pendingChanges (toUint32 r) data,
         file := (putStart iter b).file } : Block).Inv ∧
      b.Put iter data =
        some ({ bitmap := bm, vacancy := b.vacancy - 1, offset := b.offset,
                pendingChanges := mapInsert (putStart iter b).pendingChanges (toUint32 r) data,
                file := (putStart iter b).file }, none, toUint32 r)) := by
  obtain ⟨f1, f2, f3, f4⟩ := putStart_fields iter b
  have hs := putStart_Inv iter b h
  rw [Put_eq, f1, f2, f3]
  by_cases hv : b.vacancy = 0
  · left
    exact ⟨hv, by rw [if_pos hv]⟩
  · right
    refine ⟨hv, ?_⟩
    obtain ⟨bm, r, c1, c2, c3, c4, c5⟩ := Inv_FindVacantAndSet b h
    refine ⟨bm, r, c1, c5, ?_, ?_⟩
    · refine ⟨c2, c3, c4, ?_, mapInsert_keys_nodup _ _ _ hs.keys_nodup, ?_⟩
      · have := h.vacancy_lt
        simp only []
        omega
      · intro p hp
        rcases List.mem_cons.mp hp with hp | hp
        · subst hp
          rcases c5 with ⟨_, c6⟩ | ⟨n, _, c7, c8⟩
          · right; exact c6
          · left; simp only []; omega
        · exact hs.keys_range p (mem_mapDelete.mp hp).1
    · rw [if_neg hv, c1, toUint32_pred _ hv h.vacancy_lt]

theorem Set_hint_ge (e : ByteOrder) (m m1 : BitMap) (i : Nat) (v : Bool)
    (hge : -1 ≤ m.lastVacant) (h : m.Set e (i : Int) v = some m1) : -1 ≤ m1.lastVacant := by
  rw [Set_natCast] at h
  by_cases hl : m.len ≤ i / 32 * 4
  · simp [hl] at h
  · simp only [hl, if_false] at h
    by_cases h2 : loadUint32 e m.store (i / 32 * 4)
        = setWord (loadUint32 e m.store (i / 32 * 4)) (i % 32) v
    · rw [if_pos h2] at h
      cases h; exact hge
    · rw [if_neg h2] at h
      cases h
      simp only []
      split <;> omega

/-- Operation `Delete` with the vacancy arithmetic resolved. -/
theorem Delete_eq (e : ByteOrder) (b : Block) (idx : Nat) :
    b.Delete e idx =
      match b.bitmap.Set e (idx : Int) false with
      | none => none
      | some bm =>
        some { bitmap := bm, vacancy := toUint32 ((b.vacancy : Int) + 1), offset := b.offset,
               pendingChanges := mapDelete b.pendingChanges idx, file := b.file } := by
  unfold Block.Delete
  simp only []
  cases b.bitmap.Set e (idx : Int) false with
  | none => rfl
  | some bm =>
    have hn : ¬ ((b.vacancy : Int) + 1 < 0) := by omega
    simp only [Block.adjustVacancy, hn, if_false]

/-- Operation `Delete` keeps the invariant whenever it returns. -/
theorem Delete_Inv (e : ByteOrder) (b b1 : Block) (idx : Nat) (h : b.Inv)
    (hd : b.Delete e idx = some b1) : b1.Inv := by
  rw [Delete_eq] at hd
  cases hs : b.bitmap.Set e (idx : Int) false with
  | none => rw [hs] at hd; exact Option.noConfusion hd
  | some bm =>
    rw [hs] at hd
    cases hd
    obtain ⟨w1, w2⟩ := Set_WF e _ _ idx false h.wf hs
    exact ⟨w1, by rw [w2]; exact h.len_eq, Set_hint_ge e _ _ idx false h.hint_ge hs,
      by simp only []; exact toUint32_lt _,
      keys_nodup_of_sublist (List.filter_sublist _) h.keys_nodup,
      fun p hp => h.keys_range p (mem_mapDelete.mp hp).1⟩

/-- The block `NewBlock` builds. -/
theorem NewBlock_spec (file : List Nat) (offset : Nat) (b : Block)
    (h : NewBlock file offset = some b) :
    b.Inv ∧ b.bitmap.lastVacant = 0 ∧ (∀ t, b.bitmap.store.getD t 0 = 0) ∧
      b.vacancy = 1048576 ∧ b.offset = offset ∧ b.pendingChanges = [] ∧ b.file = file := by
  have hn : New (1048576 : Int)
      = some (BitMap.mk (List.replicate ((1048576 + 7) / 8 + 3) 0) ((1048576 + 7) / 8) 0) :=
    New_natCast 1048576
  obtain ⟨w1, w2, w3⟩ := New_spec _ _ hn
  unfold NewBlock at h
  rw [hn] at h
  cases h
  exact ⟨⟨w1, by simp only [], by simp only []; decide, by simp only []; decide,
    by simp, by simp⟩, rfl, w3, rfl, rfl, rfl, rfl⟩

/-- Every reachable block state satisfies the invariant, on either host. -/
theorem Reachable_Inv (e : ByteOrder) (b : Block) (h : Block.Reachable e b) : b.Inv := by
  induction h with
  | init h0 => exact (NewBlock_spec _ _ _ h0).1
  | @put b b1 iter data err x _ _ hp ih =>
    rcases Inv_Put iter b data ih with ⟨_, h2⟩ | ⟨_, bm, r, _, _, h3, h4⟩
    · rw [h2] at hp
      cases hp
      exact putStart_Inv iter b ih
    · rw [h4] at hp
      cases hp
      exact h3
  | delete _ hd ih => exact Delete_Inv e _ _ _ ih hd
  | flush _ _ ih => exact flush_Inv _ _ ih

theorem mapLookup_mapInsert_self (l : List (Nat × MyGOValue)) (k : Nat) (v : MyGOValue) :
    mapLookup (mapInsert l k v) k = some v := by
  simp [mapLookup, mapInsert]

theorem Get_of_pending (b : Block) (x : Nat) (v : MyGOValue)
    (h : mapLookup b.pendingChanges x = some v) : b.Get x = some v := by
  unfold Block.Get
  rw [h]

/-- Operation `Put` then `Get` in a reachable state with non-zero vacancy. -/
theorem Put_then_Get_reachable (e : ByteOrder)
    (iter : List (Nat × MyGOValue) → List (Nat × MyGOValue)) (b : Block) (v : MyGOValue)
    (hr : Block.Reachable e b) (hv : b.vacancy ≠ 0) :
    ∃ b1 x, b.Put iter v = some (b1, none, x) ∧
      mapLookup b1.pendingChanges x = some v ∧ b1.Get x = some v := by
  rcases Inv_Put iter b v (Reachable_Inv e b hr) with ⟨h1, _⟩ | ⟨_, bm, r, _, _, _, h4⟩
  · exact absurd h1 hv
  · have hl := mapLookup_mapInsert_self (putStart iter b).pendingChanges (toUint32 r) v
    exact ⟨_, _, h4, hl, Get_of_pending _ _ _ hl⟩

/-! ## Claims on `Put` -/

/-- C2. In every reachable block state with non-zero vacancy and for every value
`v`, `Put(v)` returns `(nil, x)`, the pending-write buffer then holds `v` under
`x`, and `Get(x)` called next, with no flush in between, returns exactly `v`. -/
theorem C2_Put_then_Get (e : ByteOrder)
    (iter : List (Nat × MyGOValue) → List (Nat × MyGOValue)) (b : Block) (v : MyGOValue)
    (hr : Block.Reachable e b) (hv : b.vacancy ≠ 0) :
    ∃ b1 x, b.Put iter v = some (b1, none, x) ∧
      mapLookup b1.pendingChanges x = some v ∧ b1.Get x = some v :=
  Put_then_Get_reachable e iter b v hr hv

/-- C7. In every reachable block state `Put` returns; its error is non-nil, and
is "No vacancy remaining", exactly when the vacancy counter is zero at the call.
When it fails the vacancy counter and the allocator are unchanged and the
pending-write buffer gains no entry; when it succeeds the vacancy counter
decreases by exactly one. -/
theorem C7_Put_error_iff_no_vacancy (e : ByteOrder)
    (iter : List (Nat × MyGOValue) → List (Nat × MyGOValue)) (b : Block) (v : MyGOValue)
    (hr : Block.Reachable e b) :
    ∃ b1 err x, b.Put iter v = some (b1, err, x) ∧
      (err = some "No vacancy remaining" ↔ b.vacancy = 0) ∧
      (err ≠ none ↔ b.vacancy = 0) ∧
      (b.vacancy = 0 → b1.vacancy = b.vacancy ∧ b1.bitmap = b.bitmap ∧
        ∀ p ∈ b1.pendingChanges, p ∈ b.pendingChanges) ∧
      (b.vacancy ≠ 0 → b1.vacancy + 1 = b.vacancy) := by
  obtain ⟨f1, f2, _, f4⟩ := putStart_fields iter b
  rcases Inv_Put iter b v (Reachable_Inv e b hr) with ⟨h1, h2⟩ | ⟨h1, bm, r, _, _, _, h4⟩
  · refine ⟨_, _, _, h2, ⟨fun _ => h1, fun _ => rfl⟩, ⟨fun _ => h1, fun _ => by simp⟩,
      fun _ => ⟨f2, f1, f4⟩, fun hne => absurd h1 hne⟩
  · refine ⟨_, _, _, h4, ⟨fun hc => Option.noConfusion hc, fun hc => absurd hc h1⟩,
      ⟨fun hc => absurd rfl hc, fun hc => absurd hc h1⟩, fun hc => absurd hc h1, fun _ => ?_⟩
    simp only []
    omega

/-- When the vacancy counter is not zero and `FindVacantAndSet` finds no free bit,
`Put` reports success, returns `uint32(-1)` and records the value under that key. -/
theorem Put_of_full (iter : List (Nat × MyGOValue) → List (Nat × MyGOValue)) (b : Block)
    (v : MyGOValue) (bm : BitMap) (hv : b.vacancy ≠ 0)
    (hfull : b.bitmap.FindVacantAndSet = some (bm, -1)) :
    ∃ b1, b.Put iter v = some (b1, none, 4294967295) ∧
      mapLookup b1.pendingChanges 4294967295 = some v := by
  obtain ⟨f1, f2, _, _⟩ := putStart_fields iter b
  rw [Put_eq, f1, f2, if_neg hv, hfull]
  simp only [toUint32_neg_one]
  exact ⟨_, rfl, mapLookup_mapInsert_self _ _ _⟩

/-! ## Counting the set bits -/

theorem countP_range_congr (p q : Nat → Bool) (n : Nat) (h : ∀ t, t < n → q t = p t) :
    (List.range n).countP q = (List.range n).countP p := by
  apply List.countP_congr
  intro t ht
  rw [h t (List.mem_range.mp ht)]

/-- Setting one clear bit below `n` raises the count of set bits below `n` by one. -/
theorem countP_range_set (p q : Nat → Bool) (n r : Nat) (hr : r < n) (hp : p r = false)
    (hq : q r = true) (h : ∀ t, t ≠ r → q t = p t) :
    (List.range n).countP q = (List.range n).countP p + 1 := by
  induction n with
  | zero => omega
  | succ n ih =>
    rw [List.range_succ, List.countP_append, List.countP_append]
    by_cases hrn : r = n
    · subst hrn
      rw [countP_range_congr p q r (fun t ht => h t (by omega))]
      simp [List.countP_cons, hp, hq]
    · rw [ih (by omega)]
      have := h n (fun hc => hrn hc.symm)
      simp only [List.countP_cons, List.countP_nil, this]
      omega

theorem countP_range_all (p : Nat → Bool) (n : Nat) (h : ∀ t, t < n → p t = true) :
    (List.range n).countP p = n := by
  have : (List.range n).countP p = (List.range n).length := by
    rw [List.countP_eq_length]
    intro t ht
    exact h t (List.mem_range.mp ht)
  rw [this, List.length_range]

theorem countP_range_none (p : Nat → Bool) (n : Nat) (h : ∀ t, t < n → p t = false) :
    (List.range n).countP p = 0 := by
  rw [List.countP_eq_zero]
  intro t ht
  rw [h t (List.mem_range.mp ht)]
  exact Bool.noConfusion

theorem popcount_le (m : BitMap) : m.popcount ≤ 8 * m.len := by
  unfold BitMap.popcount
  have := List.countP_le_length (fun t => m.bit t) (l := List.range (8 * m.len))
  rw [List.length_range] at this
  exact this

/-! ## Vacancy accounting on a little-endian host -/

theorem NewBlock_AccInv (file : List Nat) (offset : Nat) (b : Block)
    (h : NewBlock file offset = some b) : b.AccInv := by
  obtain ⟨a1, a2, a3, a4, _⟩ := NewBlock_spec file offset b h
  refine ⟨a1, ⟨by rw [a2]; decide, ?_⟩, ?_⟩
  · intro t ht
    rw [scanStart_of_zero _ a2] at ht
    omega
  · have : b.bitmap.popcount = 0 := by
      unfold BitMap.popcount
      apply countP_range_none
      intro t _
      unfold BitMap.bit
      rw [a3]; exact Nat.zero_testBit _
    rw [a4, this]

/-- A successful `Put` in a state satisfying the accounting invariant claims the
lowest clear bit `r`, returns `r`, and lowers the vacancy counter by one. -/
theorem AccInv_Put (iter : List (Nat × MyGOValue) → List (Nat × MyGOValue)) (b : Block)
    (data : MyGOValue) (h : b.AccInv) :
    (b.vacancy = 0 ∧
      b.Put iter data = some (putStart iter b, some "No vacancy remaining", 0)) ∨
    (b.vacancy ≠ 0 ∧ ∃ b1 r, b.Put iter data = some (b1, none, r) ∧ b1.AccInv ∧
      b1.vacancy + 1 = b.vacancy ∧ r < 1048576 ∧ b.bitmap.bit r = false ∧
      (∀ t, t < r → b.bitmap.bit t = true) ∧
      (∀ t, b1.bitmap.bit t = (decide (t = r) || b.bitmap.bit t)) ∧
      b1.pendingChanges = mapInsert (putStart iter b).pendingChanges r data ∧
      b1.file = (putStart iter b).file ∧ b1.offset = b.offset) := by
  rcases Inv_Put iter b data h.inv with ⟨h1, h2⟩ | ⟨h1, bm, r, c1, c2, c3, c4⟩
  · exact Or.inl ⟨h1, h2⟩
  · right
    refine ⟨h1, ?_⟩
    have hlen := h.inv.len_eq
    rcases FindVacantAndSet_bits b.bitmap h.inv.wf h.hint with
      ⟨g1, _⟩ | ⟨n, m1, b1, b2, b3, b4, _, b6, b7, b8, _, _⟩
    · exfalso
      have hp : b.bitmap.popcount = 8 * b.bitmap.len := countP_range_all _ _ g1
      have := h.acc
      rw [hp, hlen] at this
      omega
    · rw [b4] at c1
      cases c1
      have hn : toUint32 (n : Int) = n := by
        rw [toUint32_natCast]; omega
      rw [hn] at c3 c4
      refine ⟨_, n, c4, ⟨c3, b6, ?_⟩, ?_, by omega, b2, b3, b8, rfl, rfl, rfl⟩
      · have hp : bm.popcount = b.bitmap.popcount + 1 := by
          unfold BitMap.popcount
          rw [b7]
          exact countP_range_set _ _ _ n b1 b2 (by rw [b8 n]; simp)
            (fun t ht => by rw [b8 t]; simp [ht])
        have := h.acc
        simp only [hp]
        omega
      · simp only []
        omega

/-- Operation `Delete` of an occupied index in a state satisfying the accounting invariant
clears that bit and raises the vacancy counter by one. -/
theorem AccInv_Delete (b b1 : Block) (idx : Nat) (h : b.AccInv)
    (hocc : b.bitmap.Get ByteOrder.LittleEndian (idx : Int) = some true)
    (hd : b.Delete ByteOrder.LittleEndian idx = some b1) :
    b1.AccInv ∧ b1.vacancy = b.vacancy + 1 ∧ idx < 1048576 ∧
      (∀ t, b1.bitmap.bit t = (decide (t ≠ idx) && b.bitmap.bit t)) := by
  have hlen := h.inv.len_eq
  have hi : idx / 32 * 4 < b.bitmap.len := by
    rw [Get_natCast] at hocc
    by_cases hl : b.bitmap.len ≤ idx / 32 * 4
    · simp [hl] at hocc
    · omega
  have hbit : b.bitmap.bit idx = true := by
    rw [Get_LE_bit _ idx h.inv.wf hi] at hocc
    exact Option.some.inj hocc
  have hidx : idx < 1048576 := by omega
  obtain ⟨m1, s1, s2, _, s4, _⟩ := Set_LE_bits b.bitmap idx false h.inv.wf hi
  have hinv := Delete_Inv _ b b1 idx h.inv hd
  rw [Delete_eq, s1] at hd
  cases hd
  have hbits : ∀ t, m1.bit t = (decide (t ≠ idx) && b.bitmap.bit t) := by
    intro t
    unfold BitMap.bit
    rw [s4]
    by_cases ht : t = idx
    · subst ht
      simp
    · have : ¬ (t / 8 = idx / 8 ∧ t % 8 = idx % 8) := by omega
      rw [if_neg this]
      simp [ht]
  have hp : b.bitmap.popcount = m1.popcount + 1 := by
    unfold BitMap.popcount
    rw [s2]
    exact countP_range_set _ _ _ idx (by omega) (by rw [hbits idx]; simp) hbit
      (fun t ht => by rw [hbits t]; simp [ht])
  have hacc := h.acc
  have hv : toUint32 ((b.vacancy : Int) + 1) = b.vacancy + 1 :=
    toUint32_succ _ (by omega)
  refine ⟨⟨hinv, Set_LE_HintOK _ _ idx false h.inv.wf h.hint s1, ?_⟩, hv, hidx, hbits⟩
  simp only [hv]
  omega

theorem flush_AccInv (iter : List (Nat × MyGOValue) → List (Nat × MyGOValue)) (b : Block)
    (h : b.AccInv) : (b.flush iter).AccInv := by
  obtain ⟨a1, a2, _, _⟩ := flush_fields iter b
  exact ⟨flush_Inv iter b h.inv, by rw [a1]; exact h.hint, by rw [a1, a2]; exact h.acc⟩

theorem putStart_AccInv (iter : List (Nat × MyGOValue) → List (Nat × MyGOValue)) (b : Block)
    (h : b.AccInv) : (putStart iter b).AccInv := by
  unfold putStart Block.FlushSync
  split
  · exact flush_AccInv iter b h
  · exact h

theorem Run_AccInv (k d : Nat) (b : Block) (h : Block.Run k d b) :
    b.AccInv ∧ b.vacancy + k = 1048576 + d := by
  induction h with
  | init h0 =>
    exact ⟨NewBlock_AccInv _ _ _ h0, by rw [(NewBlock_spec _ _ _ h0).2.2.2.1]⟩
  | @putOk k d b b1 iter data x _ hp ih =>
    rcases AccInv_Put iter b data ih.1 with ⟨_, h2⟩ | ⟨_, b2, r, c1, c2, c3, _⟩
    · rw [h2] at hp
      cases hp
    · rw [c1] at hp
      cases hp
      exact ⟨c2, by have := ih.2; omega⟩
  | @putFail k d b b1 iter data err x _ hp ih =>
    rcases AccInv_Put iter b data ih.1 with ⟨_, h2⟩ | ⟨_, b2, r, c1, _⟩
    · rw [h2] at hp
      cases hp
      exact ⟨putStart_AccInv iter b ih.1, by rw [(putStart_fields iter b).2.1]; exact ih.2⟩
    · rw [c1] at hp
      cases hp
  | delete _ hocc hd ih =>
    obtain ⟨a1, a2, _⟩ := AccInv_Delete _ _ _ ih.1 hocc hd
    exact ⟨a1, by have := ih.2; omega⟩
  | flush _ ih =>
    exact ⟨flush_AccInv _ _ ih.1, by rw [(flush_fields _ _).2.1]; exact ih.2⟩

/-- The vacancy accounting on a little-endian host. In every block state reached from
`NewBlock` by `k` successful `Put`s and `d` `Delete`s of indices occupied at the
time of the call, the vacancy counter equals `2^20` minus the number of set bits
of the allocator, and `vacancy = 2^20 - k + d`. -/
theorem vacancy_accounting_LE (k d : Nat) (b : Block) (h : Block.Run k d b) :
    b.vacancy = 1048576 - b.bitmap.popcount ∧ b.bitmap.popcount ≤ 1048576 ∧
      b.vacancy + k = 1048576 + d := by
  obtain ⟨h1, h2⟩ := Run_AccInv k d b h
  have := h1.acc
  exact ⟨by omega, by omega, h2⟩

/-! ## The file: reads and writes -/

theorem getD_pad_take (f : List Nat) (pos k : Nat) (hk : k < pos) :
    ((f ++ List.replicate (pos - f.length) 0).take pos).getD k 0 = f.getD k 0 := by
  simp only [List.getD_eq_getElem?_getD, List.getElem?_take, hk, if_true, List.getElem?_append,
    List.getElem?_replicate]
  by_cases h : k < f.length
  · simp [h]
  · have h2 : k - f.length < pos - f.length := by omega
    simp [h, h2, List.getElem?_eq_none (Nat.le_of_not_lt h)]

theorem length_pad_take (f : List Nat) (pos : Nat) :
    ((f ++ List.replicate (pos - f.length) 0).take pos).length = pos := by
  simp only [List.length_take, List.length_append, List.length_replicate]
  omega

theorem writeAt_getD (f v : List Nat) (pos k : Nat) :
    (writeAt f v pos).getD k 0 =
      if pos ≤ k ∧ k < pos + v.length then v.getD (k - pos) 0 else f.getD k 0 := by
  unfold writeAt
  by_cases hv : v = []
  · subst hv
    have hc : ¬ (pos ≤ k ∧ k < pos + ([] : List Nat).length) := by
      simp only [List.length_nil]; omega
    rw [if_pos rfl, if_neg hc]
  · rw [if_neg hv]
    by_cases h1 : k < pos
    · have hc : ¬ (pos ≤ k ∧ k < pos + v.length) := by omega
      rw [if_neg hc, List.append_assoc, List.getD_append _ _ _ _ (by rw [length_pad_take]; exact h1)]
      exact getD_pad_take f pos k h1
    · rw [List.append_assoc, List.getD_append_right _ _ _ _ (by rw [length_pad_take]; omega),
        length_pad_take]
      by_cases h2 : k < pos + v.length
      · rw [if_pos ⟨by omega, h2⟩, List.getD_append _ _ _ _ (by omega)]
      · have hc : ¬ (pos ≤ k ∧ k < pos + v.length) := by omega
        rw [if_neg hc, List.getD_append_right _ _ _ _ (by omega)]
        simp only [List.getD_eq_getElem?_getD, List.getElem?_drop]
        congr 2
        omega

theorem writeAt_length (f v : List Nat) (pos : Nat) (hv : v ≠ []) :
    (writeAt f v pos).length = max f.length (pos + v.length) := by
  unfold writeAt
  rw [if_neg hv]
  simp only [List.length_append, length_pad_take, List.length_drop]
  omega

theorem writeAt_length_ge (f v : List Nat) (pos : Nat) : f.length ≤ (writeAt f v pos).length := by
  by_cases hv : v = []
  · unfold writeAt; rw [if_pos hv]
  · rw [writeAt_length f v pos hv]; omega

theorem readAt_eq (f v : List Nat) (pos n : Nat) (hn : n ≤ v.length) (hlen : pos + n ≤ f.length)
    (h : ∀ j, j < n → f.getD (pos + j) 0 = v.getD j 0) : readAt f pos n = v.take n := by
  unfold readAt
  apply List.ext_getElem?
  intro j
  simp only [List.getElem?_take, List.getElem?_drop]
  by_cases hj : j < n
  · have := h j hj
    simp only [List.getD_eq_getElem?_getD] at this
    rw [if_pos hj, if_pos hj, List.getElem?_eq_getElem (by omega : pos + j < f.length),
      List.getElem?_eq_getElem (by omega : j < v.length)] at *
    simpa using this
  · rw [if_neg hj, if_neg hj]

theorem slot_disjoint (o k1 k2 n1 : Nat) (h1 : k1 < 1048576 ∨ k1 = 4294967295)
    (h2 : k2 < 1048576 ∨ k2 = 4294967295) (hne : k1 ≠ k2) (hn : n1 ≤ 1024) :
    (o + k1 * 1024) % 4294967296 + n1 ≤ (o + k2 * 1024) % 4294967296 ∨
      (o + k2 * 1024) % 4294967296 + 1024 ≤ (o + k1 * 1024) % 4294967296 := by
  omega

theorem foldl_write_length_ge (slot : Nat → Nat) (l : List (Nat × MyGOValue)) (f : List Nat) :
    f.length ≤ (l.foldl (fun f p => writeAt f p.2 (slot p.1)) f).length := by
  induction l generalizing f with
  | nil => exact le_refl _
  | cons p rest ih =>
    simp only [List.foldl_cons]
    exact le_trans (writeAt_length_ge f p.2 (slot p.1)) (ih _)

/-- Writes that do not cover byte `k` leave it as it was. -/
theorem foldl_write_getD_of_disjoint (slot : Nat → Nat) (l : List (Nat × MyGOValue))
    (f : List Nat) (k : Nat)
    (h : ∀ p ∈ l, ¬ (slot p.1 ≤ k ∧ k < slot p.1 + p.2.length)) :
    (l.foldl (fun f p => writeAt f p.2 (slot p.1)) f).getD k 0 = f.getD k 0 := by
  induction l generalizing f with
  | nil => rfl
  | cons p rest ih =>
    simp only [List.foldl_cons]
    rw [ih _ (fun q hq => h q (List.mem_cons_of_mem _ hq)), writeAt_getD,
      if_neg (h p (List.mem_cons_self _ _))]

/-- After a sequence of writes with distinct keys in which no other write touches
the slot of `x`, the slot of `x` holds the value written for `x`. -/
theorem foldl_write_slot (slot : Nat → Nat) (l : List (Nat × MyGOValue)) (f : List Nat)
    (x : Nat) (v : MyGOValue) (hmem : (x, v) ∈ l) (hnd : (l.map Prod.fst).Nodup)
    (hdis : ∀ p ∈ l, p.1 ≠ x → slot p.1 + p.2.length ≤ slot x ∨ slot x + 1024 ≤ slot p.1) :
    (v ≠ [] → slot x + v.length ≤ (l.foldl (fun f p => writeAt f p.2 (slot p.1)) f).length) ∧
    ∀ j, j < v.length → j < 1024 →
      (l.foldl (fun f p => writeAt f p.2 (slot p.1)) f).getD (slot x + j) 0 = v.getD j 0 := by
  induction l generalizing f with
  | nil => cases hmem
  | cons p rest ih =>
    simp only [List.map_cons, List.nodup_cons] at hnd
    simp only [List.foldl_cons]
    rcases List.mem_cons.mp hmem with hp | hp
    · subst hp
      have hrest : ∀ q ∈ rest, q.1 ≠ x := by
        intro q hq hqx
        exact hnd.1 (List.mem_map.mpr ⟨q, hq, hqx⟩)
      constructor
      · intro hv
        have h1 := foldl_write_length_ge slot rest (writeAt f v (slot x))
        have h2 := writeAt_length f v (slot x) hv
        simp only [] at h1 h2 ⊢
        omega
      · intro j hj1 hj2
        rw [foldl_write_getD_of_disjoint slot rest _ (slot x + j), writeAt_getD]
        · have hc : slot x ≤ slot x + j ∧ slot x + j < slot x + v.length := by omega
          simp only [] at hc ⊢
          rw [if_pos hc]
          congr 1
          omega
        · intro q hq
          have := hdis q (List.mem_cons_of_mem _ hq) (hrest q hq)
          omega
    · exact ih _ hp hnd.2 (fun q hq => hdis q (List.mem_cons_of_mem _ hq))

/-- A flush cycle, in any iteration order, leaves the value pending for `x` in
the slot of `x` and empties the pending map, when the other pending values do
not exceed the slot size. -/
theorem flush_slot (iter : List (Nat × MyGOValue) → List (Nat × MyGOValue)) (b : Block)
    (x : Nat) (v : MyGOValue) (hinv : b.Inv) (hi : IterOrder iter)
    (hmem : (x, v) ∈ b.pendingChanges)
    (hsz : ∀ p ∈ b.pendingChanges, p.1 ≠ x → p.2.length ≤ 1024) :
    (b.flush iter).pendingChanges = [] ∧
    (v ≠ [] → b.slotPos x + v.length ≤ (b.flush iter).file.length) ∧
    ∀ j, j < v.length → j < 1024 →
      (b.flush iter).file.getD (b.slotPos x + j) 0 = v.getD j 0 := by
  refine ⟨flush_pending_nil iter b hi, ?_⟩
  have hne : ¬ b.pendingChanges.length = 0 := by
    intro h0
    rw [List.length_eq_zero.mp h0] at hmem
    cases hmem
  rw [flush_eq_foldl, if_neg hne, (foldl_flushStep_fields _ b).2.2.2.2]
  have hperm := hi b.pendingChanges
  apply foldl_write_slot b.slotPos (iter b.pendingChanges) b.file x v
  · exact hperm.mem_iff.mpr hmem
  · exact (hperm.map Prod.fst).nodup_iff.mpr hinv.keys_nodup
  · intro p hp hpx
    have hp1 := hperm.mem_iff.mp hp
    unfold Block.slotPos
    exact slot_disjoint b.offset p.1 x p.2.length (hinv.keys_range p hp1)
      (hinv.keys_range _ hmem) hpx (hsz p hp1 hpx)

/-! ## Claims on flushing -/

theorem Put_ok_fields (iter : List (Nat × MyGOValue) → List (Nat × MyGOValue)) (b b1 : Block)
    (data : MyGOValue) (x : Nat) (h : b.Inv) (hp : b.Put iter data = some (b1, none, x)) :
    b1.Inv ∧ b1.pendingChanges = mapInsert (putStart iter b).pendingChanges x data ∧
      b1.offset = b.offset ∧ b1.file = (putStart iter b).file := by
  rcases Inv_Put iter b data h with ⟨_, h2⟩ | ⟨_, bm, r, _, _, c3, c4⟩
  · rw [h2] at hp
    cases hp
  · rw [c4] at hp
    cases hp
    exact ⟨c3, rfl, rfl, rfl⟩

theorem Delete_fields (e : ByteOrder) (b b1 : Block) (idx : Nat)
    (hd : b.Delete e idx = some b1) :
    b1.pendingChanges = mapDelete b.pendingChanges idx ∧ b1.offset = b.offset ∧
      b1.file = b.file := by
  rw [Delete_eq] at hd
  cases hs : b.bitmap.Set e (idx : Int) false with
  | none => rw [hs] at hd; exact Option.noConfusion hd
  | some bm =>
    rw [hs] at hd
    cases hd
    exact ⟨rfl, rfl, rfl⟩

theorem mapLookup_nil (x : Nat) : mapLookup [] x = none := rfl

theorem take_min_length (v : List Nat) (n : Nat) : v.take (min v.length n) = v.take n := by
  rcases Nat.le_total v.length n with h | h
  · rw [Nat.min_eq_left h, List.take_of_length_le h, List.take_of_length_le (le_refl _)]
  · rw [Nat.min_eq_right h]

/-- Reading the slot of `x` after a flush cycle gives the first 1024 bytes of the
value that was pending for `x`. -/
theorem flush_readAt (iter : List (Nat × MyGOValue) → List (Nat × MyGOValue)) (b : Block)
    (x : Nat) (v : MyGOValue) (hinv : b.Inv) (hi : IterOrder iter)
    (hmem : (x, v) ∈ b.pendingChanges)
    (hsz : ∀ p ∈ b.pendingChanges, p.1 ≠ x → p.2.length ≤ 1024) :
    readAt (b.flush iter).file (b.slotPos x) (min v.length 1024) = v.take 1024 := by
  obtain ⟨_, f2, f3⟩ := flush_slot iter b x v hinv hi hmem hsz
  by_cases hv : v = []
  · subst hv
    unfold readAt
    simp
  · rw [← take_min_length v 1024]
    apply readAt_eq _ _ _ _ (Nat.min_le_left _ _)
    · have := f2 hv
      have := Nat.min_le_left v.length 1024
      omega
    · intro j hj
      exact f3 j (lt_of_lt_of_le hj (Nat.min_le_left _ _))
        (lt_of_lt_of_le hj (Nat.min_le_right _ _))

/-- C3. In every reachable block state with non-zero vacancy whose pending values
respect the bound of `MyGOValue` (up to 1024 bytes), and for every value `v` of
exactly 1024 bytes: `Put(v)` returns `(nil, x)`; after a `FlushSync` drain, in any
iteration order of the map, the pending-write buffer no longer holds `x`, the
1024 bytes of the file at the position of slot `x` are `v`, and `Get(x)` returns
`v`. -/
theorem C3_Put_FlushSync_Get (e : ByteOrder)
    (iter iter2 : List (Nat × MyGOValue) → List (Nat × MyGOValue)) (b : Block)
    (v : MyGOValue) (hr : Block.Reachable e b)
    (hsz : ∀ p ∈ b.pendingChanges, p.2.length ≤ 1024) (hv : b.vacancy ≠ 0)
    (hlen : v.length = 1024) (hi2 : IterOrder iter2) :
    ∃ b1 x, b.Put iter v = some (b1, none, x) ∧
      mapLookup (b1.FlushSync iter2).pendingChanges x = none ∧
      readAt (b1.FlushSync iter2).file ((b1.FlushSync iter2).slotPos x) 1024 = v ∧
      (b1.FlushSync iter2).Get x = some v := by
  obtain ⟨b1, x, hp, _, _⟩ := Put_then_Get_reachable e iter b v hr hv
  obtain ⟨hinv1, hpend, _, _⟩ := Put_ok_fields iter b b1 v x (Reachable_Inv e b hr) hp
  have hmem : (x, v) ∈ b1.pendingChanges := by
    rw [hpend]; exact List.mem_cons_self _ _
  have hsz1 : ∀ p ∈ b1.pendingChanges, p.1 ≠ x → p.2.length ≤ 1024 := by
    intro p hp1 hpx
    rw [hpend] at hp1
    rcases List.mem_cons.mp hp1 with h | h
    · subst h; exact absurd rfl hpx
    · exact hsz p ((putStart_fields iter b).2.2.2 p (mem_mapDelete.mp h).1)
  have hnil := flush_pending_nil iter2 b1 hi2
  have hread := flush_readAt iter2 b1 x v hinv1 hi2 hmem hsz1
  have hslot : (b1.flush iter2).slotPos x = b1.slotPos x := by
    unfold Block.slotPos
    rw [(flush_fields iter2 b1).2.2.1]
  rw [hlen, Nat.min_self, List.take_of_length_le (le_of_eq hlen)] at hread
  refine ⟨b1, x, hp, ?_, ?_, ?_⟩
  · unfold Block.FlushSync
    rw [hnil]; rfl
  · unfold Block.FlushSync
    rw [hslot, hread]
  · unfold Block.FlushSync Block.Get
    rw [hnil, mapLookup_nil]
    simp only []
    rw [hslot, hread, hlen]
    simp

/-- C6. Starting in a reachable block state whose pending values respect the
bound of `MyGOValue`, for all values `v1` and `v2`: after `Put(v1)` returns `x`,
`Delete(x)` with no flush in between, and `Put(v2)` returns `y`, the only entry
the pending-write buffer can hold for `x` is that of `v2` (when `y = x`), the
buffer holds `v2` for `y`, every write of the next flush cycle that touches the
file range of slot `y` is the write of `v2`, in any iteration order, and after
that cycle the slot of `y` holds `v2` (its first 1024 bytes). -/
theorem C6_Delete_then_reuse (e : ByteOrder)
    (iter1 iter2 iter3 : List (Nat × MyGOValue) → List (Nat × MyGOValue))
    (b b1 b2 b3 : Block) (v1 v2 : MyGOValue) (x y : Nat)
    (hr : Block.Reachable e b) (hsz : ∀ p ∈ b.pendingChanges, p.2.length ≤ 1024)
    (h1 : b.Put iter1 v1 = some (b1, none, x)) (h2 : b1.Delete e x = some b2)
    (h3 : b2.Put iter2 v2 = some (b3, none, y)) (hi3 : IterOrder iter3) :
    (∀ p ∈ b3.pendingChanges, p.1 = x → y = x ∧ p.2 = v2) ∧
    mapLookup b3.pendingChanges y = some v2 ∧
    (∀ p ∈ iter3 b3.pendingChanges,
      b3.slotPos p.1 < b3.slotPos y + 1024 → b3.slotPos y < b3.slotPos p.1 + p.2.length →
      p = (y, v2)) ∧
    readAt (b3.flush iter3).file (b3.slotPos y) (min v2.length 1024) = v2.take 1024 := by
  have hinv := Reachable_Inv e b hr
  obtain ⟨hinv1, hp1, _, _⟩ := Put_ok_fields iter1 b b1 v1 x hinv h1
  have hinv2 := Delete_Inv e b1 b2 x hinv1 h2
  obtain ⟨hp2, _, _⟩ := Delete_fields e b1 b2 x h2
  obtain ⟨hinv3, hp3, _, _⟩ := Put_ok_fields iter2 b2 b3 v2 y hinv2 h3
  have hold : ∀ p ∈ b3.pendingChanges, p ≠ (y, v2) →
      p.1 ≠ y ∧ p.1 ≠ x ∧ p ∈ b.pendingChanges := by
    intro p hp hne
    rw [hp3] at hp
    rcases List.mem_cons.mp hp with h | h
    · exact absurd h hne
    · obtain ⟨g1, g2⟩ := mem_mapDelete.mp h
      have g3 := (putStart_fields iter2 b2).2.2.2 p g1
      rw [hp2] at g3
      obtain ⟨g4, g5⟩ := mem_mapDelete.mp g3
      rw [hp1] at g4
      rcases List.mem_cons.mp g4 with h5 | h5
      · subst h5
        exact absurd rfl g5
      · exact ⟨g2, g5, (putStart_fields iter1 b).2.2.2 p (mem_mapDelete.mp h5).1⟩
  have hmem : (y, v2) ∈ b3.pendingChanges := by
    rw [hp3]; exact List.mem_cons_self _ _
  have hsz3 : ∀ p ∈ b3.pendingChanges, p.1 ≠ y → p.2.length ≤ 1024 := by
    intro p hp hpy
    have hne : p ≠ (y, v2) := fun hc => hpy (by rw [hc])
    exact hsz p (hold p hp hne).2.2
  refine ⟨?_, ?_, ?_, flush_readAt iter3 b3 y v2 hinv3 hi3 hmem hsz3⟩
  · intro p hp hpx
    by_cases hne : p = (y, v2)
    · subst hne
      exact ⟨hpx, rfl⟩
    · exact absurd hpx (hold p hp hne).2.1
  · rw [hp3]
    exact mapLookup_mapInsert_self _ _ _
  · intro p hp ho1 ho2
    have hp' := (hi3 b3.pendingChanges).mem_iff.mp hp
    by_contra hne
    obtain ⟨g1, _, g3⟩ := hold p hp' hne
    have := slot_disjoint b3.offset p.1 y p.2.length (hinv3.keys_range p hp')
      (hinv3.keys_range _ hmem) g1 (hsz p g3)
    unfold Block.slotPos at ho1 ho2
    omega

/-! ## Concrete runs from a fresh block -/

theorem NewBlock_block0 : NewBlock [] 0 = some block0 := rfl

theorem block0_PrefixSet : PrefixSet block0 0 := by
  have h := NewBlock_AccInv [] 0 block0 NewBlock_block0
  obtain ⟨_, _, a3, _⟩ := NewBlock_spec [] 0 block0 NewBlock_block0
  refine ⟨h.inv, h.hint, ?_⟩
  intro t
  unfold BitMap.bit
  rw [a3, Nat.zero_testBit]
  simp

/-- Operation `Put` in a state where exactly the bits below `j` are set claims bit `j`. -/
theorem PrefixSet_Put (iter : List (Nat × MyGOValue) → List (Nat × MyGOValue)) (b : Block)
    (data : MyGOValue) (j : Nat) (h : PrefixSet b j) (hj : j < 1048576)
    (hv : b.vacancy ≠ 0) :
    ∃ b1, b.Put iter data = some (b1, none, j) ∧ PrefixSet b1 (j + 1) ∧
      b1.vacancy + 1 = b.vacancy := by
  obtain ⟨hinv, hhint, hbits⟩ := h
  have hlen := hinv.len_eq
  rcases Inv_Put iter b data hinv with ⟨h1, _⟩ | ⟨_, bm, r, c1, _, c3, c4⟩
  · exact absurd h1 hv
  · rcases FindVacantAndSet_bits b.bitmap hinv.wf hhint with
      ⟨g1, _⟩ | ⟨n, m1, b1, b2, b3, b4, _, b6, _, b8, _, _⟩
    · have := g1 j (by omega)
      rw [hbits j] at this
      simp at this
    · rw [b4] at c1
      cases c1
      have hn : n = j := by
        rcases Nat.lt_trichotomy n j with hlt | heq | hgt
        · have := hbits n
          rw [b2] at this
          simp [hlt] at this
        · exact heq
        · have := b3 j hgt
          rw [hbits j] at this
          simp at this
      subst hn
      have hu : toUint32 (n : Int) = n := by
        rw [toUint32_natCast]; omega
      rw [hu] at c3 c4
      refine ⟨_, c4, ⟨c3, b6, ?_⟩, ?_⟩
      · intro t
        simp only []
        rw [b8 t, hbits t]
        by_cases h1 : t = n
        · simp [h1]
        · by_cases h2 : t < n
          · have : t < n + 1 := by omega
            simp [h1, h2, this]
          · have : ¬ t < n + 1 := by omega
            simp [h1, h2, this]
      · simp only []
        omega

/-- Runs `n` successive `Put`s from a state where exactly the bits below `j` are set. -/
theorem PrefixSet_putMany (iter : List (Nat × MyGOValue) → List (Nat × MyGOValue))
    (data : MyGOValue) (n : Nat) (b : Block) (j : Nat) (h : PrefixSet b j)
    (hj : j + n ≤ 1048576) (hv : n ≤ b.vacancy) :
    ∃ b1, putMany iter data n b = some b1 ∧ PrefixSet b1 (j + n) ∧
      b1.vacancy + n = b.vacancy := by
  induction n generalizing b j with
  | zero => exact ⟨b, rfl, h, rfl⟩
  | succ n ih =>
    obtain ⟨b1, c1, c2, c3⟩ := PrefixSet_Put iter b data j h (by omega) (by omega)
    obtain ⟨b2, d1, d2, d3⟩ := ih b1 (j + 1) c2 (by omega) (by omega)
    refine ⟨b2, ?_, ?_, by omega⟩
    · simp only [putMany, c1]
      exact d1
    · have : j + (n + 1) = j + 1 + n := by omega
      rw [this]; exact d2

/-- Operation `Delete` of a slot index on a little-endian host clears its bit. -/
theorem Delete_LE_bits (b : Block) (idx : Nat) (hinv : b.Inv) (hh : b.bitmap.HintOK)
    (hidx : idx < 1048576) :
    ∃ b1, b.Delete ByteOrder.LittleEndian idx = some b1 ∧ b1.Inv ∧ b1.bitmap.HintOK ∧
      (∀ t, b1.bitmap.bit t = (decide (t ≠ idx) && b.bitmap.bit t)) ∧
      b1.vacancy = toUint32 ((b.vacancy : Int) + 1) := by
  have hlen := hinv.len_eq
  have hi : idx / 32 * 4 < b.bitmap.len := by omega
  obtain ⟨m1, s1, _, _, s4, _⟩ := Set_LE_bits b.bitmap idx false hinv.wf hi
  have hd : b.Delete ByteOrder.LittleEndian idx
      = some { bitmap := m1, vacancy := toUint32 ((b.vacancy : Int) + 1), offset := b.offset,
               pendingChanges := mapDelete b.pendingChanges idx, file := b.file } := by
    rw [Delete_eq, s1]
  refine ⟨_, hd, Delete_Inv _ b _ idx hinv hd,
    Set_LE_HintOK _ _ idx false hinv.wf hh s1, ?_, rfl⟩
  intro t
  simp only []
  unfold BitMap.bit
  rw [s4]
  by_cases ht : t = idx
  · subst ht
    simp
  · have : ¬ (t / 8 = idx / 8 ∧ t % 8 = idx % 8) := by omega
    rw [if_neg this]
    simp [ht]

/-- C8: the code at a failing input, on a little-endian host. On a fresh block,
`Put` returns 0, `Delete(0)` is called twice (the vacancy counter is then
`2^20 + 1`), and `2^20` further `Put`s fill the allocator. The next `Put` finds no
free bit, yet it reports success, returns `uint32(-1) = 4294967295` and records
the value in the pending-write buffer under that key. -/
theorem C8_Put_succeeds_on_full_allocator :
    ∃ b1 b2 b3 b4 b5 bm,
      NewBlock [] 0 = some block0 ∧
      block0.Put id [1] = some (b1, none, 0) ∧
      b1.Delete ByteOrder.LittleEndian 0 = some b2 ∧
      b2.Delete ByteOrder.LittleEndian 0 = some b3 ∧
      putMany id [1] 1048576 b3 = some b4 ∧
      b4.vacancy = 1 ∧
      b4.bitmap.FindVacantAndSet = some (bm, -1) ∧
      b4.Put id [1] = some (b5, none, 4294967295) ∧
      mapLookup b5.pendingChanges 4294967295 = some [1] := by
  have hv0 : block0.vacancy = 1048576 := rfl
  obtain ⟨b1, p1, q1, r1⟩ := PrefixSet_Put id block0 [1] 0 block0_PrefixSet (by decide)
    (by rw [hv0]; decide)
  obtain ⟨b2, p2, i2, h2, bits2, v2⟩ := Delete_LE_bits b1 0 q1.1 q1.2.1 (by decide)
  have hv1 : b1.vacancy = 1048575 := by omega
  have hv2 : b2.vacancy = 1048576 := by
    rw [v2, hv1]; decide
  have q2 : PrefixSet b2 0 := by
    refine ⟨i2, h2, ?_⟩
    intro t
    rw [bits2 t, q1.2.2 t]
    by_cases ht : t = 0
    · simp [ht]
    · have : ¬ t < 0 + 1 := by omega
      simp [this]
  obtain ⟨b3, p3, i3, h3, bits3, v3⟩ := Delete_LE_bits b2 0 q2.1 q2.2.1 (by decide)
  have hv3 : b3.vacancy = 1048577 := by
    rw [v3, hv2]; decide
  have q3 : PrefixSet b3 0 := by
    refine ⟨i3, h3, ?_⟩
    intro t
    rw [bits3 t, q2.2.2 t]
    simp
  obtain ⟨b4, p4, q4, r4⟩ := PrefixSet_putMany id [1] 1048576 b3 0 q3 (by decide)
    (by rw [hv3]; decide)
  have hv4 : b4.vacancy = 1 := by omega
  have hfull : ∃ bm, b4.bitmap.FindVacantAndSet = some (bm, -1) := by
    rcases FindVacantAndSet_bits b4.bitmap q4.1.wf q4.2.1 with ⟨_, g2⟩ | ⟨n, m1, c1, c2, _⟩
    · exact ⟨_, g2⟩
    · rw [q4.2.2 n, q4.1.len_eq] at *
      have : n < 0 + 1048576 := by omega
      simp [this] at c2
  obtain ⟨bm, hbm⟩ := hfull
  obtain ⟨b5, p5, l5⟩ := Put_of_full id b4 [1] bm (by rw [hv4]; decide) hbm
  exact ⟨b1, b2, b3, b4, b5, bm, NewBlock_block0, p1, p2, p3, p4, hv4, hbm, p5, l5⟩

/-- C5: the code at a failing input, on a big-endian host. On a fresh block
`Put` returns 0 and `Delete(0)` then restores the vacancy counter to `2^20` while
one bit of the allocator stays set, so the counter is not `2^20` minus the number
of set bits. -/
theorem C5_vacancy_ignores_set_bit_big_endian :
    ∃ b1 b2,
      NewBlock [] 0 = some block0 ∧
      block0.Put id [1] = some (b1, none, 0) ∧
      b1.Delete ByteOrder.BigEndian 0 = some b2 ∧
      b2.vacancy = 1048576 ∧ b2.bitmap.popcount = 1 ∧
      b2.vacancy ≠ 1048576 - b2.bitmap.popcount := by
  have hacc0 := NewBlock_AccInv [] 0 block0 NewBlock_block0
  have hv0 : block0.vacancy = 1048576 := rfl
  obtain ⟨b1, p1, q1, r1⟩ := PrefixSet_Put id block0 [1] 0 block0_PrefixSet (by decide)
    (by rw [hv0]; decide)
  have hv1 : b1.vacancy = 1048575 := by omega
  have hpop : b1.bitmap.popcount = 1 := by
    rcases AccInv_Put id block0 [1] hacc0 with ⟨h1, _⟩ | ⟨_, b1', r, c1, c2, c3, _⟩
    · rw [hv0] at h1; exact absurd h1 (by decide)
    · rw [p1] at c1
      cases c1
      have := c2.acc
      omega
  have hlen := q1.1.len_eq
  have hb3 : (b1.bitmap.store.getD 3 0).testBit 0 = false := by
    have := q1.2.2 24
    unfold BitMap.bit at this
    simpa using this
  have hold := loadUint32_lt ByteOrder.BigEndian b1.bitmap.store 0 q1.1.wf.byte_lt
  have hbit : (loadUint32 ByteOrder.BigEndian b1.bitmap.store 0).testBit 0 = false := by
    simp only [loadUint32]
    rw [loadUint32_BE_comm, word_testBit _ _ _ _ _ (q1.1.wf.byte_lt _) (q1.1.wf.byte_lt _)
      (q1.1.wf.byte_lt _) (q1.1.wf.byte_lt _)]
    simpa using hb3
  have hset : b1.bitmap.Set ByteOrder.BigEndian ((0 : Nat) : Int) false = some b1.bitmap := by
    rw [Set_natCast]
    have hl : ¬ b1.bitmap.len ≤ 0 / 32 * 4 := by rw [hlen]; decide
    rw [if_neg hl]
    have e0 : (0 : Nat) / 32 * 4 = 0 := rfl
    have e1 : (0 : Nat) % 32 = 0 := rfl
    rw [e0, e1, setWord_eq_self _ 0 false (by decide) hold hbit]
    simp
  have hd : b1.Delete ByteOrder.BigEndian 0
      = some { bitmap := b1.bitmap, vacancy := toUint32 ((b1.vacancy : Int) + 1),
               offset := b1.offset, pendingChanges := mapDelete b1.pendingChanges 0,
               file := b1.file } := by
    rw [Delete_eq]
    have : b1.bitmap.Set ByteOrder.BigEndian ((0 : Nat) : Int) false = some b1.bitmap := hset
    rw [this]
  have hv2 : toUint32 ((b1.vacancy : Int) + 1) = 1048576 := by
    rw [hv1]; decide
  refine ⟨b1, _, NewBlock_block0, p1, hd, hv2, hpop, ?_⟩
  simp only [hv2, hpop]
  decide

/-! ## The claims at concrete inputs -/

theorem iterOrder_id : IterOrder id := fun l => List.Perm.refl l

theorem block0_Reachable (e : ByteOrder) : Block.Reachable e block0 :=
  Block.Reachable.init NewBlock_block0

/-- C1 at the fresh bit map of `New(8)`. -/
theorem C1_witness :
    BitMap.Reachable ByteOrder.LittleEndian 8 (BitMap.mk [0, 0, 0, 0] 1 0) ∧
    ∃ m1 k, (BitMap.mk [0, 0, 0, 0] 1 0).FindVacantAndSet = some (m1, k) ∧
      (k = -1 ↔ ∀ t : Nat, t < 8 * (BitMap.mk [0, 0, 0, 0] 1 0).len →
        (BitMap.mk [0, 0, 0, 0] 1 0).Get ByteOrder.LittleEndian (t : Int) = some true) ∧
      ((k = -1 ∧ m1.store = (BitMap.mk [0, 0, 0, 0] 1 0).store ∧
          ∀ t : Nat, m1.Get ByteOrder.LittleEndian (t : Int)
            = (BitMap.mk [0, 0, 0, 0] 1 0).Get ByteOrder.LittleEndian (t : Int)) ∨
       (∃ r : Nat, k = (r : Int) ∧ r < 8 * (BitMap.mk [0, 0, 0, 0] 1 0).len ∧
          (BitMap.mk [0, 0, 0, 0] 1 0).Get ByteOrder.LittleEndian (r : Int) = some false ∧
          (∀ t : Nat, t < r →
            (BitMap.mk [0, 0, 0, 0] 1 0).Get ByteOrder.LittleEndian (t : Int) = some true) ∧
          m1.Get ByteOrder.LittleEndian (r : Int) = some true ∧
          ∀ t : Nat, t ≠ r → m1.Get ByteOrder.LittleEndian (t : Int)
            = (BitMap.mk [0, 0, 0, 0] 1 0).Get ByteOrder.LittleEndian (t : Int))) :=
  ⟨BitMap.Reachable.new (by decide),
   C1_FindVacantAndSet_smallest_clear 8 _ (BitMap.Reachable.new (by decide))⟩

/-- C4 at the fresh bit map of `New(8)`, index 3, on a little-endian host. -/
theorem C4_witness :
    BitMap.Reachable ByteOrder.LittleEndian 8 (BitMap.mk [0, 0, 0, 0] 1 0) ∧
    (0 : Int) ≤ 3 ∧ (3 : Int) < 8 ∧
    ∃ m1, (BitMap.mk [0, 0, 0, 0] 1 0).Set ByteOrder.LittleEndian 3 true = some m1 ∧
      m1.Get ByteOrder.LittleEndian 3 = some true :=
  ⟨BitMap.Reachable.new (by decide), by decide, by decide,
   C4_Set_then_Get ByteOrder.LittleEndian 8 _ 3 true (BitMap.Reachable.new (by decide))
     (by decide) (by decide)⟩

/-- C2 at the fresh block. -/
theorem C2_witness :
    Block.Reachable ByteOrder.LittleEndian block0 ∧ block0.vacancy ≠ 0 ∧
    ∃ b1 x, block0.Put id [1, 2, 3] = some (b1, none, x) ∧
      mapLookup b1.pendingChanges x = some [1, 2, 3] ∧ b1.Get x = some [1, 2, 3] :=
  ⟨block0_Reachable _, by decide,
   C2_Put_then_Get ByteOrder.LittleEndian id block0 [1, 2, 3] (block0_Reachable _) (by decide)⟩

/-- C3 at the fresh block, with a value of 1024 bytes. -/
theorem C3_witness :
    Block.Reachable ByteOrder.LittleEndian block0 ∧
    (∀ p ∈ block0.pendingChanges, p.2.length ≤ 1024) ∧ block0.vacancy ≠ 0 ∧
    (List.replicate 1024 7).length = 1024 ∧ IterOrder id ∧
    ∃ b1 x, block0.Put id (List.replicate 1024 7) = some (b1, none, x) ∧
      mapLookup (b1.FlushSync id).pendingChanges x = none ∧
      readAt (b1.FlushSync id).file ((b1.FlushSync id).slotPos x) 1024
        = List.replicate 1024 7 ∧
      (b1.FlushSync id).Get x = some (List.replicate 1024 7) :=
  ⟨block0_Reachable _, fun _ hp => absurd hp (List.not_mem_nil _), by decide,
   List.length_replicate _ _, iterOrder_id,
   C3_Put_FlushSync_Get ByteOrder.LittleEndian id id block0 (List.replicate 1024 7)
     (block0_Reachable _) (fun _ hp => absurd hp (List.not_mem_nil _)) (by decide)
     (List.length_replicate _ _) iterOrder_id⟩

/-- The vacancy accounting on a little-endian host after one `Put` on the fresh
block. -/
theorem vacancy_accounting_LE_after_Put :
    ∃ b1, block0.Put id [1] = some (b1, none, 0) ∧ Block.Run 1 0 b1 ∧
      b1.vacancy = 1048576 - b1.bitmap.popcount ∧ b1.bitmap.popcount ≤ 1048576 ∧
      b1.vacancy + 1 = 1048576 + 0 := by
  have hv0 : block0.vacancy = 1048576 := rfl
  obtain ⟨b1, p1, _, _⟩ := PrefixSet_Put id block0 [1] 0 block0_PrefixSet (by decide)
    (by rw [hv0]; decide)
  have hrun : Block.Run 1 0 b1 := Block.Run.putOk (Block.Run.init NewBlock_block0) p1
  exact ⟨b1, p1, hrun, vacancy_accounting_LE 1 0 b1 hrun⟩

/-- C6 on the fresh block: `Put([1])` returns 0, `Delete(0)`, `Put([2])` returns 0
again. -/
theorem C6_witness :
    ∃ b1 b2 b3,
      Block.Reachable ByteOrder.LittleEndian block0 ∧
      (∀ p ∈ block0.pendingChanges, p.2.length ≤ 1024) ∧
      block0.Put id [1] = some (b1, none, 0) ∧
      b1.Delete ByteOrder.LittleEndian 0 = some b2 ∧
      b2.Put id [2] = some (b3, none, 0) ∧ IterOrder id ∧
      ((∀ p ∈ b3.pendingChanges, p.1 = 0 → 0 = 0 ∧ p.2 = [2]) ∧
       mapLookup b3.pendingChanges 0 = some [2] ∧
       (∀ p ∈ id b3.pendingChanges,
         b3.slotPos p.1 < b3.slotPos 0 + 1024 → b3.slotPos 0 < b3.slotPos p.1 + p.2.length →
         p = (0, [2])) ∧
       readAt (b3.flush id).file (b3.slotPos 0) (min ([2] : MyGOValue).length 1024)
         = ([2] : MyGOValue).take 1024) := by
  have hv0 : block0.vacancy = 1048576 := rfl
  obtain ⟨b1, p1, q1, r1⟩ := PrefixSet_Put id block0 [1] 0 block0_PrefixSet (by decide)
    (by rw [hv0]; decide)
  obtain ⟨b2, p2, i2, h2, bits2, v2⟩ := Delete_LE_bits b1 0 q1.1 q1.2.1 (by decide)
  have hv1 : b1.vacancy = 1048575 := by omega
  have hv2 : b2.vacancy = 1048576 := by
    rw [v2, hv1]; decide
  have q2 : PrefixSet b2 0 := by
    refine ⟨i2, h2, ?_⟩
    intro t
    rw [bits2 t, q1.2.2 t]
    by_cases ht : t = 0
    · simp [ht]
    · have : ¬ t < 0 + 1 := by omega
      simp [this]
  obtain ⟨b3, p3, _, _⟩ := PrefixSet_Put id b2 [2] 0 q2 (by decide) (by rw [hv2]; decide)
  have hsz : ∀ p ∈ block0.pendingChanges, p.2.length ≤ 1024 :=
    fun _ hp => absurd hp (List.not_mem_nil _)
  exact ⟨b1, b2, b3, block0_Reachable _, hsz, p1, p2, p3, iterOrder_id,
    C6_Delete_then_reuse ByteOrder.LittleEndian id id id block0 b1 b2 b3 [1] [2] 0 0
      (block0_Reachable _) hsz p1 p2 p3 iterOrder_id⟩

/-- C7 at the fresh block. -/
theorem C7_witness :
    Block.Reachable ByteOrder.LittleEndian block0 ∧
    ∃ b1 err x, block0.Put id [1] = some (b1, err, x) ∧
      (err = some "No vacancy remaining" ↔ block0.vacancy = 0) ∧
      (err ≠ none ↔ block0.vacancy = 0) ∧
      (block0.vacancy = 0 → b1.vacancy = block0.vacancy ∧ b1.bitmap = block0.bitmap ∧
        ∀ p ∈ b1.pendingChanges, p ∈ block0.pendingChanges) ∧
      (block0.vacancy ≠ 0 → b1.vacancy + 1 = block0.vacancy) :=
  ⟨block0_Reachable _,
   C7_Put_error_iff_no_vacancy ByteOrder.LittleEndian id block0 [1] (block0_Reachable _)⟩

/-! ## Claims on positions, short reads and `fastLog2` -/

/-- The position of a slot is exact as long as the sum fits a `uint32`. -/
theorem slotPos_exact (b : Block) (i : Nat) (h : b.offset + i * 1024 < 4294967296) :
    b.slotPos i = b.offset + i * 1024 := by
  unfold Block.slotPos
  exact Nat.mod_eq_of_lt h

/-- C11: the code at a failing input. For the block at offset `2^32 - 1024` the
position of slot 1 is computed in `uint32` and wraps to 0, where the claim says
`2^32`: the flush writes the value pending for slot 1 at byte 0 of the file and
`Get(1)` reads the 1024 bytes at byte 0. The same happens in the fourth block of
a file laid out in blocks of 1 GB + 128 KB, at slot 1048192. -/
theorem C11_slot_position_wraps :
    NewBlock [] 4294966272 = some blockHigh ∧
    blockHigh.slotPos 1 = 0 ∧
    blockHigh.offset + 1 * 1024 = 4294967296 ∧
    ({ blockHigh with pendingChanges := [(1, [7, 7])] }.flush id).file = [7, 7] ∧
    { blockHigh with file := List.replicate 1024 9 }.Get 1 = some (List.replicate 1024 9) ∧
    { blockHigh with offset := 3 * (1073741824 + 131072) }.slotPos 1048192 = 0 ∧
    3 * (1073741824 + 131072) + 1048192 * 1024 = 4294967296 := by
  refine ⟨rfl, by decide, by decide, by decide!, by decide!, by decide, by decide⟩

/-- C14. For a slot index with no pending write: when the file holds fewer than
1024 bytes from the position of the slot on, `Get` panics; when it holds 1024
bytes there, `Get` returns exactly those bytes. -/
theorem C14_Get_short_read (b : Block) (i : Nat) (hp : mapLookup b.pendingChanges i = none) :
    (b.file.length < b.slotPos i + 1024 → b.Get i = none) ∧
    (b.slotPos i + 1024 ≤ b.file.length →
      b.Get i = some (readAt b.file (b.slotPos i) 1024) ∧
      (readAt b.file (b.slotPos i) 1024).length = 1024) ∧
    (∀ w, b.Get i = some w → w.length = 1024 ∧ w = readAt b.file (b.slotPos i) 1024) := by
  have hl : (readAt b.file (b.slotPos i) 1024).length = min 1024 (b.file.length - b.slotPos i) := by
    unfold readAt
    simp only [List.length_take, List.length_drop]
  unfold Block.Get
  rw [hp]
  simp only []
  refine ⟨?_, ?_, ?_⟩
  · intro h
    have : (readAt b.file (b.slotPos i) 1024).length ≠ 1024 := by rw [hl]; omega
    rw [if_pos this]
  · intro h
    have : ¬ (readAt b.file (b.slotPos i) 1024).length ≠ 1024 := by rw [hl]; omega
    rw [if_neg this]
    exact ⟨rfl, by rw [hl]; omega⟩
  · intro w hw
    by_cases hc : (readAt b.file (b.slotPos i) 1024).length ≠ 1024
    · rw [if_pos hc] at hw
      exact Option.noConfusion hw
    · rw [if_neg hc] at hw
      cases hw
      exact ⟨by omega, rfl⟩

/-- C20. `fastLog2` returns `k` for the byte `1 << k`, `k = 0..7`, and 255 for the
byte 0; for every byte `x` other than `0xFF`, `fastLog2` of the isolated lowest
set bit of the complement, `(^x) & -(^x)`, is below 8 and is the index of the
lowest zero bit of `x`. -/
theorem C20_fastLog2 :
    (∀ k < 8, fastLog2 (1 <<< k) = k) ∧ fastLog2 0 = 255 ∧
    ∀ x < 256, x ≠ 255 →
      fastLog2 ((x ^^^ 255) &&& ((256 - (x ^^^ 255)) % 256)) < 8 ∧
      x.testBit (fastLog2 ((x ^^^ 255) &&& ((256 - (x ^^^ 255)) % 256))) = false ∧
      ∀ u < 8, u < fastLog2 ((x ^^^ 255) &&& ((256 - (x ^^^ 255)) % 256)) →
        x.testBit u = true := by
  refine ⟨by decide, by decide, by decide!⟩

/-- C14 at a file of 1500 bytes and slot 1, whose read is short. -/
theorem C14_witness :
    mapLookup blockShort.pendingChanges 1 = none ∧
    ((blockShort.file.length < blockShort.slotPos 1 + 1024 → blockShort.Get 1 = none) ∧
     (blockShort.slotPos 1 + 1024 ≤ blockShort.file.length →
       blockShort.Get 1 = some (readAt blockShort.file (blockShort.slotPos 1) 1024) ∧
       (readAt blockShort.file (blockShort.slotPos 1) 1024).length = 1024) ∧
     (∀ w, blockShort.Get 1 = some w →
       w.length = 1024 ∧ w = readAt blockShort.file (blockShort.slotPos 1) 1024)) :=
  ⟨rfl, C14_Get_short_read blockShort 1 rfl⟩

/-! ## Either host: the bit `Set` and `Get` touch -/

theorem storeUint32_getD_in (e : ByteOrder) (s : List Nat) (a n c : Nat) (hc : c < 4)
    (ha : a + 3 < s.length) :
    (storeUint32 e s a n).getD (a + bytePos e c) 0 = (n >>> (8 * c)) % 256 := by
  cases e
  · exact storeUint32_LE_getD_in s a n c hc ha
  · have q0 : a < s.length := by omega
    have q1 : a + 1 < s.length := by omega
    have q2 : a + 2 < s.length := by omega
    rw [storeUint32_BE_getD]
    simp only [bytePos]
    interval_cases c
    · simp only [ha, and_self, if_true, Nat.mul_zero, Nat.shiftRight_zero]
    · have p0 : ¬ (a + (3 - 1) = a + 3) := by omega
      have p1 : a + (3 - 1) = a + 2 := by omega
      simp only [p0, p1, false_and, if_false, q2, and_self, if_true, Nat.mul_one]
    · have p0 : ¬ (a + (3 - 2) = a + 3) := by omega
      have p1 : ¬ (a + (3 - 2) = a + 2) := by omega
      have p2 : a + (3 - 2) = a + 1 := by omega
      simp only [p0, p1, p2, false_and, if_false, q1, and_self, if_true]
    · have p0 : ¬ (a = a + 3) := by omega
      have p1 : ¬ (a = a + 2) := by omega
      have p2 : ¬ (a = a + 1) := by omega
      simp only [Nat.sub_self, Nat.add_zero, p0, p1, p2, false_and, if_false, q0, and_self,
        if_true]

theorem storeUint32_getD_out (e : ByteOrder) (s : List Nat) (a n t : Nat)
    (ht : t < a ∨ a + 4 ≤ t) : (storeUint32 e s a n).getD t 0 = s.getD t 0 := by
  have p0 : ¬ (t = a + 3) := by omega
  have p1 : ¬ (t = a + 2) := by omega
  have p2 : ¬ (t = a + 1) := by omega
  have p3 : ¬ (t = a) := by omega
  cases e
  · rw [storeUint32_LE_getD]
    simp only [p0, p1, p2, p3, false_and, if_false]
  · rw [storeUint32_BE_getD]
    simp only [p0, p1, p2, p3, false_and, if_false]

theorem loadUint32_testBit (e : ByteOrder) (s : List Nat) (a c u : Nat)
    (hs : ∀ t, s.getD t 0 < 256) (hc : c < 4) (hu : u < 8) :
    (loadUint32 e s a).testBit (8 * c + u) = (s.getD (a + bytePos e c) 0).testBit u := by
  cases e
  · exact loadUint32_LE_testBit s a c u hs hc hu
  · simp only [loadUint32, bytePos]
    rw [loadUint32_BE_comm, word_testBit _ _ _ _ _ (hs _) (hs _) (hs _) (hs _)]
    interval_cases c
    · simp only [hu, if_true, Nat.mul_zero, Nat.zero_add, Nat.sub_zero]
    · have c1 : ¬ (8 * 1 + u < 8) := by omega
      have c2 : 8 * 1 + u < 16 := by omega
      have c3 : 8 * 1 + u - 8 = u := by omega
      simp only [c1, c2, c3, if_true, if_false]
    · have c1 : ¬ (8 * 2 + u < 8) := by omega
      have c2 : ¬ (8 * 2 + u < 16) := by omega
      have c3 : 8 * 2 + u < 24 := by omega
      have c4 : 8 * 2 + u - 16 = u := by omega
      simp only [c1, c2, c3, c4, if_true, if_false]
    · have c1 : ¬ (8 * 3 + u < 8) := by omega
      have c2 : ¬ (8 * 3 + u < 16) := by omega
      have c3 : ¬ (8 * 3 + u < 24) := by omega
      have c4 : 8 * 3 + u - 24 = u := by omega
      simp only [c1, c2, c3, c4, if_false, Nat.sub_self, Nat.add_zero]

/-- Bit `i % 32` of the word of `i` is the bit of the store at `physByte i`. -/
theorem loadUint32_physBit (e : ByteOrder) (m : BitMap) (i : Nat) (hm : m.WF) :
    (loadUint32 e m.store (i / 32 * 4)).testBit (i % 32) = m.physBit e i := by
  have e1 : i % 32 = 8 * (i % 32 / 8) + i % 8 := by omega
  rw [e1, loadUint32_testBit e m.store _ _ _ hm.byte_lt (by omega) (by omega)]
  have e2 : (8 * (i % 32 / 8) + i % 8) / 8 = i % 32 / 8 := by omega
  unfold BitMap.physBit physByte
  rfl

/-- Operation `Get(i)` reads the bit of the store at `physByte i`, on either host. -/
theorem Get_physBit (e : ByteOrder) (m : BitMap) (i : Nat) (hm : m.WF)
    (hi : i / 32 * 4 < m.len) : m.Get e (i : Int) = some (m.physBit e i) := by
  rw [Get_of_load e m i hi, loadUint32_physBit e m i hm]

/-- On a little-endian host the byte `Set` and `Get` touch is byte `i / 8`. -/
theorem physByte_LE (i : Nat) : physByte ByteOrder.LittleEndian i = i / 8 := by
  simp only [physByte, bytePos]
  omega

/-- On a big-endian host the byte `Set` and `Get` touch is the mirror image of
byte `i / 8` in its word. -/
theorem physByte_BE (i : Nat) : physByte ByteOrder.BigEndian i = i / 32 * 4 + (3 - i % 32 / 8) := by
  simp only [physByte, bytePos]

theorem physByte_inj (e : ByteOrder) (i j : Nat) (h1 : physByte e i = physByte e j)
    (h2 : i % 8 = j % 8) : i = j := by
  cases e
  · rw [physByte_LE, physByte_LE] at h1
    omega
  · rw [physByte_BE, physByte_BE] at h1
    omega

/-- On either host `Set(i, v)` writes the bit of the store at `physByte i` and no
other, and lowers the hint to `i` when it clears a set bit below the hint. -/
theorem Set_physBits (e : ByteOrder) (m : BitMap) (i : Nat) (v : Bool) (hm : m.WF)
    (hi : i / 32 * 4 < m.len) :
    ∃ m1, m.Set e (i : Int) v = some m1 ∧ m1.len = m.len ∧ m1.WF ∧
      (∀ t u, (m1.store.getD t 0).testBit u =
        if t = physByte e i ∧ u = i % 8 then v else (m.store.getD t 0).testBit u) ∧
      m1.lastVacant =
        (if v = false ∧ m.physBit e i = true ∧ (i : Int) < m.lastVacant then (i : Int)
         else m.lastVacant) ∧
      m1.Set e (i : Int) v = some m1 := by
  have hk : i % 32 < 32 := Nat.mod_lt _ (by decide)
  have hl : ¬ m.len ≤ i / 32 * 4 := by omega
  have hold := loadUint32_lt e m.store (i / 32 * 4) hm.byte_lt
  have hbit := loadUint32_physBit e m i hm
  have hlen : i / 32 * 4 + 3 < m.store.length := by rw [hm.length_eq]; omega
  obtain ⟨m1, h1, hget⟩ := Set_Get_same e m i v hm hi
  obtain ⟨hwf, hlen1⟩ := Set_WF _ m m1 i v hm h1
  have hidem : m1.Set e (i : Int) v = some m1 := by
    have hi1 : i / 32 * 4 < m1.len := by rw [hlen1]; exact hi
    have hl1 : ¬ m1.len ≤ i / 32 * 4 := by omega
    rw [Get_of_load e m1 i hi1] at hget
    have hb1 : (loadUint32 e m1.store (i / 32 * 4)).testBit (i % 32) = v :=
      Option.some.inj hget
    rw [Set_natCast, if_neg hl1,
      setWord_eq_self _ _ v hk (loadUint32_lt e m1.store _ hwf.byte_lt) hb1]
    simp
  refine ⟨m1, h1, hlen1, hwf, ?_, ?_, hidem⟩
  all_goals
    rw [Set_natCast] at h1
    simp only [hl, if_false] at h1
  · by_cases h2 : loadUint32 e m.store (i / 32 * 4)
        = setWord (loadUint32 e m.store (i / 32 * 4)) (i % 32) v
    · rw [if_pos h2] at h1
      cases h1
      have hv : m.physBit e i = v := by
        rw [← hbit, h2]; exact setWord_testBit_self _ _ v hk
      intro t u
      by_cases hc : t = physByte e i ∧ u = i % 8
      · rw [if_pos hc, ← hv]
        obtain ⟨rfl, rfl⟩ := hc
        rfl
      · rw [if_neg hc]
    · rw [if_neg h2] at h1
      cases h1
      intro t u
      simp only []
      by_cases ht : t < i / 32 * 4 ∨ i / 32 * 4 + 4 ≤ t
      · rw [storeUint32_getD_out _ _ _ _ _ ht]
        have hc : ¬ (t = physByte e i ∧ u = i % 8) := by
          intro hc
          have := hc.1
          cases e <;> simp only [physByte, bytePos] at this <;> omega
        rw [if_neg hc]
      · obtain ⟨c, hc4, rfl⟩ : ∃ c, c < 4 ∧ t = i / 32 * 4 + bytePos e c := by
          cases e
          · exact ⟨t - i / 32 * 4, by omega, by simp only [bytePos]; omega⟩
          · exact ⟨3 - (t - i / 32 * 4), by omega, by simp only [bytePos]; omega⟩
        rw [storeUint32_getD_in _ _ _ _ c hc4 hlen, testBit_mod256, Nat.testBit_shiftRight]
        by_cases hu : u < 8
        · simp only [hu, decide_True, Bool.true_and]
          by_cases hku : i % 32 = 8 * c + u
          · have hc : i / 32 * 4 + bytePos e c = physByte e i ∧ u = i % 8 := by
              have hcc : c = i % 32 / 8 := by omega
              constructor
              · unfold physByte; rw [hcc]
              · omega
            rw [if_pos hc, ← hku]
            exact setWord_testBit_self _ _ v hk
          · have hc : ¬ (i / 32 * 4 + bytePos e c = physByte e i ∧ u = i % 8) := by
              intro hc
              have h5 := hc.1
              have h6 := hc.2
              cases e <;> simp only [physByte, bytePos] at h5 <;> omega
            rw [if_neg hc, setWord_testBit_other _ _ _ v (by omega) hku]
            exact loadUint32_testBit e m.store _ c u hm.byte_lt hc4 hu
        · have hc : ¬ (i / 32 * 4 + bytePos e c = physByte e i ∧ u = i % 8) := by omega
          rw [if_neg hc, byte_testBit_ge (hm.byte_lt _) (by omega)]
          simp [hu]
  · by_cases h2 : loadUint32 e m.store (i / 32 * 4)
        = setWord (loadUint32 e m.store (i / 32 * 4)) (i % 32) v
    · rw [if_pos h2] at h1
      cases h1
      have hv : m.physBit e i = v := by
        rw [← hbit, h2]; exact setWord_testBit_self _ _ v hk
      have hc : ¬ (v = false ∧ m.physBit e i = true ∧ (i : Int) < m.lastVacant) := by
        rintro ⟨a1, a2, _⟩
        rw [hv, a1] at a2
        exact Bool.noConfusion a2
      rw [if_neg hc]
    · rw [if_neg h2] at h1
      cases h1
      have hv : m.physBit e i ≠ v := by
        intro hv
        apply h2
        exact (setWord_eq_self _ _ v hk hold (by rw [hbit]; exact hv)).symm
      simp only []
      cases v
      · have hb : m.physBit e i = true := by
          cases hx : m.physBit e i
          · exact absurd hx hv
          · rfl
        simp [hb]
      · simp

/-- Every reachable bit map, on either host, has its hint at `-1` or above. -/
theorem Reachable_hint_ge (e : ByteOrder) (N : Int) (m : BitMap)
    (h : BitMap.Reachable e N m) : m.WF ∧ -1 ≤ m.lastVacant := by
  induction h with
  | new h0 =>
    obtain ⟨a1, a2, _⟩ := New_spec N _ h0
    exact ⟨a1, by rw [a2]; decide⟩
  | set _ h0 _ hs ih =>
    obtain ⟨n, rfl⟩ := Int.eq_ofNat_of_zero_le h0
    exact ⟨(Set_WF _ _ _ n _ ih.1 hs).1, Set_hint_ge _ _ _ n _ ih.2 hs⟩
  | find _ hf ih =>
    rcases FindVacantAndSet_spec _ ih.1 ih.2 with ⟨_, h2⟩ | ⟨j, k, _, _, _, _, _, _, h7⟩
    · rw [h2] at hf
      cases hf
      exact ⟨⟨ih.1.length_eq, ih.1.byte_lt⟩, by simp⟩
    · obtain ⟨w1, _⟩ := FindVacantAndSet_WF _ _ _ ih.1 hf
      rw [h7] at hf
      cases hf
      exact ⟨w1, by simp only []; omega⟩

/-! ## Claims on `Set`, `Get` and the store -/

/-- C13. On either host, in every state reachable from `New(N)` and for every
index `0 ≤ i < N` and value `v`: `Set(i, v)` returns a state on which a second
`Set(i, v)` changes nothing (store bytes and hint), and `Get(j)` is the same
before and after `Set(i, v)` for every index `j ≠ i`. -/
theorem C13_Set_idempotent_frame (e : ByteOrder) (N : Int) (m : BitMap) (i : Int) (v : Bool)
    (h : BitMap.Reachable e N m) (h0 : 0 ≤ i) (h1 : i < N) :
    ∃ m1, m.Set e i v = some m1 ∧ m1.Set e i v = some m1 ∧
      ∀ j : Nat, (j : Int) ≠ i → m1.Get e (j : Int) = m.Get e (j : Int) := by
  obtain ⟨hm, hlen⟩ := Reachable_WF e N m h
  obtain ⟨n, rfl⟩ := Int.eq_ofNat_of_zero_le h0
  obtain ⟨k, rfl⟩ := Int.eq_ofNat_of_zero_le (by omega : (0 : Int) ≤ N)
  have hl := hlen k rfl
  have hn : n < k := by exact_mod_cast h1
  obtain ⟨m1, s1, s2, s3, s4, _, s6⟩ := Set_physBits e m n v hm (by omega)
  refine ⟨m1, s1, s6, ?_⟩
  intro j hj
  have hjn : j ≠ n := fun hc => hj (by rw [hc])
  by_cases hin : j / 32 * 4 < m.len
  · rw [Get_physBit e m1 j s3 (by rw [s2]; exact hin), Get_physBit e m j hm hin]
    unfold BitMap.physBit
    rw [s4]
    have : ¬ (physByte e j = physByte e n ∧ j % 8 = n % 8) :=
      fun hc => hjn (physByte_inj e j n hc.1 hc.2)
    rw [if_neg this]
  · rw [Get_natCast, Get_natCast, s2]
    have : m.len ≤ j / 32 * 4 := by omega
    simp [this]

/-- C13 at the fresh bit map of `New(8)`, index 3, on a big-endian host. -/
theorem C13_witness :
    BitMap.Reachable ByteOrder.BigEndian 8 (BitMap.mk [0, 0, 0, 0] 1 0) ∧
    (0 : Int) ≤ 3 ∧ (3 : Int) < 8 ∧
    ∃ m1, (BitMap.mk [0, 0, 0, 0] 1 0).Set ByteOrder.BigEndian 3 true = some m1 ∧
      m1.Set ByteOrder.BigEndian 3 true = some m1 ∧
      ∀ j : Nat, (j : Int) ≠ 3 → m1.Get ByteOrder.BigEndian (j : Int)
        = (BitMap.mk [0, 0, 0, 0] 1 0).Get ByteOrder.BigEndian (j : Int) :=
  ⟨BitMap.Reachable.new (by decide), by decide, by decide,
   C13_Set_idempotent_frame ByteOrder.BigEndian 8 _ 3 true (BitMap.Reachable.new (by decide))
     (by decide) (by decide)⟩

/-- C18. On either host, in every state reachable from `New(N)` the slice has
`ceil(N / 8)` bytes and the backing array three more; for every index
`0 ≤ i < N` the byte index `(i / 32) * 4` of the word is inside the slice, the
last byte of the word is inside the backing array, and `Set` and `Get` return. -/
theorem C18_word_index_in_bounds (e : ByteOrder) (N : Int) (m : BitMap) (i : Int)
    (h : BitMap.Reachable e N m) (h0 : 0 ≤ i) (h1 : i < N) :
    (m.len : Int) = (N + 7) / 8 ∧ m.store.length = m.len + 3 ∧
    0 ≤ Int.tdiv i 32 * 4 ∧ Int.tdiv i 32 * 4 < (m.len : Int) ∧
    Int.tdiv i 32 * 4 + 3 < ((m.len + 3 : Nat) : Int) ∧
    (∃ r, m.Get e i = some r) ∧ ∀ v, ∃ m1, m.Set e i v = some m1 := by
  obtain ⟨hm, hlen⟩ := Reachable_WF e N m h
  obtain ⟨n, rfl⟩ := Int.eq_ofNat_of_zero_le h0
  obtain ⟨k, rfl⟩ := Int.eq_ofNat_of_zero_le (by omega : (0 : Int) ≤ N)
  have hl := hlen k rfl
  have hn : n < k := by exact_mod_cast h1
  have hi : n / 32 * 4 < m.len := by omega
  rw [wordIndex_natCast]
  refine ⟨by omega, hm.length_eq, by omega, by omega, by omega, ?_, ?_⟩
  · exact ⟨_, Get_of_load e m n hi⟩
  · intro v
    obtain ⟨m1, s1, _⟩ := Set_Get_same e m n v hm hi
    exact ⟨m1, s1⟩

/-- C18 at the fresh bit map of `New(33)`, index 32, whose word is bytes 4 to 7. -/
theorem C18_witness :
    BitMap.Reachable ByteOrder.LittleEndian 33 (BitMap.mk [0, 0, 0, 0, 0, 0, 0, 0] 5 0) ∧
    (0 : Int) ≤ 32 ∧ (32 : Int) < 33 ∧
    (((BitMap.mk [0, 0, 0, 0, 0, 0, 0, 0] 5 0).len : Int) = (33 + 7) / 8 ∧
     (BitMap.mk [0, 0, 0, 0, 0, 0, 0, 0] 5 0).store.length
       = (BitMap.mk [0, 0, 0, 0, 0, 0, 0, 0] 5 0).len + 3 ∧
     0 ≤ Int.tdiv 32 32 * 4 ∧
     Int.tdiv 32 32 * 4 < ((BitMap.mk [0, 0, 0, 0, 0, 0, 0, 0] 5 0).len : Int) ∧
     Int.tdiv 32 32 * 4 + 3 < (((BitMap.mk [0, 0, 0, 0, 0, 0, 0, 0] 5 0).len + 3 : Nat) : Int) ∧
     (∃ r, (BitMap.mk [0, 0, 0, 0, 0, 0, 0, 0] 5 0).Get ByteOrder.LittleEndian 32 = some r) ∧
     ∀ v, ∃ m1, (BitMap.mk [0, 0, 0, 0, 0, 0, 0, 0] 5 0).Set ByteOrder.LittleEndian 32 v
       = some m1) :=
  ⟨BitMap.Reachable.new (by decide), by decide, by decide,
   C18_word_index_in_bounds ByteOrder.LittleEndian 33 _ 32 (BitMap.Reachable.new (by decide))
     (by decide) (by decide)⟩

/-- C12: the code at failing inputs, on a big-endian host. On `New(32)`,
`Set(0, true)` sets bit 0 of store byte 3 and leaves bit 0 of byte 0 clear, so
`FindVacantAndSet` still hands out index 0; on the fresh bit map the index 0 that
`FindVacantAndSet` claims reads as false through `Get(0)`; and the first check of
`TestFindVacant` fails: after `Set` of 1, 2, 7, 31 the call returns 0 and `Get(0)`
is false. -/
theorem C12_big_endian_bit_mismatch :
    New 32 = some (BitMap.mk [0, 0, 0, 0, 0, 0, 0] 4 0) ∧
    (BitMap.mk [0, 0, 0, 0, 0, 0, 0] 4 0).Set ByteOrder.BigEndian 0 true
      = some (BitMap.mk [0, 0, 0, 1, 0, 0, 0] 4 0) ∧
    (BitMap.mk [0, 0, 0, 1, 0, 0, 0] 4 0).bit 0 = false ∧
    (BitMap.mk [0, 0, 0, 1, 0, 0, 0] 4 0).FindVacantAndSet
      = some (BitMap.mk [1, 0, 0, 1, 0, 0, 0] 4 0, 0) ∧
    (BitMap.mk [0, 0, 0, 0, 0, 0, 0] 4 0).FindVacantAndSet
      = some (BitMap.mk [1, 0, 0, 0, 0, 0, 0] 4 0, 0) ∧
    (BitMap.mk [1, 0, 0, 0, 0, 0, 0] 4 0).Get ByteOrder.BigEndian 0 = some false ∧
    setMany ByteOrder.BigEndian (BitMap.mk [0, 0, 0, 0, 0, 0, 0] 4 0) [1, 2, 7, 31]
      = some (BitMap.mk [128, 0, 0, 134, 0, 0, 0] 4 0) ∧
    (BitMap.mk [128, 0, 0, 134, 0, 0, 0] 4 0).FindVacantAndSet
      = some (BitMap.mk [129, 0, 0, 134, 0, 0, 0] 4 0, 0) ∧
    (BitMap.mk [129, 0, 0, 134, 0, 0, 0] 4 0).Get ByteOrder.BigEndian 0 = some false := by
  refine ⟨by decide, by decide, by decide, by decide, by decide, by decide, by decide,
    by decide, by decide⟩

/-- On a little-endian host, after `Set(i, true)` bit `i % 8` of store byte `i / 8`
is set, and an index claimed by `FindVacantAndSet` reads as true through `Get`. -/
theorem LE_same_physical_bit (N : Int) (m : BitMap) (i : Nat)
    (h : BitMap.Reachable ByteOrder.LittleEndian N m) (h1 : (i : Int) < N) :
    (∃ m1, m.Set ByteOrder.LittleEndian (i : Int) true = some m1 ∧
      (m1.store.getD (i / 8) 0).testBit (i % 8) = true) ∧
    (∀ m2 (k : Nat), m.FindVacantAndSet = some (m2, (k : Int)) →
      m2.Get ByteOrder.LittleEndian (k : Int) = some true) := by
  obtain ⟨hm, hh⟩ := Reachable_LE_inv N m h
  obtain ⟨_, hlen⟩ := Reachable_WF _ N m h
  obtain ⟨n, rfl⟩ := Int.eq_ofNat_of_zero_le (by omega : (0 : Int) ≤ N)
  have hl := hlen n rfl
  have hi : i < n := by exact_mod_cast h1
  constructor
  · obtain ⟨m1, s1, _, _, s4, _⟩ := Set_LE_bits m i true hm (by omega)
    refine ⟨m1, s1, ?_⟩
    rw [s4]
    simp
  · intro m2 k hf
    rcases FindVacantAndSet_bits m hm hh with ⟨_, h2⟩ | ⟨r, m1, b1, _, _, b4, b5, _, b7, b8, _, _⟩
    · rw [h2] at hf
      cases hf
    · rw [b4] at hf
      cases hf
      rw [Get_LE_bit m2 k b5 (by rw [b7]; omega), b8 k]
      simp

/-! ## The hint on a little-endian host -/

/-- On a little-endian host every reachable bit map has all bits below its hint
set, and the hint is at most the number of bits of the slice. -/
theorem Reachable_LE_hintBits (N : Int) (m : BitMap)
    (h : BitMap.Reachable ByteOrder.LittleEndian N m) :
    (∀ t : Nat, (t : Int) < m.lastVacant → m.bit t = true) ∧
      m.lastVacant ≤ ((8 * m.len : Nat) : Int) := by
  induction h with
  | new h0 =>
    obtain ⟨_, a2, _⟩ := New_spec N _ h0
    rw [a2]
    exact ⟨fun t ht => by omega, by omega⟩
  | @set m m1 i v hr h0 _ hs ih =>
    obtain ⟨n, rfl⟩ := Int.eq_ofNat_of_zero_le h0
    obtain ⟨hm, _⟩ := Reachable_LE_inv N m hr
    have hi := Set_some_index _ m m1 n v hs
    obtain ⟨m2, s1, s2, _, s4, s5⟩ := Set_LE_bits m n v hm hi
    rw [hs] at s1
    cases s1
    have hbits : ∀ t, t ≠ n → m1.bit t = m.bit t := by
      intro t ht
      unfold BitMap.bit
      rw [s4]
      have : ¬ (t / 8 = n / 8 ∧ t % 8 = n % 8) := by omega
      rw [if_neg this]
    have hself : m1.bit n = v := by
      unfold BitMap.bit
      rw [s4]
      simp
    by_cases hc : v = false ∧ m.bit n = true ∧ (n : Int) < m.lastVacant
    · rw [if_pos hc] at s5
      rw [s5, s2]
      refine ⟨?_, by have := ih.2; omega⟩
      intro t ht
      have htn : t < n := by exact_mod_cast ht
      rw [hbits t (by omega)]
      exact ih.1 t (by omega)
    · rw [if_neg hc] at s5
      rw [s5, s2]
      refine ⟨?_, ih.2⟩
      intro t ht
      by_cases htn : t = n
      · subst htn
        rw [hself]
        cases v
        · exact absurd ⟨rfl, ih.1 t ht, ht⟩ hc
        · rfl
      · rw [hbits t htn]
        exact ih.1 t ht
  | @find m m1 k hr hf ih =>
    obtain ⟨hm, hh⟩ := Reachable_LE_inv N m hr
    rcases FindVacantAndSet_bits m hm hh with ⟨_, h2⟩ | ⟨r, m2, b1, _, b3, b4, _, _, b7, b8, b9, _⟩
    · rw [h2] at hf
      cases hf
      exact ⟨fun t ht => by simp only [] at ht; omega, by simp only []; omega⟩
    · rw [b4] at hf
      cases hf
      rw [b9, b7]
      refine ⟨?_, by omega⟩
      intro t ht
      have htr : t < r := by exact_mod_cast ht
      rw [b8 t, b3 t htr]
      simp

/-- The hint on a little-endian host. In every state reachable from
`New(N)` by in-range `Set` calls and `FindVacantAndSet` calls, every bit with
index below the hint reads as set, so the hint is at most the index of any clear
bit, and `Set(i, false)` never raises the hint. -/
theorem hint_below_first_clear_LE (N : Int) (m : BitMap)
    (h : BitMap.Reachable ByteOrder.LittleEndian N m) :
    (∀ t : Nat, (t : Int) < m.lastVacant →
      m.Get ByteOrder.LittleEndian (t : Int) = some true) ∧
    (∀ r : Nat, m.Get ByteOrder.LittleEndian (r : Int) = some false →
      m.lastVacant ≤ (r : Int)) ∧
    (∀ i : Int, 0 ≤ i → i < N → ∃ m1, m.Set ByteOrder.LittleEndian i false = some m1 ∧
      m1.lastVacant ≤ m.lastVacant) := by
  obtain ⟨hm, _⟩ := Reachable_LE_inv N m h
  obtain ⟨hb, hle⟩ := Reachable_LE_hintBits N m h
  obtain ⟨_, hlen⟩ := Reachable_WF _ N m h
  have hget : ∀ t : Nat, (t : Int) < m.lastVacant →
      m.Get ByteOrder.LittleEndian (t : Int) = some true := by
    intro t ht
    rw [Get_LE_bit m t hm (by omega), hb t ht]
  refine ⟨hget, ?_, ?_⟩
  · intro r hr
    by_contra hc
    have := hget r (by omega)
    rw [hr] at this
    exact absurd this (by decide)
  · intro i h0 h1
    obtain ⟨j, rfl⟩ := Int.eq_ofNat_of_zero_le h0
    obtain ⟨n, rfl⟩ := Int.eq_ofNat_of_zero_le (by omega : (0 : Int) ≤ N)
    have hl := hlen n rfl
    have hj : j < n := by exact_mod_cast h1
    obtain ⟨m1, s1, _, _, _, s5⟩ := Set_LE_bits m j false hm (by omega)
    refine ⟨m1, s1, ?_⟩
    rw [s5]
    split <;> omega

/-- The hint at the fresh bit map of `New(8)` on a little-endian host. -/
theorem hint_below_first_clear_LE_new8 :
    BitMap.Reachable ByteOrder.LittleEndian 8 (BitMap.mk [0, 0, 0, 0] 1 0) ∧
    ((∀ t : Nat, (t : Int) < (BitMap.mk [0, 0, 0, 0] 1 0).lastVacant →
      (BitMap.mk [0, 0, 0, 0] 1 0).Get ByteOrder.LittleEndian (t : Int) = some true) ∧
    (∀ r : Nat, (BitMap.mk [0, 0, 0, 0] 1 0).Get ByteOrder.LittleEndian (r : Int) = some false →
      (BitMap.mk [0, 0, 0, 0] 1 0).lastVacant ≤ (r : Int)) ∧
    (∀ i : Int, 0 ≤ i → i < 8 →
      ∃ m1, (BitMap.mk [0, 0, 0, 0] 1 0).Set ByteOrder.LittleEndian i false = some m1 ∧
        m1.lastVacant ≤ (BitMap.mk [0, 0, 0, 0] 1 0).lastVacant)) :=
  ⟨BitMap.Reachable.new (by decide),
   hint_below_first_clear_LE 8 _ (BitMap.Reachable.new (by decide))⟩

/-- C17: the code at a failing input, on a big-endian host. On `New(64)`, after
56 calls of `FindVacantAndSet` and `Set(48, false)`, the hint is 48 while bit 40
of the store is clear and `Get(32)` is false. -/
theorem C17_hint_above_clear_bit_big_endian :
    New 64 = some (BitMap.mk [0, 0, 0, 0, 0, 0, 0, 0, 0, 0, 0] 8 0) ∧
    (callsFrom (BitMap.mk [0, 0, 0, 0, 0, 0, 0, 0, 0, 0, 0] 8 0) 56).map Prod.fst
      = some (BitMap.mk [255, 255, 255, 255, 255, 255, 255, 0, 0, 0, 0] 8 55) ∧
    (BitMap.mk [255, 255, 255, 255, 255, 255, 255, 0, 0, 0, 0] 8 55).Set
        ByteOrder.BigEndian 48 false
      = some (BitMap.mk [255, 255, 255, 255, 255, 254, 255, 0, 0, 0, 0] 8 48) ∧
    (BitMap.mk [255, 255, 255, 255, 255, 254, 255, 0, 0, 0, 0] 8 48).bit 40 = false ∧
    (BitMap.mk [255, 255, 255, 255, 255, 254, 255, 0, 0, 0, 0] 8 48).Get
        ByteOrder.BigEndian 32 = some false ∧
    (BitMap.mk [255, 255, 255, 255, 255, 254, 255, 0, 0, 0, 0] 8 48).FindVacantAndSet
      = some (BitMap.mk [255, 255, 255, 255, 255, 254, 255, 1, 0, 0, 0] 8 56, 56) := by
  refine ⟨by decide, by decide!, by decide, by decide, by decide, by decide⟩

/-! ## Values shorter than a slot -/

theorem readAt_getD (f : List Nat) (pos n j : Nat) (hj : j < n) :
    (readAt f pos n).getD j 0 = f.getD (pos + j) 0 := by
  unfold readAt
  simp only [List.getD_eq_getElem?_getD, List.getElem?_take, hj, if_true, List.getElem?_drop]

theorem readAt_take (f : List Nat) (pos n k : Nat) (hk : k ≤ n) :
    (readAt f pos n).take k = readAt f pos k := by
  unfold readAt
  rw [List.take_take, Nat.min_eq_left hk]

theorem readAt_length (f : List Nat) (pos n : Nat) :
    (readAt f pos n).length = min n (f.length - pos) := by
  unfold readAt
  simp only [List.length_take, List.length_drop]

/-- A flush cycle leaves the bytes of the slot of `x` beyond the length of the
value pending for `x` as they were. -/
theorem flush_slot_rest (iter : List (Nat × MyGOValue) → List (Nat × MyGOValue)) (b : Block)
    (x : Nat) (v : MyGOValue) (hinv : b.Inv) (hi : IterOrder iter)
    (hmem : (x, v) ∈ b.pendingChanges)
    (hsz : ∀ p ∈ b.pendingChanges, p.1 ≠ x → p.2.length ≤ 1024) (j : Nat)
    (hj1 : v.length ≤ j) (hj2 : j < 1024) :
    (b.flush iter).file.getD (b.slotPos x + j) 0 = b.file.getD (b.slotPos x + j) 0 := by
  have hne : ¬ b.pendingChanges.length = 0 := by
    intro h0
    rw [List.length_eq_zero.mp h0] at hmem
    cases hmem
  rw [flush_eq_foldl, if_neg hne, (foldl_flushStep_fields _ b).2.2.2.2]
  have hperm := hi b.pendingChanges
  apply foldl_write_getD_of_disjoint
  intro p hp
  have hp1 := hperm.mem_iff.mp hp
  by_cases hpx : p.1 = x
  · have hpv : p = (x, v) := by
      have hnd := hinv.keys_nodup
      by_contra hne2
      have := List.inj_on_of_nodup_map hnd hp1 hmem hpx
      exact hne2 this
    rw [hpv]
    simp only []
    omega
  · have := slot_disjoint b.offset p.1 x p.2.length (hinv.keys_range p hp1)
      (hinv.keys_range _ hmem) hpx (hsz p hp1 hpx)
    unfold Block.slotPos
    omega

/-- What `Put` of a value of at most 1024 bytes and a flush cycle leave in the
file and what `Get` then returns. -/
theorem Put_flush_short (e : ByteOrder)
    (iter iter2 : List (Nat × MyGOValue) → List (Nat × MyGOValue)) (b : Block)
    (v : MyGOValue) (hr : Block.Reachable e b)
    (hsz : ∀ p ∈ b.pendingChanges, p.2.length ≤ 1024) (hv : b.vacancy ≠ 0)
    (hlen : v.length ≤ 1024) (hi2 : IterOrder iter2) :
    ∃ b1 x, b.Put iter v = some (b1, none, x) ∧
      readAt (b1.flush iter2).file (b1.slotPos x) v.length = v ∧
      (∀ j, v.length ≤ j → j < 1024 →
        (b1.flush iter2).file.getD (b1.slotPos x + j) 0 = b1.file.getD (b1.slotPos x + j) 0) ∧
      ((b1.flush iter2).file.length < b1.slotPos x + 1024 → (b1.flush iter2).Get x = none) ∧
      (b1.slotPos x + 1024 ≤ (b1.flush iter2).file.length →
        ∃ w, (b1.flush iter2).Get x = some w) ∧
      (∀ w, (b1.flush iter2).Get x = some w →
        w.length = 1024 ∧ w.take v.length = v ∧
        ∀ j, v.length ≤ j → j < 1024 → w.getD j 0 = b1.file.getD (b1.slotPos x + j) 0) := by
  obtain ⟨b1, x, hp, _, _⟩ := Put_then_Get_reachable e iter b v hr hv
  obtain ⟨hinv1, hpend, _, _⟩ := Put_ok_fields iter b b1 v x (Reachable_Inv e b hr) hp
  have hmem : (x, v) ∈ b1.pendingChanges := by
    rw [hpend]; exact List.mem_cons_self _ _
  have hsz1 : ∀ p ∈ b1.pendingChanges, p.1 ≠ x → p.2.length ≤ 1024 := by
    intro p hp1 hpx
    rw [hpend] at hp1
    rcases List.mem_cons.mp hp1 with h | h
    · subst h; exact absurd rfl hpx
    · exact hsz p ((putStart_fields iter b).2.2.2 p (mem_mapDelete.mp h).1)
  have hnil := flush_pending_nil iter2 b1 hi2
  have hread := flush_readAt iter2 b1 x v hinv1 hi2 hmem hsz1
  rw [Nat.min_eq_left hlen, List.take_of_length_le hlen] at hread
  have hrest := flush_slot_rest iter2 b1 x v hinv1 hi2 hmem hsz1
  have hslot : (b1.flush iter2).slotPos x = b1.slotPos x := by
    unfold Block.slotPos
    rw [(flush_fields iter2 b1).2.2.1]
  have hget : (b1.flush iter2).Get x =
      if (readAt (b1.flush iter2).file (b1.slotPos x) 1024).length ≠ 1024 then none
      else some (readAt (b1.flush iter2).file (b1.slotPos x) 1024) := by
    unfold Block.Get
    rw [hnil, mapLookup_nil]
    simp only []
    rw [hslot]
  refine ⟨b1, x, hp, hread, hrest, ?_, ?_, ?_⟩
  · intro hshort
    rw [hget]
    have : (readAt (b1.flush iter2).file (b1.slotPos x) 1024).length ≠ 1024 := by
      rw [readAt_length]; omega
    rw [if_pos this]
  · intro hlong
    rw [hget]
    have : ¬ (readAt (b1.flush iter2).file (b1.slotPos x) 1024).length ≠ 1024 := by
      rw [readAt_length]; omega
    rw [if_neg this]
    exact ⟨_, rfl⟩
  · intro w hw
    rw [hget] at hw
    by_cases hc : (readAt (b1.flush iter2).file (b1.slotPos x) 1024).length ≠ 1024
    · rw [if_pos hc] at hw
      exact Option.noConfusion hw
    · rw [if_neg hc] at hw
      cases hw
      refine ⟨by omega, ?_, ?_⟩
      · rw [readAt_take _ _ _ _ hlen, hread]
      · intro j hj1 hj2
        rw [readAt_getD _ _ _ _ hj2]
        exact hrest j hj1 hj2

/-- C19, amended. In every reachable block state with non-zero vacancy whose
pending values respect the bound of `MyGOValue`, and for every value `v` shorter
than 1024 bytes: `Put(v)` returns `(nil, x)`; after a flush cycle the first
`len(v)` bytes of the file range of slot `x` are `v` and the remaining bytes of
the range are what the file held there before the flush (zero only where the
file did not reach); `Get(x)` panics when the file ends before the end of the
slot and otherwise returns those 1024 bytes. -/
theorem C19_short_value_keeps_file_tail (e : ByteOrder)
    (iter iter2 : List (Nat × MyGOValue) → List (Nat × MyGOValue)) (b : Block)
    (v : MyGOValue) (hr : Block.Reachable e b)
    (hsz : ∀ p ∈ b.pendingChanges, p.2.length ≤ 1024) (hv : b.vacancy ≠ 0)
    (hlen : v.length < 1024) (hi2 : IterOrder iter2) :
    ∃ b1 x, b.Put iter v = some (b1, none, x) ∧
      readAt (b1.flush iter2).file (b1.slotPos x) v.length = v ∧
      (∀ j, v.length ≤ j → j < 1024 →
        (b1.flush iter2).file.getD (b1.slotPos x + j) 0 = b1.file.getD (b1.slotPos x + j) 0) ∧
      ((b1.flush iter2).file.length < b1.slotPos x + 1024 → (b1.flush iter2).Get x = none) ∧
      (b1.slotPos x + 1024 ≤ (b1.flush iter2).file.length →
        ∃ w, (b1.flush iter2).Get x = some w) ∧
      (∀ w, (b1.flush iter2).Get x = some w →
        w.length = 1024 ∧ w.take v.length = v ∧
        ∀ j, v.length ≤ j → j < 1024 → w.getD j 0 = b1.file.getD (b1.slotPos x + j) 0) :=
  Put_flush_short e iter iter2 b v hr hsz hv (le_of_lt hlen) hi2

/-- C19 at the fresh block over an empty file, with a value of three bytes. -/
theorem C19_witness :
    Block.Reachable ByteOrder.LittleEndian block0 ∧
    (∀ p ∈ block0.pendingChanges, p.2.length ≤ 1024) ∧ block0.vacancy ≠ 0 ∧
    ([1, 2, 3] : MyGOValue).length < 1024 ∧ IterOrder id ∧
    ∃ b1 x, block0.Put id [1, 2, 3] = some (b1, none, x) ∧
      readAt (b1.flush id).file (b1.slotPos x) ([1, 2, 3] : MyGOValue).length = [1, 2, 3] ∧
      (∀ j, ([1, 2, 3] : MyGOValue).length ≤ j → j < 1024 →
        (b1.flush id).file.getD (b1.slotPos x + j) 0 = b1.file.getD (b1.slotPos x + j) 0) ∧
      ((b1.flush id).file.length < b1.slotPos x + 1024 → (b1.flush id).Get x = none) ∧
      (b1.slotPos x + 1024 ≤ (b1.flush id).file.length → ∃ w, (b1.flush id).Get x = some w) ∧
      (∀ w, (b1.flush id).Get x = some w →
        w.length = 1024 ∧ w.take ([1, 2, 3] : MyGOValue).length = [1, 2, 3] ∧
        ∀ j, ([1, 2, 3] : MyGOValue).length ≤ j → j < 1024 →
          w.getD j 0 = b1.file.getD (b1.slotPos x + j) 0) :=
  ⟨block0_Reachable _, fun _ hp => absurd hp (List.not_mem_nil _), by decide, by decide,
   iterOrder_id,
   C19_short_value_keeps_file_tail ByteOrder.LittleEndian id id block0 [1, 2, 3]
     (block0_Reachable _) (fun _ hp => absurd hp (List.not_mem_nil _)) (by decide) (by decide)
     iterOrder_id⟩

/-- C19, as stated, fails. Over a file of 2048 bytes that all hold 9, `Put` of the
one-byte value `[1]` returns slot 0 and after the flush `Get(0)` returns 1
followed by 1023 bytes 9, not by zeros; over an empty file the same calls leave a
file of one byte and `Get(0)` panics. -/
theorem C19_counterexample :
    NewBlock (List.replicate 2048 9) 0 = some blockNines ∧
    (∃ b1, blockNines.Put id [1] = some (b1, none, 0) ∧
      (b1.flush id).Get 0 = some (1 :: List.replicate 1023 9)) ∧
    (∃ b1, block0.Put id [1] = some (b1, none, 0) ∧
      (b1.flush id).file = [1] ∧ (b1.flush id).Get 0 = none) := by
  refine ⟨rfl, ⟨_, rfl, by decide!⟩, ⟨_, rfl, by decide!, by decide!⟩⟩

/-! ## The indices `Put` returns -/

/-- Successive `Put`s from a state satisfying the accounting invariant return
pairwise distinct slot indices whose bits were clear at the start. -/
theorem AccInv_putsFrom (iter : List (Nat × MyGOValue) → List (Nat × MyGOValue))
    (vs : List MyGOValue) (b : Block) (h : b.AccInv) :
    ∃ b1 xs, putsFrom iter vs b = some (b1, xs) ∧ b1.AccInv ∧ xs.Nodup ∧
      (∀ x ∈ xs, x < 1048576 ∧ b.bitmap.bit x = false ∧ b1.bitmap.bit x = true) ∧
      (∀ t, b.bitmap.bit t = true → b1.bitmap.bit t = true) := by
  induction vs generalizing b with
  | nil => exact ⟨b, [], rfl, h, List.nodup_nil, fun x hx => absurd hx (List.not_mem_nil _),
      fun t ht => ht⟩
  | cons v rest ih =>
    rcases AccInv_Put iter b v h with ⟨_, h2⟩ | ⟨_, b1, r, c1, c2, _, c4, c5, _, c7, _⟩
    · obtain ⟨b2, xs, d1, d2, d3, d4, d5⟩ := ih (putStart iter b) (putStart_AccInv iter b h)
      have hbm := (putStart_fields iter b).1
      rw [hbm] at d4 d5
      refine ⟨b2, xs, ?_, d2, d3, d4, d5⟩
      simp only [putsFrom, h2]
      exact d1
    · obtain ⟨b2, xs, d1, d2, d3, d4, d5⟩ := ih b1 c2
      have hr1 : b1.bitmap.bit r = true := by rw [c7 r]; simp
      refine ⟨b2, r :: xs, ?_, d2, ?_, ?_, ?_⟩
      · simp only [putsFrom, c1, d1]
      · refine List.nodup_cons.mpr ⟨?_, d3⟩
        intro hmem
        have := (d4 r hmem).2.1
        rw [hr1] at this
        exact Bool.noConfusion this
      · intro x hx
        rcases List.mem_cons.mp hx with hx | hx
        · subst hx
          exact ⟨c4, c5, d5 x hr1⟩
        · obtain ⟨e1, e2, e3⟩ := d4 x hx
          refine ⟨e1, ?_, e3⟩
          rw [c7 x] at e2
          cases hb : b.bitmap.bit x
          · rfl
          · rw [hb] at e2
            simp at e2
      · intro t ht
        apply d5
        rw [c7 t, ht]
        simp

/-- What `Put` returns on a little-endian host. In every block state reached from
`NewBlock` by `Put`s and by `Delete`s of occupied indices, a successful `Put`
returns an index below `2^20` whose allocator bit read false before the call and
reads true after it; successive `Put`s with no `Delete` in between all return, and
the indices of the successful ones are pairwise distinct and had clear bits. -/
theorem Put_returns_free_index_LE (k d : Nat) (b : Block) (h : Block.Run k d b)
    (iter : List (Nat × MyGOValue) → List (Nat × MyGOValue)) :
    (∀ data b1 x, b.Put iter data = some (b1, none, x) →
      x < 1048576 ∧ b.bitmap.Get ByteOrder.LittleEndian (x : Int) = some false ∧
      b1.bitmap.Get ByteOrder.LittleEndian (x : Int) = some true) ∧
    (∀ vs, ∃ b1 xs, putsFrom iter vs b = some (b1, xs) ∧ xs.Nodup ∧
      ∀ x ∈ xs, x < 1048576 ∧ b.bitmap.Get ByteOrder.LittleEndian (x : Int) = some false) := by
  obtain ⟨hacc, _⟩ := Run_AccInv k d b h
  have hlen := hacc.inv.len_eq
  have hget : ∀ x : Nat, x < 1048576 →
      b.bitmap.Get ByteOrder.LittleEndian (x : Int) = some (b.bitmap.bit x) :=
    fun x hx => Get_LE_bit _ x hacc.inv.wf (by omega)
  constructor
  · intro data b1 x hp
    rcases AccInv_Put iter b data hacc with ⟨_, h2⟩ | ⟨_, b2, r, c1, c2, _, c4, c5, _, c7, _⟩
    · rw [h2] at hp
      cases hp
    · rw [c1] at hp
      cases hp
      refine ⟨c4, by rw [hget x c4, c5], ?_⟩
      rw [Get_LE_bit _ x c2.inv.wf (by rw [c2.inv.len_eq]; omega), c7 x]
      simp
  · intro vs
    obtain ⟨b1, xs, d1, _, d3, d4, _⟩ := AccInv_putsFrom iter vs b hacc
    refine ⟨b1, xs, d1, d3, ?_⟩
    intro x hx
    obtain ⟨e1, e2, _⟩ := d4 x hx
    exact ⟨e1, by rw [hget x e1, e2]⟩

/-- What `Put` returns at the fresh block on a little-endian host. -/
theorem Put_returns_free_index_LE_block0 :
    Block.Run 0 0 block0 ∧
    ((∀ data b1 x, block0.Put id data = some (b1, none, x) →
      x < 1048576 ∧ block0.bitmap.Get ByteOrder.LittleEndian (x : Int) = some false ∧
      b1.bitmap.Get ByteOrder.LittleEndian (x : Int) = some true) ∧
    (∀ vs, ∃ b1 xs, putsFrom id vs block0 = some (b1, xs) ∧ xs.Nodup ∧
      ∀ x ∈ xs, x < 1048576 ∧
        block0.bitmap.Get ByteOrder.LittleEndian (x : Int) = some false)) :=
  ⟨Block.Run.init NewBlock_block0,
   Put_returns_free_index_LE 0 0 block0 (Block.Run.init NewBlock_block0) id⟩

/-- Operation `Put` in a state where exactly the bits below `j` are set leaves the
hint at `j`. -/
theorem PrefixSet_Put_hint (iter : List (Nat × MyGOValue) → List (Nat × MyGOValue))
    (b : Block) (data : MyGOValue) (j : Nat) (h : PrefixSet b j) (hj : j < 1048576)
    (hv : b.vacancy ≠ 0) :
    ∃ b1, b.Put iter data = some (b1, none, j) ∧ PrefixSet b1 (j + 1) ∧
      b1.vacancy + 1 = b.vacancy ∧ b1.bitmap.lastVacant = (j : Int) := by
  obtain ⟨b1, p1, q1, r1⟩ := PrefixSet_Put iter b data j h hj hv
  refine ⟨b1, p1, q1, r1, ?_⟩
  obtain ⟨hinv, hhint, hbits⟩ := h
  rcases FindVacantAndSet_bits b.bitmap hinv.wf hhint with
    ⟨g1, _⟩ | ⟨n, m1, c1, c2, c3, c4, _, _, _, _, c9, _⟩
  · have := g1 j (by rw [hinv.len_eq]; omega)
    rw [hbits j] at this
    simp at this
  · have hn : n = j := by
      rcases Nat.lt_trichotomy n j with hlt | heq | hgt
      · have := hbits n
        rw [c2] at this
        simp [hlt] at this
      · exact heq
      · have := c3 j hgt
        rw [hbits j] at this
        simp at this
    subst hn
    obtain ⟨f1, f2, _, _⟩ := putStart_fields iter b
    rw [Put_eq, f1, f2, if_neg hv, c4] at p1
    simp only [Option.some.injEq, Prod.mk.injEq] at p1
    rw [← p1.1]
    exact c9

/-- The first `n` successive `Put`s from a state where exactly the bits below `j`
are set return `j, …, j + n - 1` and leave the hint at the last of them. -/
theorem PrefixSet_putsFrom (iter : List (Nat × MyGOValue) → List (Nat × MyGOValue))
    (data : MyGOValue) (n : Nat) (b : Block) (j : Nat) (h : PrefixSet b j)
    (hj : j + n ≤ 1048576) (hv : n ≤ b.vacancy) :
    ∃ b1, putsFrom iter (List.replicate n data) b = some (b1, List.range' j n) ∧
      PrefixSet b1 (j + n) ∧ b1.vacancy + n = b.vacancy ∧
      (n ≠ 0 → b1.bitmap.lastVacant = ((j + n - 1 : Nat) : Int)) := by
  induction n generalizing b j with
  | zero => exact ⟨b, rfl, h, rfl, fun hc => absurd rfl hc⟩
  | succ n ih =>
    obtain ⟨b1, c1, c2, c3, c4⟩ := PrefixSet_Put_hint iter b data j h (by omega) (by omega)
    obtain ⟨b2, d1, d2, d3, d4⟩ := ih b1 (j + 1) c2 (by omega) (by omega)
    refine ⟨b2, ?_, ?_, by omega, ?_⟩
    · simp only [List.replicate_succ, putsFrom, c1, d1, List.range'_succ]
    · have : j + (n + 1) = j + 1 + n := by omega
      rw [this]; exact d2
    · intro _
      by_cases hn : n = 0
      · subst hn
        simp only [List.replicate_zero, putsFrom, Option.some.injEq, Prod.mk.injEq] at d1
        rw [← d1.1, c4]
        rfl
      · rw [d4 hn]
        have : j + 1 + n - 1 = j + (n + 1) - 1 := by omega
        rw [this]

/-- C16: the code at a failing input, on a big-endian host. On a fresh block 33
`Put`s return 0 to 32; index 7 is occupied and `Delete(7)` is called; the next
`Put` returns 31, an index returned before and never deleted, whose bit `Get`
reads as set. -/
theorem C16_Put_returns_held_index_big_endian :
    ∃ b33 b34 b35,
      NewBlock [] 0 = some block0 ∧
      putsFrom id (List.replicate 33 [1]) block0 = some (b33, List.range' 0 33) ∧
      (31 ∈ List.range' 0 33 ∧ 7 ∈ List.range' 0 33) ∧
      b33.bitmap.Get ByteOrder.BigEndian 7 = some true ∧
      b33.Delete ByteOrder.BigEndian 7 = some b34 ∧
      b34.bitmap.Get ByteOrder.BigEndian 31 = some true ∧
      b34.Put id [1] = some (b35, none, 31) := by
  have hv0 : block0.vacancy = 1048576 := rfl
  obtain ⟨b33, p1, q1, r1, l1⟩ := PrefixSet_putsFrom id [1] 33 block0 0 block0_PrefixSet
    (by decide) (by rw [hv0]; decide)
  have hlv : b33.bitmap.lastVacant = 32 := by
    have := l1 (by decide)
    simpa using this
  obtain ⟨hinv, hhint, hbits⟩ := q1
  have hlen := hinv.len_eq
  have hv33 : b33.vacancy = 1048543 := by omega
  have hp7 : physByte ByteOrder.BigEndian 7 = 3 := by decide
  have hp31 : physByte ByteOrder.BigEndian 31 = 0 := by decide
  have hphys7 : b33.bitmap.physBit ByteOrder.BigEndian 7 = true := by
    have := hbits 31
    unfold BitMap.bit at this
    unfold BitMap.physBit
    rw [hp7]
    simpa using this
  obtain ⟨m1, s1, s2, s3, s4, s5, _⟩ :=
    Set_physBits ByteOrder.BigEndian b33.bitmap 7 false hinv.wf (by rw [hlen]; decide)
  have hlv1 : m1.lastVacant = 7 := by
    rw [s5, hphys7, hlv]
    simp
  have hbits1 : ∀ t, m1.bit t = (decide (t ≠ 31) && decide (t < 0 + 33)) := by
    intro t
    have := hbits t
    unfold BitMap.bit at this ⊢
    rw [s4, hp7, this]
    by_cases ht : t = 31
    · subst ht
      simp
    · have : ¬ (t / 8 = 3 ∧ t % 8 = 7 % 8) := by omega
      rw [if_neg this]
      simp [ht]
  have hd : b33.Delete ByteOrder.BigEndian 7
      = some { bitmap := m1, vacancy := toUint32 ((b33.vacancy : Int) + 1),
               offset := b33.offset, pendingChanges := mapDelete b33.pendingChanges 7,
               file := b33.file } := by
    rw [Delete_eq]
    have : b33.bitmap.Set ByteOrder.BigEndian ((7 : Nat) : Int) false = some m1 := s1
    rw [this]
  have hinv34 := Delete_Inv _ b33 _ 7 hinv hd
  have hhint1 : m1.HintOK := by
    refine ⟨by rw [hlv1]; decide, ?_⟩
    intro t ht
    rw [scanStart_of_natCast m1 7 hlv1] at ht
    omega
  have hvac34 : toUint32 ((b33.vacancy : Int) + 1) = 1048544 := by
    rw [hv33]; decide
  have hget7 : b33.bitmap.Get ByteOrder.BigEndian ((7 : Nat) : Int) = some true := by
    rw [Get_physBit _ _ 7 hinv.wf (by rw [hlen]; decide), hphys7]
  have hget31 : m1.Get ByteOrder.BigEndian ((31 : Nat) : Int) = some true := by
    rw [Get_physBit _ _ 31 s3 (by rw [s2, hlen]; decide)]
    have := hbits1 7
    unfold BitMap.bit at this
    unfold BitMap.physBit
    rw [hp31]
    simpa using this
  rcases Inv_Put id _ [1] hinv34 with ⟨h1, _⟩ | ⟨_, bm, r, c1, _, _, c4⟩
  · simp only [hvac34] at h1
    exact absurd h1 (by decide)
  · simp only [] at c1
    rcases FindVacantAndSet_bits m1 s3 hhint1 with
      ⟨g1, _⟩ | ⟨n, m2, e1, e2, e3, e4, _⟩
    · have := g1 31 (by rw [s2, hlen]; decide)
      rw [hbits1 31] at this
      simp at this
    · have hn : n = 31 := by
        rcases Nat.lt_trichotomy n 31 with hlt | heq | hgt
        · have := hbits1 n
          rw [e2] at this
          have h33 : n < 0 + 33 := by omega
          have hne : n ≠ 31 := by omega
          simp [h33, hne] at this
        · exact heq
        · have := e3 31 hgt
          rw [hbits1 31] at this
          simp at this
      subst hn
      rw [e4] at c1
      cases c1
      have hu : toUint32 ((31 : Nat) : Int) = 31 := by decide
      rw [hu] at c4
      exact ⟨b33, _, _, NewBlock_block0, p1, by decide, hget7, hd, hget31, c4⟩

end LibMyGo
